import Mathlib

/-!
# 3DdemoSTM32 raycaster core: `Core/Raycaster/engine.c`, `engine.h`

A shallow embedding of the engine's movement and raycasting code.

Numbers.  A C `float` is modelled by `Flt K`: an exact element of an ordered
field `K` (no rounding, no overflow), or one of the IEEE-754 special values
`+inf`, `-inf`, `NaN`.  Arithmetic and comparisons on the special values follow
IEEE-754: `x / 0` is an infinity for `x ≠ 0` and `NaN` for `x = 0`, every
comparison with `NaN` is false.  The sign of zero is not tracked: a zero is
`+0`.  A decimal literal such as `0.050f` denotes its decimal value.  With
`K = ℚ` every definition below is executable; `K = ℝ` is used where the C
library's `sinf`, `cosf`, `sqrtf` are taken exact.  Where the rounding of the
target's binary32 arithmetic decides a property of the raycaster, the section
on binary32 rounding gives `r_raycast` with every float operation rounded
(`r_raycast_rnd`, `binary32`).

Integers.  A C `int` is modelled by `Int` (the engine's rays span at most a few
hundred cells).

Control.  The `for` loop of `r_raycast` is driven by an explicit fuel counter;
reads outside the level array, failed `assert`s and a float-to-int cast of a
non-finite value are reported as faults.
-/

namespace Engine

/-! ## Floats -/

/-- An IEEE-754 value whose finite part is exact. -/
inductive Flt (K : Type) where
  | fin (q : K)
  | pinf
  | ninf
  | nan
  deriving DecidableEq, Repr

namespace Flt

variable {K : Type} [LinearOrderedField K] [FloorRing K]

/-- Conversion of a C `int` to `float`. -/
def ofInt (i : Int) : Flt K := .fin (i : K)

/-- Unary minus. -/
def neg : Flt K → Flt K
  | .fin a => .fin (-a)
  | .pinf => .ninf
  | .ninf => .pinf
  | .nan => .nan

/-- Float addition: `inf + -inf` is `NaN`. -/
def add : Flt K → Flt K → Flt K
  | .fin a, .fin b => .fin (a + b)
  | .fin _, .pinf => .pinf
  | .fin _, .ninf => .ninf
  | .pinf, .fin _ => .pinf
  | .ninf, .fin _ => .ninf
  | .pinf, .pinf => .pinf
  | .ninf, .ninf => .ninf
  | _, _ => .nan

/-- Float subtraction. -/
def sub (a b : Flt K) : Flt K := add a (neg b)

/-- The infinity with the sign of `s`, `NaN` for `s = 0`. -/
def infTimes (s : K) : Flt K :=
  if s = 0 then .nan else if 0 < s then .pinf else .ninf

/-- Float multiplication: `0 * inf` is `NaN`. -/
def mul : Flt K → Flt K → Flt K
  | .fin a, .fin b => .fin (a * b)
  | .fin a, .pinf => infTimes a
  | .fin a, .ninf => infTimes (-a)
  | .pinf, .fin b => infTimes b
  | .ninf, .fin b => infTimes (-b)
  | .pinf, .pinf => .pinf
  | .ninf, .ninf => .pinf
  | .pinf, .ninf => .ninf
  | .ninf, .pinf => .ninf
  | _, _ => .nan

/-- Float division: `x / 0` is an infinity for `x ≠ 0`, `0 / 0` and `inf / inf`
are `NaN`.  A zero divisor counts as `+0`. -/
def div : Flt K → Flt K → Flt K
  | .fin a, .fin b => if b = 0 then infTimes a else .fin (a / b)
  | .fin _, .pinf => .fin 0
  | .fin _, .ninf => .fin 0
  | .pinf, .fin b => if 0 ≤ b then .pinf else .ninf
  | .ninf, .fin b => if 0 ≤ b then .ninf else .pinf
  | _, _ => .nan

instance : Neg (Flt K) := ⟨neg⟩
instance : Add (Flt K) := ⟨add⟩
instance : Sub (Flt K) := ⟨sub⟩
instance : Mul (Flt K) := ⟨mul⟩
instance : Div (Flt K) := ⟨div⟩

/-- C `a < b`: false when an operand is `NaN`. -/
def lt : Flt K → Flt K → Bool
  | .fin a, .fin b => decide (a < b)
  | .fin _, .pinf => true
  | .ninf, .fin _ => true
  | .ninf, .pinf => true
  | _, _ => false

/-- C `a <= b`: false when an operand is `NaN`. -/
def le : Flt K → Flt K → Bool
  | .fin a, .fin b => decide (a ≤ b)
  | .fin _, .pinf => true
  | .ninf, .fin _ => true
  | .ninf, .pinf => true
  | .pinf, .pinf => true
  | .ninf, .ninf => true
  | _, _ => false

/-- C `a == b`: false when an operand is `NaN`. -/
def eq : Flt K → Flt K → Bool
  | .fin a, .fin b => decide (a = b)
  | .pinf, .pinf => true
  | .ninf, .ninf => true
  | _, _ => false

/-- C `a > b`. -/
def gt (a b : Flt K) : Bool := lt b a

/-- C `a >= b`. -/
def ge (a b : Flt K) : Bool := le b a

/-- C `a != b`: true when an operand is `NaN`. -/
def ne (a b : Flt K) : Bool := !(eq a b)

/-- The C library's `ceilf`. -/
def ceilf : Flt K → Flt K
  | .fin a => .fin ((⌈a⌉ : Int) : K)
  | x => x

/-- The C library's `floorf`. -/
def floorf : Flt K → Flt K
  | .fin a => .fin ((⌊a⌋ : Int) : K)
  | x => x

/-- The C library's `fabsf`. -/
def fabsf : Flt K → Flt K
  | .fin a => .fin |a|
  | .pinf => .pinf
  | .ninf => .pinf
  | .nan => .nan

/-- The cast `(int)x`: truncation toward zero; undefined in C for a non-finite
`x`, reported as `none`. -/
def toInt : Flt K → Option Int
  | .fin a => some (if 0 ≤ a then ⌊a⌋ else ⌈a⌉)
  | _ => none

end Flt

/-! ## engine.h -/

/-- Faults that end a run without a result. -/
inductive Fault where
  | fuel
  | outOfBounds
  | assertion
  | cast
  deriving DecidableEq, Repr

/-- The macro `r_min(x, y)`: `((x) < (y)) ? (x) : (y)`. -/
def r_min {K : Type} [LinearOrderedField K] (x y : Flt K) : Flt K :=
  if Flt.lt x y then x else y

/-- The macro `r_signum(x)`: `(x) == 0 ? 0 : (x) < 0 ? -1 : 1`. -/
def r_signum {K : Type} [LinearOrderedField K] (x : Flt K) : Int :=
  if Flt.eq x (.fin 0) then 0 else if Flt.lt x (.fin 0) then -1 else 1

/-- The struct `vertex_t`: north and east component. -/
structure vertex_t (K : Type) where
  n : Flt K
  e : Flt K
  deriving DecidableEq, Repr

/-- The struct `gamestate_t`; `level` is the byte array behind the pointer. -/
structure gamestate_t (K : Type) where
  player_pos : vertex_t K
  player_dir : vertex_t K
  level : List Nat
  level_width : Int
  level_height : Int

/-! ## r_raycast -/

/-- What `r_raycast` returns and writes through its out-parameters: on a miss
it returns 0 and writes only `f`; on a hit it returns the cell value `b` and
writes all seven outputs. -/
inductive RayResult (K : Type) where
  | miss (f : Flt K)
  | hit (b : Nat) (xHit yHit : Flt K) (xBlock yBlock : Int)
      (xNormal yNormal : Int) (f : Flt K)
  deriving DecidableEq, Repr

/-- The value `r_raycast` returns. -/
def RayResult.ret {K : Type} : RayResult K → Nat
  | .miss _ => 0
  | .hit b _ _ _ _ _ _ _ => b

/-- The `for (float dist = 0.0f; dist <= 1.0f;)` loop of `r_raycast`, entered
at its condition with the loop variables `tMaxX tMaxY x y dist`. -/
def r_raycast_loop {K : Type} [LinearOrderedField K] [FloorRing K]
    (map : List Nat) (width height : Int)
    (fStartX fStartY dx dy : Flt K) (stepX stepY : Int) (tDeltaX tDeltaY : Flt K) :
    Nat → Flt K → Flt K → Int → Int → Flt K → Except Fault (RayResult K)
  | fuel, tMaxX, tMaxY, x, y, dist =>
    if Flt.le dist (.fin 1) then
      match fuel with
      | 0 => .error .fuel
      | fuel + 1 =>
        let dist := r_min tMaxX tMaxY
        let c := Flt.lt tMaxX tMaxY
        let tMaxX1 := if c then tMaxX + tDeltaX else tMaxX
        let tMaxY1 := if c then tMaxY else tMaxY + tDeltaY
        let x1 := if c then x + stepX else x
        let y1 := if c then y else y + stepY
        let nx := if c then stepX else 0
        let ny := if c then 0 else stepY
        if x1 < 0 ∨ x1 ≥ width ∨ y1 < 0 ∨ y1 ≥ height then
          r_raycast_loop map width height fStartX fStartY dx dy stepX stepY
            tDeltaX tDeltaY fuel tMaxX1 tMaxY1 x1 y1 dist
        else
          let ymap := height - 1 - y1
          match map[(ymap * width + x1).toNat]? with
          | none => .error .outOfBounds
          | some b =>
            if b > 0 then
              if b ≤ 7 then
                .ok (.hit b (fStartX + dx * dist) (fStartY + dy * dist) x1 y1
                  (-nx) (-ny) dist)
              else .error .assertion
            else
              r_raycast_loop map width height fStartX fStartY dx dy stepX stepY
                tDeltaX tDeltaY fuel tMaxX1 tMaxY1 x1 y1 dist
    else .ok (.miss (.fin 1))

/-- The function `r_raycast`, with all out-parameters requested. -/
def r_raycast {K : Type} [LinearOrderedField K] [FloorRing K] (fuel : Nat)
    (map : List Nat) (width height : Int)
    (fStartX fStartY fEndX fEndY : Flt K) : Except Fault (RayResult K) :=
  let dx := fEndX - fStartX
  let dy := fEndY - fStartY
  let stepX := r_signum dx
  let stepY := r_signum dy
  let tDeltaX := Flt.ofInt stepX / dx
  let tDeltaY := Flt.ofInt stepY / dy
  let fbX_ := if Flt.ge dx (.fin 0) then Flt.ceilf fStartX else Flt.floorf fStartX
  let fbY_ := if Flt.ge dy (.fin 0) then Flt.ceilf fStartY else Flt.floorf fStartY
  let dfX := fbX_ - fStartX
  let dfY := fbY_ - fStartY
  let tMaxX := (if Flt.ne dfX (.fin 0) then dfX else Flt.ofInt stepX) / dx
  let tMaxY := (if Flt.ne dfY (.fin 0) then dfY else Flt.ofInt stepY) / dy
  match Flt.toInt fStartX, Flt.toInt fStartY with
  | some x, some y =>
    r_raycast_loop map width height fStartX fStartY dx dy stepX stepY
      tDeltaX tDeltaY fuel tMaxX tMaxY x y (.fin 0)
  | _, _ => .error .cast

/-! ## Vector math -/

/-- The C library's `sinf`, `cosf`, `sqrtf`, `tanf` on finite arguments.  The
library is not part of the repository: it is a parameter of the model. -/
structure Libm (K : Type) where
  sin : K → K
  cos : K → K
  sqrt : K → K
  tan : K → K

/-- The C library's `sinf`: `NaN` outside the finite numbers. -/
def sinf {K : Type} (lm : Libm K) : Flt K → Flt K
  | .fin a => .fin (lm.sin a)
  | _ => .nan

/-- The C library's `cosf`: `NaN` outside the finite numbers. -/
def cosf {K : Type} (lm : Libm K) : Flt K → Flt K
  | .fin a => .fin (lm.cos a)
  | _ => .nan

/-- The C library's `sqrtf`: `NaN` on negative numbers, `+inf` at `+inf`. -/
def sqrtf {K : Type} [LinearOrderedField K] (lm : Libm K) : Flt K → Flt K
  | .fin a => if a < 0 then .nan else .fin (lm.sqrt a)
  | .pinf => .pinf
  | _ => .nan

/-- The constant `EPSILON`, `0.00001f`. -/
def EPSILON {K : Type} [LinearOrderedField K] : Flt K := .fin (1 / 100000)

/-- The constant `PLANE_OFFSET` of `g_move`, `0.050f`. -/
def PLANE_OFFSET {K : Type} [LinearOrderedField K] : Flt K := .fin (5 / 100)

/-- The decimal literal `3.14159265358979323846264338327950288` of `M_PI_F`. -/
def M_PI_F_literal {K : Type} [LinearOrderedField K] : K :=
  314159265358979323846264338327950288 / 100000000000000000000000000000000000

/-- The constant `M_PI_F` of `engine.h`. -/
def M_PI_F {K : Type} [LinearOrderedField K] : Flt K := .fin M_PI_F_literal

/-- The function `m_rayPlaneIntersection`: `none` is the return value `false`
(`*f` is not written), `some f` is `true` with the value written to `*f`. -/
def m_rayPlaneIntersection {K : Type} [LinearOrderedField K] [FloorRing K]
    (planeNormal : vertex_t K) (planeD : Flt K) (rayStart rayDir : vertex_t K) :
    Option (Flt K) :=
  let q := planeNormal.e * rayDir.e + planeNormal.n * rayDir.n
  if Flt.lt (Flt.fabsf q) EPSILON then none
  else some (-(planeNormal.n * rayStart.n + planeNormal.e * rayStart.e + planeD) / q)

/-- The function `m_rotateVertex`; its `assert` on the squared length is a
fault when it fails. -/
def m_rotateVertex {K : Type} [LinearOrderedField K] [FloorRing K] (lm : Libm K)
    (v : vertex_t K) (angleRad : Flt K) : Except Fault (vertex_t K) :=
  let len := v.n * v.n + v.e * v.e
  if Flt.gt len (.fin (99 / 100)) && Flt.lt len (.fin (101 / 100)) then
    let n := v.n
    let e := v.e
    let s := sinf lm angleRad
    let c := cosf lm angleRad
    .ok { n := c * n - s * e, e := s * n + c * e }
  else .error .assertion

/-- The function `m_normalize`. -/
def m_normalize {K : Type} [LinearOrderedField K] [FloorRing K] (lm : Libm K)
    (v : vertex_t K) : vertex_t K :=
  let ilen := Flt.fin 1 / sqrtf lm (v.n * v.n + v.e * v.e)
  { n := v.n * ilen, e := v.e * ilen }

/-! ## Game -/

/-- The function `g_move`: the new `*pos_current`. -/
def g_move {K : Type} [LinearOrderedField K] [FloorRing K] (fuel : Nat)
    (pos_current dx : vertex_t K) (map : List Nat) (map_width map_height : Int) :
    Except Fault (vertex_t K) :=
  if Flt.eq dx.e (.fin 0) && Flt.eq dx.n (.fin 0) then .ok pos_current
  else
    match r_raycast fuel map map_width map_height pos_current.e pos_current.n
        (pos_current.e + dx.e) (pos_current.n + dx.n) with
    | .error err => .error err
    | .ok (.miss _) => .ok { n := pos_current.n + dx.n, e := pos_current.e + dx.e }
    | .ok (.hit _ xHit yHit _ _ eNormal nNormal f) =>
      if Flt.gt f (.fin 1) then
        .ok { n := pos_current.n + dx.n, e := pos_current.e + dx.e }
      else
        let n : vertex_t K := { n := Flt.ofInt nNormal, e := Flt.ofInt eNormal }
        let plane_d := -(n.e * xHit + n.n * yHit) - PLANE_OFFSET
        let f :=
          match m_rayPlaneIntersection n plane_d pos_current dx with
          | some f1 => f1
          | none => f
        let q : vertex_t K := { n := dx.n * f, e := dx.e * f }
        .ok { n := pos_current.n + q.n, e := pos_current.e + q.e }

/-- The indices `SDL_SCANCODE_W/S/A/D` of `sdl_scancodes.h`, a header that is
not among the sources: a parameter of the model. -/
structure Scancodes where
  W : Nat
  S : Nat
  A : Nat
  D : Nat

/-- The function `g_update`; `kb` is the byte array behind the pointer. -/
def g_update {K : Type} [LinearOrderedField K] [FloorRing K] (lm : Libm K)
    (sc : Scancodes) (fuel : Nat) (dt_sec : Flt K) (kb : Nat → Nat)
    (game : gamestate_t K) : Except Fault (gamestate_t K) :=
  let f : Flt K := .fin 1 * Flt.ofInt (kb sc.W) - .fin 1 * Flt.ofInt (kb sc.S)
  let dx : vertex_t K :=
    { n := game.player_dir.n * .fin (125 / 100) * f * dt_sec,
      e := game.player_dir.e * .fin (125 / 100) * f * dt_sec }
  match g_move fuel game.player_pos dx game.level game.level_width game.level_height with
  | .error err => .error err
  | .ok pos =>
    let dir : Flt K :=
      .fin (-1) * Flt.ofInt (if kb sc.A ≠ 0 then 1 else 0)
        + .fin 1 * Flt.ofInt (if kb sc.D ≠ 0 then 1 else 0)
    let da := .fin 45 * dir * M_PI_F / .fin 180 * dt_sec
    match m_rotateVertex lm (m_normalize lm game.player_dir) da with
    | .error err => .error err
    | .ok d => .ok { game with player_pos := pos, player_dir := d }

/-- The update `g_update` applied `frames` times with the same `dt_sec` and
`kb`, as the main loop does frame after frame. -/
def g_update_n {K : Type} [LinearOrderedField K] [FloorRing K] (lm : Libm K)
    (sc : Scancodes) (fuel : Nat) (dt_sec : Flt K) (kb : Nat → Nat) :
    Nat → gamestate_t K → Except Fault (gamestate_t K)
  | 0, game => .ok game
  | frames + 1, game =>
    match g_update lm sc fuel dt_sec kb game with
    | .error err => .error err
    | .ok game1 => g_update_n lm sc fuel dt_sec kb frames game1

/-! ## Framebuffer and textures -/

/-- The constant `WIDTH`. -/
def WIDTH : Nat := 240

/-- The constant `HEIGHT`. -/
def HEIGHT : Nat := 320

/-- The constant `BPP`. -/
def BPP : Nat := 4

/-- The constant `FOV`, `60.0f`. -/
def FOV {K : Type} [LinearOrderedField K] : Flt K := .fin 60

/-- The macro `COLOR(r,g,b)`:
`((uint32_t)(0xff000000 | ((r) << 16) | ((g) << 8) | (b)))`. -/
def COLOR (r g b : Nat) : Nat :=
  (0xff000000 ||| (r <<< 16) ||| (g <<< 8) ||| b) % 2 ^ 32

/-- The macro `r_min(x, y)` on `int` operands. -/
def r_min_int (x y : Int) : Int := if x < y then x else y

/-- The memory behind the framebuffer pointer, byte by byte: `fb i` is the byte
at offset `i`.  `r_render` receives it as `uint32_t*` and `r_drawcolumn` as
`uint8_t*`; the target (Cortex-M4) is little-endian. -/
abbrev Framebuffer := Nat → Nat

/-- The store `((uint8_t*)fb)[i] = v`; a negative offset is a fault. -/
def storeByte (fb : Framebuffer) (i : Int) (v : Nat) : Except Fault Framebuffer :=
  if i < 0 then .error .outOfBounds
  else .ok (fun a => if a = i.toNat then v % 256 else fb a)

/-- The store `((uint32_t*)fb)[i] = w` on a little-endian target: four bytes,
least significant first. -/
def storeWord (fb : Framebuffer) (i : Nat) (w : Nat) : Framebuffer :=
  fun a =>
    if a = 4 * i then w % 256
    else if a = 4 * i + 1 then w / 256 % 256
    else if a = 4 * i + 2 then w / 65536 % 256
    else if a = 4 * i + 3 then w / 16777216 % 256
    else fb a

/-- The load `((uint32_t*)fb)[i]` on a little-endian target. -/
def loadWord (fb : Framebuffer) (i : Nat) : Nat :=
  fb (4 * i) + 256 * fb (4 * i + 1) + 65536 * fb (4 * i + 2) + 16777216 * fb (4 * i + 3)

/-- The struct `texture_t`; `pixels` is the byte array behind the pointer. -/
structure texture_t where
  pixels : List Nat
  width : Int
  height : Int
  rowlength : Int
  bytesperpixel : Int

/-- The read `t->pixels[i]` of an `unsigned char`; an offset outside the array
is a fault. -/
def texture_t.read (t : texture_t) (i : Int) : Except Fault Nat :=
  if i < 0 then .error .outOfBounds
  else
    match t.pixels[i.toNat]? with
    | none => .error .outOfBounds
    | some v => .ok (v % 256)

/-- A C loop `for (i = lo; i < lo + count; i++) body`, for a body that never
leaves the loop early. -/
def forLoop {σ : Type} (body : Nat → σ → σ) : Nat → Nat → σ → σ
  | 0, _, s => s
  | count + 1, lo, s => forLoop body count (lo + 1) (body lo s)

/-- The function `r_drawBackground`. -/
def r_drawBackground (fb : Framebuffer) : Framebuffer :=
  let fb1 := forLoop (fun y fb =>
      forLoop (fun x fb => storeWord fb (y * WIDTH + x) (COLOR 10 169 216)) WIDTH 0 fb)
    (HEIGHT / 2) 0 fb
  forLoop (fun y fb =>
      forLoop (fun x fb => storeWord fb (y * WIDTH + x) (COLOR 108 108 108)) WIDTH 0 fb)
    (HEIGHT - HEIGHT / 2) (HEIGHT / 2) fb1

/-- The `for (int c = y_high; c < y_low; c++)` loop of `r_drawcolumn`, with
`count` iterations left, entered with the loop variables `c` and `ty`. -/
def r_drawcolumn_loop {K : Type} [LinearOrderedField K] [FloorRing K]
    (t : texture_t) (x : Int) (rl tx bpp : Int) (ty_stride : Flt K) (transparency : Bool) :
    Nat → Int → Flt K → Framebuffer → Except Fault Framebuffer
  | 0, _, _, framebuf => .ok framebuf
  | count + 1, c, ty, framebuf =>
    match Flt.toInt ty with
    | none => .error .cast
    | some ity =>
      if ¬ (ity < t.height) then .error .assertion
      else if ¬ (ity * rl + tx * bpp + 2 < t.rowlength * t.height) then .error .assertion
      else if ¬ (c * WIDTH * BPP + x * BPP + 2 < WIDTH * HEIGHT * BPP) then .error .assertion
      else
        match t.read (ity * rl + tx * bpp + 0), t.read (ity * rl + tx * bpp + 1),
            t.read (ity * rl + tx * bpp + 2) with
        | .ok R, .ok G, .ok B =>
          let ty1 := ty + ty_stride
          if transparency && R == 0xff && G == 0x0 && B == 0xff then
            r_drawcolumn_loop t x rl tx bpp ty_stride transparency count (c + 1) ty1 framebuf
          else
            match storeByte framebuf (c * WIDTH * BPP + x * BPP + 0) R with
            | .error err => .error err
            | .ok fb1 =>
              match storeByte fb1 (c * WIDTH * BPP + x * BPP + 1) G with
              | .error err => .error err
              | .ok fb2 =>
                match storeByte fb2 (c * WIDTH * BPP + x * BPP + 2) B with
                | .error err => .error err
                | .ok fb3 =>
                  r_drawcolumn_loop t x rl tx bpp ty_stride transparency count (c + 1) ty1 fb3
        | _, _, _ => .error .outOfBounds

/-- The function `r_drawcolumn`; its `assert`s are faults when they fail. -/
def r_drawcolumn {K : Type} [LinearOrderedField K] [FloorRing K]
    (framebuf : Framebuffer) (t : texture_t) (x y_high y_low : Int) (tex_column : Flt K)
    (transparency : Bool) : Except Fault Framebuffer :=
  if ¬ (y_low > y_high) then .error .assertion
  else if ¬ (x ≥ 0 ∧ x < WIDTH) then .error .assertion
  else if ¬ (Flt.ge tex_column (.fin 0) && Flt.le tex_column (.fin 1)) then .error .assertion
  else
    let ylen := y_low - y_high
    if ylen < 1 ∨ y_low < 0 then .ok framebuf
    else
      let rl := t.rowlength
      match Flt.toInt (tex_column * Flt.ofInt (t.width - 1)) with
      | none => .error .cast
      | some tx =>
        let ty_stride : Flt K := Flt.ofInt (t.height - 1) / Flt.ofInt ylen
        let clipped := decide (y_high < 0)
        let ty : Flt K :=
          if clipped then (-(Flt.ofInt y_high) / Flt.ofInt ylen) * Flt.ofInt (t.height - 1)
          else .fin 0
        if clipped && !(Flt.ge ty (.fin 0) && Flt.lt ty (Flt.ofInt t.height)) then
          .error .assertion
        else
          let y_high1 := if clipped then 0 else y_high
          let y_low1 := r_min_int y_low HEIGHT
          let bpp := t.bytesperpixel
          r_drawcolumn_loop t x rl tx bpp ty_stride transparency (y_low1 - y_high1).toNat
            y_high1 ty framebuf

/-- The C library's `tanf`: `NaN` outside the finite numbers. -/
def tanf {K : Type} (lm : Libm K) : Flt K → Flt K
  | .fin a => .fin (lm.tan a)
  | _ => .nan

/-- The `for (int x = x_left; x < x_right; x++, txcolumn+=tx)` loop of
`r_drawsprite`, with `count` iterations left. -/
def r_drawsprite_loop {K : Type} [LinearOrderedField K] [FloorRing K]
    (zbuffer : Nat → Flt K) (t : texture_t) (dist height tx : Flt K) :
    Nat → Int → Flt K → Framebuffer → Except Fault Framebuffer
  | 0, _, _, fb => .ok fb
  | count + 1, x, txcolumn, fb =>
    if x ≥ WIDTH then .ok fb
    else if x < 0 then
      r_drawsprite_loop zbuffer t dist height tx count (x + 1) (txcolumn + tx) fb
    else if Flt.gt dist (zbuffer x.toNat) then
      r_drawsprite_loop zbuffer t dist height tx count (x + 1) (txcolumn + tx) fb
    else
      match Flt.toInt (Flt.ofInt (HEIGHT / 2 : Nat) - height / .fin 2),
          Flt.toInt (Flt.ofInt (HEIGHT / 2 : Nat) + height / .fin 2) with
      | some y_high, some y_low =>
        match r_drawcolumn fb t x y_high y_low txcolumn true with
        | .error err => .error err
        | .ok fb1 =>
          r_drawsprite_loop zbuffer t dist height tx count (x + 1) (txcolumn + tx) fb1
      | _, _ => .error .cast

/-- The function `r_drawsprite`. -/
def r_drawsprite {K : Type} [LinearOrderedField K] [FloorRing K] (lm : Libm K)
    (fb : Framebuffer) (zbuffer : Nat → Flt K) (t : texture_t)
    (player_pos player_dir sprite_pos : vertex_t K) : Except Fault Framebuffer :=
  let dx : vertex_t K :=
    { n := sprite_pos.n - player_pos.n, e := sprite_pos.e - player_pos.e }
  let player_tangent : vertex_t K := { n := -player_dir.e, e := player_dir.n }
  let dist := dx.n * player_dir.n + dx.e * player_dir.e
  let east := dx.n * player_tangent.n + dx.e * player_tangent.e
  if Flt.lt dist (.fin (1 / 10)) then .ok fb
  else
    let SPRITEHEIGHT : Flt K := Flt.ofInt (HEIGHT / 2 : Nat)
    let SPRITEWIDTH : Flt K := .fin 1
    let s := Flt.ofInt (WIDTH / 2 : Nat) / tanf lm (FOV * M_PI_F / .fin 180 / .fin 2)
    match Flt.toInt (s * (east + SPRITEWIDTH * .fin (1 / 2)) / dist),
        Flt.toInt (s * (east - SPRITEWIDTH * .fin (1 / 2)) / dist) with
    | some r, some l =>
      let x_right : Int := (WIDTH / 2 : Nat) + r
      let x_left : Int := (WIDTH / 2 : Nat) + l
      let tx : Flt K := .fin 1 / Flt.ofInt (x_right - x_left)
      let height := SPRITEHEIGHT / dist
      r_drawsprite_loop zbuffer t dist height tx (x_right - x_left).toNat x_left (.fin 0) fb
    | _, _ => .error .cast

/-! ## The renderer -/

/-- The store `zbuffer[column] = v` into the local array `float zbuffer[WIDTH]`;
an index outside the array is a fault. -/
def storeZ {K : Type} (zbuffer : Nat → Flt K) (column : Int) (v : Flt K) :
    Except Fault (Nat → Flt K) :=
  if column < 0 ∨ column ≥ WIDTH then .error .outOfBounds
  else .ok (fun i => if i = column.toNat then v else zbuffer i)

/-- The body of the column loop of `r_render` (textured build), for one value
of `angle` and `column`; the state is the local `zbuffer` and the framebuffer.
`textures` is the global dictionary `g_textures`. -/
def r_render_column {K : Type} [LinearOrderedField K] [FloorRing K] (lm : Libm K)
    (rayFuel : Nat) (game : gamestate_t K) (textures : Nat → texture_t)
    (angle : Flt K) (column : Int) (st : (Nat → Flt K) × Framebuffer) :
    Except Fault ((Nat → Flt K) × Framebuffer) :=
  let WALLHEIGHT : Flt K := .fin (22 / 10) * Flt.ofInt HEIGHT / .fin 2
  let maxdist : Flt K := .fin 100
  match m_rotateVertex lm game.player_dir (angle * M_PI_F / .fin 180) with
  | .error err => .error err
  | .ok ray =>
    let target : vertex_t K :=
      { n := game.player_pos.n + ray.n * maxdist, e := game.player_pos.e + ray.e * maxdist }
    match r_raycast rayFuel game.level game.level_width game.level_height
        game.player_pos.e game.player_pos.n target.e target.n with
    | .error err => .error err
    | .ok (.miss _) =>
      match storeZ st.1 column .pinf with
      | .error err => .error err
      | .ok zbuffer => .ok (zbuffer, st.2)
    | .ok (.hit block hit_e hit_n _ _ eNormal _ _) =>
      let dx : vertex_t K :=
        { n := hit_n - game.player_pos.n, e := hit_e - game.player_pos.e }
      let dist := dx.n * game.player_dir.n + dx.e * game.player_dir.e
      match storeZ st.1 column dist with
      | .error err => .error err
      | .ok zbuffer =>
        let height := WALLHEIGHT / dist
        if Flt.gt height (.fin 50 * WALLHEIGHT) then .ok (zbuffer, st.2)
        else
          match Flt.toInt (height / .fin 2) with
          | none => .error .cast
          | some half =>
            let y_hi : Int := (HEIGHT / 2 : Nat) - half
            let y_lo : Int := (HEIGHT / 2 : Nat) + half
            let tex_column :=
              if eNormal ≠ 0 then hit_n - Flt.floorf hit_n else hit_e - Flt.floorf hit_e
            match r_drawcolumn st.2 (textures block) column y_hi y_lo tex_column false with
            | .error err => .error err
            | .ok fb => .ok (zbuffer, fb)

/-- The loop
`for (float angle = -FOV / 2; angle < FOV / 2; angle += (FOV / WIDTH), column++)`
of `r_render`; `fuel` bounds the number of iterations. -/
def r_render_loop {K : Type} [LinearOrderedField K] [FloorRing K] (lm : Libm K)
    (rayFuel : Nat) (game : gamestate_t K) (textures : Nat → texture_t) :
    Nat → Flt K → Int → (Nat → Flt K) × Framebuffer →
      Except Fault ((Nat → Flt K) × Framebuffer)
  | fuel, angle, column, st =>
    if Flt.lt angle (FOV / .fin 2) then
      match fuel with
      | 0 => .error .fuel
      | fuel + 1 =>
        match r_render_column lm rayFuel game textures angle column st with
        | .error err => .error err
        | .ok st1 =>
          r_render_loop lm rayFuel game textures fuel (angle + FOV / Flt.ofInt WIDTH)
            (column + 1) st1
    else .ok st

/-- The function `r_render` (textured build).  The local `zbuffer` starts
uninitialised, here as `NaN` in every entry. -/
def r_render {K : Type} [LinearOrderedField K] [FloorRing K] (lm : Libm K)
    (fuel rayFuel : Nat) (fb : Framebuffer) (game : gamestate_t K)
    (textures : Nat → texture_t) : Except Fault Framebuffer :=
  match r_render_loop lm rayFuel game textures fuel (-FOV / .fin 2) 0
      (fun _ => .nan, r_drawBackground fb) with
  | .error err => .error err
  | .ok st => .ok st.2

/-! ## binary32 rounding

The definitions above compute with exact numbers.  The C `float` of the target
is IEEE 754 binary32: every arithmetic operation returns the binary32 value
nearest to the exact result.  The definitions below model that rounding and the
raycaster with a rounding applied to the result of every float operation. -/

/-- Rounding of a number to the nearest integer, a tie to the even one. -/
def roundHalfEven {K : Type} [LinearOrderedField K] [FloorRing K] (y : K) : Int :=
  if y - (⌊y⌋ : K) < 1 / 2 then ⌊y⌋
  else if 1 / 2 < y - (⌊y⌋ : K) then ⌊y⌋ + 1
  else if ⌊y⌋ % 2 = 0 then ⌊y⌋
  else ⌊y⌋ + 1

/-- The binary32 value nearest to the number `q` (round to nearest, ties to
even): a significand of 24 bits, a last place no finer than `2^-149`
(subnormal numbers), and an infinity when the rounded magnitude reaches
`2^128`.  A zero result is `+0`. -/
def binary32 {K : Type} [LinearOrderedField K] [FloorRing K] (q : K) : Flt K :=
  if q = 0 then .fin 0
  else
    let e : Int := max (Int.log 2 |q| - 23) (-149)
    let r : K := (roundHalfEven (q / 2 ^ e) : K) * 2 ^ e
    if 2 ^ (128 : Nat) ≤ |r| then (if 0 < q then .pinf else .ninf) else .fin r

/-- Rounding of the result of a float operation to binary32; infinities and NaN
are kept. -/
def Flt.round32 {K : Type} [LinearOrderedField K] [FloorRing K] : Flt K → Flt K
  | .fin q => binary32 q
  | x => x

/-- The loop of `r_raycast` as `r_raycast_loop`, with `rnd` applied to the
result of every float operation (`tMaxX += tDeltaX`, `tMaxY += tDeltaY`, and
the product and the sum of `fStartX + dx * dist`). -/
def r_raycast_loop_rnd {K : Type} [LinearOrderedField K] [FloorRing K]
    (rnd : Flt K → Flt K) (map : List Nat) (width height : Int)
    (fStartX fStartY dx dy : Flt K) (stepX stepY : Int) (tDeltaX tDeltaY : Flt K) :
    Nat → Flt K → Flt K → Int → Int → Flt K → Except Fault (RayResult K)
  | fuel, tMaxX, tMaxY, x, y, dist =>
    if Flt.le dist (.fin 1) then
      match fuel with
      | 0 => .error .fuel
      | fuel + 1 =>
        let dist := r_min tMaxX tMaxY
        let c := Flt.lt tMaxX tMaxY
        let tMaxX1 := if c then rnd (tMaxX + tDeltaX) else tMaxX
        let tMaxY1 := if c then tMaxY else rnd (tMaxY + tDeltaY)
        let x1 := if c then x + stepX else x
        let y1 := if c then y else y + stepY
        let nx := if c then stepX else 0
        let ny := if c then 0 else stepY
        if x1 < 0 ∨ x1 ≥ width ∨ y1 < 0 ∨ y1 ≥ height then
          r_raycast_loop_rnd rnd map width height fStartX fStartY dx dy stepX stepY
            tDeltaX tDeltaY fuel tMaxX1 tMaxY1 x1 y1 dist
        else
          let ymap := height - 1 - y1
          match map[(ymap * width + x1).toNat]? with
          | none => .error .outOfBounds
          | some b =>
            if b > 0 then
              if b ≤ 7 then
                .ok (.hit b (rnd (fStartX + rnd (dx * dist))) (rnd (fStartY + rnd (dy * dist)))
                  x1 y1 (-nx) (-ny) dist)
              else .error .assertion
            else
              r_raycast_loop_rnd rnd map width height fStartX fStartY dx dy stepX stepY
                tDeltaX tDeltaY fuel tMaxX1 tMaxY1 x1 y1 dist
    else .ok (.miss (.fin 1))

/-- The function `r_raycast` as above, with `rnd` applied to the result of
every float operation; `rnd = Flt.round32` is the arithmetic of the target and
`rnd = id` is `r_raycast`.  The arguments are taken to be binary32 values. -/
def r_raycast_rnd {K : Type} [LinearOrderedField K] [FloorRing K] (rnd : Flt K → Flt K)
    (fuel : Nat) (map : List Nat) (width height : Int)
    (fStartX fStartY fEndX fEndY : Flt K) : Except Fault (RayResult K) :=
  let dx := rnd (fEndX - fStartX)
  let dy := rnd (fEndY - fStartY)
  let stepX := r_signum dx
  let stepY := r_signum dy
  let tDeltaX := rnd (Flt.ofInt stepX / dx)
  let tDeltaY := rnd (Flt.ofInt stepY / dy)
  let fbX_ := if Flt.ge dx (.fin 0) then Flt.ceilf fStartX else Flt.floorf fStartX
  let fbY_ := if Flt.ge dy (.fin 0) then Flt.ceilf fStartY else Flt.floorf fStartY
  let dfX := rnd (fbX_ - fStartX)
  let dfY := rnd (fbY_ - fStartY)
  let tMaxX := rnd ((if Flt.ne dfX (.fin 0) then dfX else Flt.ofInt stepX) / dx)
  let tMaxY := rnd ((if Flt.ne dfY (.fin 0) then dfY else Flt.ofInt stepY) / dy)
  match Flt.toInt fStartX, Flt.toInt fStartY with
  | some x, some y =>
    r_raycast_loop_rnd rnd map width height fStartX fStartY dx dy stepX stepY
      tDeltaX tDeltaY fuel tMaxX tMaxY x y (.fin 0)
  | _, _ => .error .cast

/-! ## Scenario data -/

/-- The 4x4 room of the concrete scenarios: border cells 1, interior cells 0
(row-major, north row first as `r_raycast` indexes it). -/
def room : List Nat := [1, 1, 1, 1, 1, 0, 0, 1, 1, 0, 0, 1, 1, 1, 1, 1]

/-! ## Predicates used in the statements -/

/-- A finite positive float. -/
def Flt.Pos {K : Type} [LinearOrderedField K] (t : Flt K) : Prop :=
  ∃ q : K, t = .fin q ∧ 0 < q

/-- A finite positive float, `+inf` or `NaN`. -/
def Flt.PosOrSpecial {K : Type} [LinearOrderedField K] (t : Flt K) : Prop :=
  t = .nan ∨ t = .pinf ∨ Flt.Pos t

/-- The first boundary crossing `tMax` of one axis, as `r_raycast` computes it
from the start coordinate `s` and the delta `d`. -/
def firstT {K : Type} [LinearOrderedField K] [FloorRing K] (s d : Flt K) : Flt K :=
  (if Flt.ne ((if Flt.ge d (.fin 0) then Flt.ceilf s else Flt.floorf s) - s) (.fin 0)
    then (if Flt.ge d (.fin 0) then Flt.ceilf s else Flt.floorf s) - s
    else Flt.ofInt (r_signum d)) / d

/-- Squared distance from the point `(pe, pn)` to the closed unit square of
cell `(x, y)`. -/
def cellDistSq {K : Type} [LinearOrderedField K] (x y : Int) (pe pn : K) : K :=
  (max 0 (max ((x : K) - pe) (pe - ((x : K) + 1)))) ^ 2
    + (max 0 (max ((y : K) - pn) (pn - ((y : K) + 1)))) ^ 2

/-- The point `(pe, pn)` is at least `PLANE_OFFSET = 0.05` away from every wall
cell of the grid. -/
def wallClear {K : Type} [LinearOrderedField K] (map : List Nat) (width height : Int)
    (pe pn : K) : Prop :=
  ∀ x y : Int, 0 ≤ x → x < width → 0 ≤ y → y < height →
    ∀ b : Nat, map[((height - 1 - y) * width + x).toNat]? = some b → 0 < b →
      (5 / 100 : K) ^ 2 ≤ cellDistSq x y pe pn

/-- The displacement `dx` that `g_update` hands to `g_move`. -/
def g_update_dx {K : Type} [LinearOrderedField K] (sc : Scancodes) (dt_sec : Flt K)
    (kb : Nat → Nat) (player_dir : vertex_t K) : vertex_t K :=
  { n := player_dir.n * .fin (125 / 100)
      * (.fin 1 * Flt.ofInt (kb sc.W) - .fin 1 * Flt.ofInt (kb sc.S)) * dt_sec,
    e := player_dir.e * .fin (125 / 100)
      * (.fin 1 * Flt.ofInt (kb sc.W) - .fin 1 * Flt.ofInt (kb sc.S)) * dt_sec }

/-- The SDL values of the four scancodes, used in the concrete scenarios. -/
def sdlScancodes : Scancodes := { W := 26, S := 22, A := 4, D := 7 }

/-- A keyboard snapshot with exactly one key held, stored as the byte 1. -/
def kbOnly (key : Nat) : Nat → Nat := fun i => if i = key then 1 else 0

/-! ## Data and auxiliary definitions for the rendering and update claims -/

/-- A keyboard snapshot with exactly one key held, stored as the byte `v`. -/
def kbByte (key v : Nat) : Nat → Nat := fun i => if i = key then v else 0

/-- A one-texel red texture: `R = 255, G = 0, B = 0`. -/
def redTexel : texture_t :=
  { pixels := [255, 0, 0], width := 1, height := 1, rowlength := 3, bytesperpixel := 3 }

/-- A framebuffer whose alpha bytes are `0xFF` and whose colour bytes are 0. -/
def opaqueBlack : Framebuffer := fun a => if a % 4 = 3 then 255 else 0

/-- Run `body` once for every pair `(angle, column)` of the list, in order,
stopping at the first fault. -/
def forEachColumn {K σ : Type} (body : Flt K → Int → σ → Except Fault σ) :
    List (Flt K × Int) → σ → Except Fault σ
  | [], st => .ok st
  | (angle, column) :: rest, st =>
    match body angle column st with
    | .error err => .error err
    | .ok st1 => forEachColumn body rest st1

/-- The pairs `(-30 + 0.25·c, c)` for `c = first, …, first + count - 1`. -/
def renderColumns {K : Type} [LinearOrderedField K] (first count : Nat) : List (Flt K × Int) :=
  (List.range' first count).map (fun (c : Nat) => (Flt.fin (-30 + (c : K) / 4), (c : Int)))

/-- The float `a` is `+inf` or a number that is at least `c`. -/
def Flt.AtLeast {K : Type} [LinearOrderedField K] (c : K) (a : Flt K) : Prop :=
  a = .pinf ∨ ∃ q, a = .fin q ∧ c ≤ q

/-- The number of steps of size `1/N` that fit between the float `a` and 1,
counted from `a` itself: a bound on how often `a` can still grow by `1/N` or
more before it exceeds 1. -/
def stepsBelowOne {K : Type} [LinearOrderedField K] [FloorRing K] (N : Nat) (a : Flt K) :
    Nat :=
  match a with
  | .fin q => (⌊(1 - q) * (N : K)⌋ + 1).toNat
  | _ => 0

/-! ## Evaluation lemmas for the float operations -/

section FltLemmas

variable {K : Type} [LinearOrderedField K]

@[simp] theorem Flt.fin_add_fin (a b : K) : (Flt.fin a + Flt.fin b : Flt K) = .fin (a + b) := rfl
@[simp] theorem Flt.fin_add_pinf (a : K) : (Flt.fin a + Flt.pinf : Flt K) = .pinf := rfl
@[simp] theorem Flt.fin_add_ninf (a : K) : (Flt.fin a + Flt.ninf : Flt K) = .ninf := rfl
@[simp] theorem Flt.pinf_add_fin (a : K) : (Flt.pinf + Flt.fin a : Flt K) = .pinf := rfl
@[simp] theorem Flt.pinf_add_pinf : (Flt.pinf + Flt.pinf : Flt K) = .pinf := rfl
@[simp] theorem Flt.add_nan (a : Flt K) : a + Flt.nan = .nan := by cases a <;> rfl
@[simp] theorem Flt.nan_add (a : Flt K) : Flt.nan + a = .nan := by cases a <;> rfl
@[simp] theorem Flt.neg_fin (a : K) : (-(Flt.fin a) : Flt K) = .fin (-a) := rfl
@[simp] theorem Flt.neg_pinf : (-(Flt.pinf) : Flt K) = .ninf := rfl
@[simp] theorem Flt.neg_ninf : (-(Flt.ninf) : Flt K) = .pinf := rfl
@[simp] theorem Flt.neg_nan : (-(Flt.nan) : Flt K) = .nan := rfl

@[simp] theorem Flt.fin_sub_fin (a b : K) : (Flt.fin a - Flt.fin b : Flt K) = .fin (a - b) := by
  show Flt.add (.fin a) (Flt.neg (.fin b)) = _
  simp [Flt.add, Flt.neg, sub_eq_add_neg]

@[simp] theorem Flt.sub_nan (a : Flt K) : a - Flt.nan = .nan := by cases a <;> rfl
@[simp] theorem Flt.nan_sub (a : Flt K) : Flt.nan - a = .nan := by cases a <;> rfl

@[simp] theorem Flt.fin_mul_fin (a b : K) : (Flt.fin a * Flt.fin b : Flt K) = .fin (a * b) := rfl
@[simp] theorem Flt.fin_mul_pinf (a : K) : (Flt.fin a * Flt.pinf : Flt K) = Flt.infTimes a := rfl
@[simp] theorem Flt.pinf_mul_fin (a : K) : (Flt.pinf * Flt.fin a : Flt K) = Flt.infTimes a := rfl
@[simp] theorem Flt.mul_nan (a : Flt K) : a * Flt.nan = .nan := by cases a <;> rfl
@[simp] theorem Flt.nan_mul (a : Flt K) : Flt.nan * a = .nan := by cases a <;> rfl

theorem Flt.fin_div_fin (a b : K) :
    (Flt.fin a / Flt.fin b : Flt K) = if b = 0 then Flt.infTimes a else .fin (a / b) := rfl

@[simp] theorem Flt.fin_div_fin_of_ne (a b : K) (h : b ≠ 0) :
    (Flt.fin a / Flt.fin b : Flt K) = .fin (a / b) := by
  rw [Flt.fin_div_fin, if_neg h]

@[simp] theorem Flt.fin_div_zero (a : K) : (Flt.fin a / Flt.fin 0 : Flt K) = Flt.infTimes a := by
  rw [Flt.fin_div_fin, if_pos rfl]

@[simp] theorem Flt.div_nan (a : Flt K) : a / Flt.nan = .nan := by cases a <;> rfl
@[simp] theorem Flt.nan_div (a : Flt K) : Flt.nan / a = .nan := by cases a <;> rfl

@[simp] theorem Flt.infTimes_zero : Flt.infTimes (0 : K) = .nan := by simp [Flt.infTimes]

theorem Flt.infTimes_pos {a : K} (h : 0 < a) : Flt.infTimes a = .pinf := by
  simp [Flt.infTimes, h, h.ne.symm]

theorem Flt.infTimes_neg {a : K} (h : a < 0) : Flt.infTimes a = .ninf := by
  simp [Flt.infTimes, h.ne, not_lt.mpr h.le]

@[simp] theorem Flt.lt_fin_fin (a b : K) : Flt.lt (.fin a) (.fin b) = decide (a < b) := rfl
@[simp] theorem Flt.lt_fin_pinf (a : K) : Flt.lt (.fin a) .pinf = true := rfl
@[simp] theorem Flt.lt_pinf (a : Flt K) : Flt.lt .pinf a = false := by cases a <;> rfl
@[simp] theorem Flt.lt_nan (a : Flt K) : Flt.lt a .nan = false := by cases a <;> rfl
@[simp] theorem Flt.nan_lt (a : Flt K) : Flt.lt .nan a = false := by cases a <;> rfl
@[simp] theorem Flt.le_fin_fin (a b : K) : Flt.le (.fin a) (.fin b) = decide (a ≤ b) := rfl
@[simp] theorem Flt.le_pinf_fin (a : K) : Flt.le .pinf (.fin a) = false := rfl
@[simp] theorem Flt.le_nan (a : Flt K) : Flt.le a .nan = false := by cases a <;> rfl
@[simp] theorem Flt.nan_le (a : Flt K) : Flt.le .nan a = false := by cases a <;> rfl
@[simp] theorem Flt.eq_fin_fin (a b : K) : Flt.eq (.fin a) (.fin b) = decide (a = b) := rfl
@[simp] theorem Flt.eq_nan (a : Flt K) : Flt.eq a .nan = false := by cases a <;> rfl
@[simp] theorem Flt.nan_eq (a : Flt K) : Flt.eq .nan a = false := by cases a <;> rfl
@[simp] theorem Flt.eq_pinf_fin (a : K) : Flt.eq .pinf (.fin a) = false := rfl
@[simp] theorem Flt.eq_ninf_fin (a : K) : Flt.eq .ninf (.fin a) = false := rfl

end FltLemmas

@[simp] theorem toNat_lit (n : ℕ) [n.AtLeastTwo] :
    Int.toNat (no_index (OfNat.ofNat n)) = n := rfl

/-! ## The loop of r_raycast -/

section RaycastLemmas

variable {K : Type} [LinearOrderedField K] [FloorRing K]

omit [FloorRing K] in
theorem r_min_eq_or (a b : Flt K) : r_min a b = a ∨ r_min a b = b := by
  unfold r_min; split <;> simp

/-- A hit reported by the loop comes from one iteration, entered in a state
`tx ty x y d` that satisfies every invariant `Inv` of the loop and the loop
condition `d <= 1`; all outputs are those of that iteration. -/
theorem r_raycast_loop_hit (Inv : Flt K → Flt K → Int → Int → Flt K → Prop)
    (map : List Nat) (width height : Int) (fStartX fStartY dx dy : Flt K)
    (stepX stepY : Int) (tDeltaX tDeltaY : Flt K)
    (hX : ∀ tx ty x y d, Inv tx ty x y d → Flt.le d (.fin 1) = true → Flt.lt tx ty = true →
      Inv (tx + tDeltaX) ty (x + stepX) y (r_min tx ty))
    (hY : ∀ tx ty x y d, Inv tx ty x y d → Flt.le d (.fin 1) = true → Flt.lt tx ty = false →
      Inv tx (ty + tDeltaY) x (y + stepY) (r_min tx ty))
    (fuel : Nat) :
    ∀ (tMaxX tMaxY : Flt K) (x y : Int) (dist : Flt K) (b : Nat) (xHit yHit : Flt K)
      (xBlock yBlock xNormal yNormal : Int) (f : Flt K),
      Inv tMaxX tMaxY x y dist →
      r_raycast_loop map width height fStartX fStartY dx dy stepX stepY tDeltaX tDeltaY
        fuel tMaxX tMaxY x y dist = .ok (.hit b xHit yHit xBlock yBlock xNormal yNormal f) →
      xHit = fStartX + dx * f ∧ yHit = fStartY + dy * f ∧ 0 < b ∧ b ≤ 7 ∧
      0 ≤ xBlock ∧ xBlock < width ∧ 0 ≤ yBlock ∧ yBlock < height ∧
      map[((height - 1 - yBlock) * width + xBlock).toNat]? = some b ∧
      ∃ tx ty x0 y0 d, Inv tx ty x0 y0 d ∧ Flt.le d (.fin 1) = true ∧ f = r_min tx ty ∧
        ((Flt.lt tx ty = true ∧ xBlock = x0 + stepX ∧ yBlock = y0 ∧
            xNormal = -stepX ∧ yNormal = 0) ∨
         (Flt.lt tx ty = false ∧ xBlock = x0 ∧ yBlock = y0 + stepY ∧
            xNormal = 0 ∧ yNormal = -stepY)) := by
  induction fuel with
  | zero =>
    intro tMaxX tMaxY x y dist b xHit yHit xBlock yBlock xNormal yNormal f _ h
    unfold r_raycast_loop at h
    split at h <;> simp at h
  | succ n ih =>
    intro tMaxX tMaxY x y dist b xHit yHit xBlock yBlock xNormal yNormal f inv h
    unfold r_raycast_loop at h
    by_cases hd : Flt.le dist (.fin 1) = true
    · rcases c : Flt.lt tMaxX tMaxY with _ | _
      · simp only [hd, c, if_true, Bool.false_eq_true, if_false] at h
        split at h
        · exact ih _ _ _ _ _ _ _ _ _ _ _ _ _ (hY _ _ _ _ _ inv hd c) h
        · rename_i hb
          split at h
          · simp at h
          · rename_i b0 hm
            split at h
            · split at h
              · simp only [Except.ok.injEq, RayResult.hit.injEq] at h
                obtain ⟨hb, hx, hy, hxb, hyb, hnx, hny, hf⟩ := h
                subst hb hx hy hnx hny hf hxb hyb
                simp only [not_or, not_lt, ge_iff_le, not_le] at hb
                exact ⟨rfl, rfl, by assumption, by assumption, hb.1, hb.2.1, hb.2.2.1, hb.2.2.2, hm,
                  tMaxX, tMaxY, x, y, dist, inv, hd, rfl, Or.inr ⟨c, rfl, rfl, by simp, rfl⟩⟩
              · simp at h
            · exact ih _ _ _ _ _ _ _ _ _ _ _ _ _ (hY _ _ _ _ _ inv hd c) h
      · simp only [hd, c, if_true] at h
        split at h
        · exact ih _ _ _ _ _ _ _ _ _ _ _ _ _ (hX _ _ _ _ _ inv hd c) h
        · rename_i hb
          split at h
          · simp at h
          · rename_i b0 hm
            split at h
            · split at h
              · simp only [Except.ok.injEq, RayResult.hit.injEq] at h
                obtain ⟨hb, hx, hy, hxb, hyb, hnx, hny, hf⟩ := h
                subst hb hx hy hnx hny hf hxb hyb
                simp only [not_or, not_lt, ge_iff_le, not_le] at hb
                exact ⟨rfl, rfl, by assumption, by assumption, hb.1, hb.2.1, hb.2.2.1, hb.2.2.2, hm,
                  tMaxX, tMaxY, x, y, dist, inv, hd, rfl, Or.inl ⟨c, rfl, rfl, rfl, by simp⟩⟩
              · simp at h
            · exact ih _ _ _ _ _ _ _ _ _ _ _ _ _ (hX _ _ _ _ _ inv hd c) h
    · simp [hd] at h

theorem r_raycast_eq (fuel : Nat) (map : List Nat) (width height : Int)
    (fStartX fStartY fEndX fEndY : Flt K) :
    r_raycast fuel map width height fStartX fStartY fEndX fEndY =
      match Flt.toInt fStartX, Flt.toInt fStartY with
      | some x, some y =>
        r_raycast_loop map width height fStartX fStartY (fEndX - fStartX) (fEndY - fStartY)
          (r_signum (fEndX - fStartX)) (r_signum (fEndY - fStartY))
          (Flt.ofInt (r_signum (fEndX - fStartX)) / (fEndX - fStartX))
          (Flt.ofInt (r_signum (fEndY - fStartY)) / (fEndY - fStartY))
          fuel (firstT fStartX (fEndX - fStartX)) (firstT fStartY (fEndY - fStartY)) x y (.fin 0)
      | _, _ => .error .cast := rfl

omit [FloorRing K] in
theorem tDelta_of_ne {d : K} (h : d ≠ 0) :
    (Flt.ofInt (r_signum (Flt.fin d)) / Flt.fin d : Flt K) = .fin (1 / |d|) ∧ 0 < 1 / |d| := by
  have hpos : 0 < 1 / |d| := by positivity
  refine ⟨?_, hpos⟩
  rcases lt_or_gt_of_ne h with hn | hp
  · simp [r_signum, Flt.ofInt, h, hn, abs_of_neg hn]
    field_simp
  · simp [r_signum, Flt.ofInt, h, not_lt.mpr hp.le, abs_of_pos hp]

omit [FloorRing K] in
theorem tDelta_zero : (Flt.ofInt (r_signum (Flt.fin (0 : K))) / Flt.fin 0 : Flt K) = .nan := by
  simp [r_signum, Flt.ofInt]

theorem firstT_of_ne (s : K) {d : K} (h : d ≠ 0) :
    ∃ q : K, firstT (Flt.fin s) (Flt.fin d) = .fin q ∧ 0 < q ∧ q ≤ 1 / |d| := by
  rcases lt_or_gt_of_ne h with hn | hp
  · have h1 : ((⌊s⌋ : Int) : K) - s ≤ 0 := sub_nonpos.mpr (Int.floor_le s)
    have h2 : s - ((⌊s⌋ : Int) : K) < 1 := by linarith [Int.lt_floor_add_one s]
    have hd : 0 < -d := neg_pos.mpr hn
    rw [abs_of_neg hn]
    by_cases h0 : ((⌊s⌋ : Int) : K) - s = 0
    · refine ⟨-1 / d, ?_, div_pos_of_neg_of_neg (by norm_num) hn, ?_⟩
      · simp [firstT, Flt.ge, Flt.ne, Flt.floorf, r_signum, Flt.ofInt, not_le.mpr hn, h0, h, hn]
      · rw [neg_div, ← div_neg]
    · refine ⟨(((⌊s⌋ : Int) : K) - s) / d, ?_,
        div_pos_of_neg_of_neg (lt_of_le_of_ne h1 h0) hn, ?_⟩
      · simp [firstT, Flt.ge, Flt.ne, Flt.floorf, not_le.mpr hn, h0, h]
      · rw [← neg_div_neg_eq]
        exact div_le_div_of_nonneg_right (by linarith) hd.le
  · have h1 : 0 ≤ ((⌈s⌉ : Int) : K) - s := sub_nonneg.mpr (Int.le_ceil s)
    have h2 : ((⌈s⌉ : Int) : K) - s < 1 := by linarith [Int.ceil_lt_add_one s]
    rw [abs_of_pos hp]
    by_cases h0 : ((⌈s⌉ : Int) : K) - s = 0
    · refine ⟨1 / d, ?_, by positivity, le_refl _⟩
      simp [firstT, Flt.ge, Flt.ne, Flt.ceilf, r_signum, Flt.ofInt, hp.le, h0, h, not_lt.mpr hp.le]
    · refine ⟨(((⌈s⌉ : Int) : K) - s) / d, ?_,
        div_pos (lt_of_le_of_ne h1 (Ne.symm h0)) hp, ?_⟩
      · simp [firstT, Flt.ge, Flt.ne, Flt.ceilf, hp.le, h0, h]
      · exact div_le_div_of_nonneg_right h2.le hp.le

theorem firstT_pos (s : K) {d : K} (h : d ≠ 0) : Flt.Pos (firstT (Flt.fin s) (Flt.fin d)) := by
  obtain ⟨q, hq, h0, -⟩ := firstT_of_ne s h
  exact ⟨q, hq, h0⟩

theorem firstT_zero (s : K) :
    firstT (Flt.fin s) (Flt.fin (0 : K)) = .nan ∨ firstT (Flt.fin s) (Flt.fin (0 : K)) = .pinf := by
  have h1 : 0 ≤ ((⌈s⌉ : Int) : K) - s := sub_nonneg.mpr (Int.le_ceil s)
  by_cases h0 : ((⌈s⌉ : Int) : K) - s = 0
  · left
    simp [firstT, Flt.ge, Flt.ne, Flt.ceilf, r_signum, Flt.ofInt, h0]
  · right
    simp [firstT, Flt.ge, Flt.ne, Flt.ceilf, h0, Flt.infTimes_pos (lt_of_le_of_ne h1 (Ne.symm h0))]



omit [FloorRing K] in
theorem Flt.Pos.add_fin {t : Flt K} (h : Flt.Pos t) {q : K} (hq : 0 < q) : Flt.Pos (t + .fin q) := by
  obtain ⟨a, rfl, ha⟩ := h
  exact ⟨a + q, rfl, add_pos ha hq⟩

omit [FloorRing K] in
theorem Flt.Pos.posOrSpecial {t : Flt K} (h : Flt.Pos t) : Flt.PosOrSpecial t := Or.inr (Or.inr h)

omit [FloorRing K] in
theorem Flt.PosOrSpecial.add_tDelta {t : Flt K} (h : Flt.PosOrSpecial t) (d : K) :
    Flt.PosOrSpecial (t + Flt.ofInt (r_signum (Flt.fin d)) / Flt.fin d) := by
  by_cases hd : d = 0
  · subst hd
    rw [tDelta_zero]
    left; simp
  · rw [(tDelta_of_ne hd).1]
    rcases h with rfl | rfl | h
    · left; simp
    · right; left; rfl
    · exact (h.add_fin (tDelta_of_ne hd).2).posOrSpecial

theorem firstT_posOrSpecial (s d : K) : Flt.PosOrSpecial (firstT (Flt.fin s) (Flt.fin d)) := by
  by_cases hd : d = 0
  · subst hd
    rcases firstT_zero s with h | h
    · exact Or.inl h
    · exact Or.inr (Or.inl h)
  · exact (firstT_pos s hd).posOrSpecial

omit [FloorRing K] in
theorem Flt.PosOrSpecial.r_min {a b : Flt K} (ha : Flt.PosOrSpecial a) (hb : Flt.PosOrSpecial b) :
    Flt.PosOrSpecial (Engine.r_min a b) := by
  rcases r_min_eq_or a b with e | e <;> rw [e] <;> assumption

/-- Facts about a hit reported by `r_raycast` for a ray with finite end points:
the hit point is the point of the ray at fraction `f`, the normal is the
negated step of one axis, `f` is positive, infinite or `NaN`, and the hit cell
is a wall cell inside the grid. -/
theorem r_raycast_hit_facts (fuel : Nat) (map : List Nat) (width height : Int)
    (sx sy ex ey : K) (b : Nat) (xHit yHit : Flt K)
    (xBlock yBlock xNormal yNormal : Int) (f : Flt K)
    (h : r_raycast fuel map width height (.fin sx) (.fin sy) (.fin ex) (.fin ey)
      = .ok (.hit b xHit yHit xBlock yBlock xNormal yNormal f)) :
    xHit = .fin sx + .fin (ex - sx) * f ∧ yHit = .fin sy + .fin (ey - sy) * f ∧
    ((xNormal = -r_signum (Flt.fin (ex - sx)) ∧ yNormal = 0) ∨
      (xNormal = 0 ∧ yNormal = -r_signum (Flt.fin (ey - sy)))) ∧
    Flt.PosOrSpecial f ∧ 0 < b ∧ b ≤ 7 ∧
    0 ≤ xBlock ∧ xBlock < width ∧ 0 ≤ yBlock ∧ yBlock < height ∧
    map[((height - 1 - yBlock) * width + xBlock).toNat]? = some b := by
  rw [r_raycast_eq] at h
  simp only [Flt.toInt, Flt.fin_sub_fin] at h
  have g := r_raycast_loop_hit (fun tx ty _ _ _ => Flt.PosOrSpecial tx ∧ Flt.PosOrSpecial ty)
    map width height (.fin sx) (.fin sy)
    (.fin (ex - sx)) (.fin (ey - sy)) _ _ _ _
    (fun tx ty _ _ _ ht _ _ => ⟨ht.1.add_tDelta _, ht.2⟩)
    (fun tx ty _ _ _ ht _ _ => ⟨ht.1, ht.2.add_tDelta _⟩)
    fuel _ _ _ _ _ _ _ _ _ _ _ _ _
    ⟨firstT_posOrSpecial sx _, firstT_posOrSpecial sy _⟩ h
  obtain ⟨g1, g2, g3, g4, g5, g6, g7, g8, g9, tx, ty, x0, y0, d, inv, -, hf, hn⟩ := g
  refine ⟨g1, g2, ?_, ?_, g3, g4, g5, g6, g7, g8, g9⟩
  · rcases hn with ⟨-, -, -, h1, h2⟩ | ⟨-, -, -, h1, h2⟩
    · exact Or.inl ⟨h1, h2⟩
    · exact Or.inr ⟨h1, h2⟩
  · rw [hf]; exact inv.1.r_min inv.2

end RaycastLemmas

/-! ## g_move -/

section MoveLemmas

variable {K : Type} [LinearOrderedField K] [FloorRing K]

omit [FloorRing K] in
theorem Flt.PosOrSpecial.fin_of_le {f : Flt K} (h : Flt.PosOrSpecial f) {c : K}
    (hle : Flt.le f (.fin c) = true) : ∃ q : K, f = .fin q ∧ 0 < q ∧ q ≤ c := by
  rcases h with rfl | rfl | ⟨q, rfl, hq⟩
  · simp at hle
  · simp at hle
  · exact ⟨q, rfl, hq, by simpa using hle⟩

/-- The resolved position of `g_move` on a hit with `f ≤ 1` that is not parallel
to the hit plane. -/
theorem g_move_resolved (fuel : Nat) (map : List Nat) (width height : Int)
    (pn pe dn de : K) (b : Nat) (xHit yHit : Flt K) (xBlock yBlock eNormal nNormal : Int)
    (f : Flt K)
    (hray : r_raycast fuel map width height (.fin pe) (.fin pn) (.fin pe + .fin de)
      (.fin pn + .fin dn) = .ok (.hit b xHit yHit xBlock yBlock eNormal nNormal f))
    (hf : Flt.le f (.fin 1) = true)
    (hq : 1 / 100000 ≤ |(eNormal : K) * de + (nNormal : K) * dn|) :
    ∃ φ : K, f = .fin φ ∧ 0 < φ ∧ φ ≤ 1 ∧
      xHit = .fin (pe + de * φ) ∧ yHit = .fin (pn + dn * φ) ∧
      g_move fuel ⟨.fin pn, .fin pe⟩ ⟨.fin dn, .fin de⟩ map width height =
        .ok ⟨.fin (pn + dn * (-((nNormal : K) * pn + (eNormal : K) * pe +
                (-((eNormal : K) * (pe + de * φ) + (nNormal : K) * (pn + dn * φ)) - 5 / 100)) /
                  ((eNormal : K) * de + (nNormal : K) * dn))),
             .fin (pe + de * (-((nNormal : K) * pn + (eNormal : K) * pe +
                (-((eNormal : K) * (pe + de * φ) + (nNormal : K) * (pn + dn * φ)) - 5 / 100)) /
                  ((eNormal : K) * de + (nNormal : K) * dn)))⟩ := by
  have facts := r_raycast_hit_facts fuel map width height pe pn (pe + de) (pn + dn) b xHit yHit
    xBlock yBlock eNormal nNormal f (by simpa using hray)
  obtain ⟨hxH, hyH, -, hpos, -⟩ := facts
  obtain ⟨φ, rfl, hφ0, hφ1⟩ := hpos.fin_of_le hf
  have hx : xHit = .fin (pe + de * φ) := by rw [hxH]; simp
  have hy : yHit = .fin (pn + dn * φ) := by rw [hyH]; simp
  subst hx hy
  refine ⟨φ, rfl, hφ0, hφ1, rfl, rfl, ?_⟩
  have hq0 : (eNormal : K) * de + (nNormal : K) * dn ≠ 0 := by
    intro h0
    rw [h0, abs_zero] at hq
    norm_num at hq
  have hD : ¬ (de = 0 ∧ dn = 0) := by
    rintro ⟨h1, h2⟩
    exact hq0 (by rw [h1, h2]; ring)
  have hlt : ¬ |(eNormal : K) * de + (nNormal : K) * dn| < (100000 : K)⁻¹ := by
    rw [← one_div]; exact not_lt.mpr hq
  have hgt : ¬ (1 : K) < φ := not_lt.mpr hφ1
  unfold g_move
  simp only [hray]
  simp [hD, Flt.gt, hgt, m_rayPlaneIntersection, Flt.ofInt, Flt.fabsf, EPSILON, PLANE_OFFSET, hlt, hq0]

end MoveLemmas

/-! ## g_update -/

section UpdateLemmas

variable {K : Type} [LinearOrderedField K] [FloorRing K]

theorem g_update_eq (lm : Libm K) (sc : Scancodes) (fuel : Nat) (dt_sec : Flt K)
    (kb : Nat → Nat) (game : gamestate_t K) :
    g_update lm sc fuel dt_sec kb game =
      match g_move fuel game.player_pos (g_update_dx sc dt_sec kb game.player_dir)
          game.level game.level_width game.level_height with
      | .error err => .error err
      | .ok pos =>
        match m_rotateVertex lm (m_normalize lm game.player_dir)
            (.fin 45 * (.fin (-1) * Flt.ofInt (if kb sc.A ≠ 0 then 1 else 0)
              + .fin 1 * Flt.ofInt (if kb sc.D ≠ 0 then 1 else 0)) * M_PI_F / .fin 180 * dt_sec) with
        | .error err => .error err
        | .ok d => .ok { game with player_pos := pos, player_dir := d } := rfl

end UpdateLemmas

/-! ## Rays and moves in the 4x4 room -/

section RoomLemmas

variable {K : Type} [LinearOrderedField K] [FloorRing K]

/-- The oblique ray from `(e=2.5, n=2.5)` with delta `(e=0.75, n=1)` hits the
north wall at fraction `1/2`. -/
theorem room_ray_diagonal (fuel : Nat) :
    r_raycast (K := K) (fuel + 1) room 4 4 (.fin (5 / 2)) (.fin (5 / 2))
      (.fin (5 / 2) + .fin (3 / 4)) (.fin (5 / 2) + .fin 1)
      = .ok (.hit 1 (.fin (23 / 8)) (.fin 3) 2 3 0 (-1) (.fin (1 / 2))) := by
  have h1 : ⌈(5 / 2 : K)⌉ = 3 := by rw [Int.ceil_eq_iff]; norm_num
  have h2 : ⌊(5 / 2 : K)⌋ = 2 := by rw [Int.floor_eq_iff]; norm_num
  simp [r_raycast, r_raycast_loop, r_signum, r_min, Flt.ofInt, Flt.ge, Flt.ne, Flt.ceilf,
    Flt.floorf, Flt.toInt, room, h1, h2]
  norm_num

/-- The free move used against C5: the ray ends before the wall. -/
theorem room_ray_short (fuel : Nat) :
    r_raycast (K := K) (fuel + 1) room 4 4 (.fin (5 / 2)) (.fin (29 / 10))
      (.fin (5 / 2) + .fin 0) (.fin (29 / 10) + .fin (3 / 50))
      = .ok (.hit 1 (.fin (5 / 2)) (.fin 3) 2 3 0 (-1) (.fin (5 / 3))) := by
  have h1 : ⌈(5 / 2 : K)⌉ = 3 := by rw [Int.ceil_eq_iff]; norm_num
  have h2 : ⌊(5 / 2 : K)⌋ = 2 := by rw [Int.floor_eq_iff]; norm_num
  have h3 : ⌈(29 / 10 : K)⌉ = 3 := by rw [Int.ceil_eq_iff]; norm_num
  have h4 : ⌊(29 / 10 : K)⌋ = 2 := by rw [Int.floor_eq_iff]; norm_num
  simp [r_raycast, r_raycast_loop, r_signum, r_min, Flt.ofInt, Flt.ge, Flt.ne, Flt.ceilf,
    Flt.floorf, Flt.toInt, room, h1, h2, h3, h4]
  norm_num [Flt.infTimes]

theorem g_move_short (fuel : Nat) :
    g_move (K := K) (fuel + 1) ⟨.fin (29 / 10), .fin (5 / 2)⟩ ⟨.fin (3 / 50), .fin 0⟩ room 4 4
      = .ok ⟨.fin (74 / 25), .fin (5 / 2)⟩ := by
  unfold g_move
  simp only [room_ray_short]
  simp [Flt.gt]
  norm_num


/-- The ray of a very short move towards the east wall from `e = 2.999999`. -/
theorem room_ray_tiny (fuel : Nat) :
    r_raycast (K := K) (fuel + 1) room 4 4 (.fin (2999999 / 1000000)) (.fin (5 / 2))
      (.fin (2999999 / 1000000) + .fin (1 / 200000)) (.fin (5 / 2) + .fin 0)
      = .ok (.hit 1 (.fin 3) (.fin (5 / 2)) 3 2 (-1) 0 (.fin (1 / 5))) := by
  have h1 : ⌈(5 / 2 : K)⌉ = 3 := by rw [Int.ceil_eq_iff]; norm_num
  have h2 : ⌊(5 / 2 : K)⌋ = 2 := by rw [Int.floor_eq_iff]; norm_num
  have h3 : ⌈(2999999 / 1000000 : K)⌉ = 3 := by rw [Int.ceil_eq_iff]; norm_num
  have h4 : ⌊(2999999 / 1000000 : K)⌋ = 2 := by rw [Int.floor_eq_iff]; norm_num
  simp [r_raycast, r_raycast_loop, r_signum, r_min, Flt.ofInt, Flt.ge, Flt.ne, Flt.ceilf,
    Flt.floorf, Flt.toInt, room, h1, h2, h3, h4]
  norm_num [Flt.infTimes]

omit [FloorRing K] in
theorem room_wallClear_start : wallClear room 4 4 (5 / 2 : K) (29 / 10) := by
  intro x y hx0 hx1 hy0 hy1 b hb hpos
  interval_cases x <;> interval_cases y <;> simp [room] at hb <;>
    first
    | (subst hb; exact absurd hpos (by decide))
    | (simp only [cellDistSq]; norm_num)

omit [FloorRing K] in
theorem room_not_wallClear_end : ¬ wallClear room 4 4 (5 / 2 : K) (74 / 25) := by
  intro h
  have := h 2 3 (by norm_num) (by norm_num) (by norm_num) (by norm_num) 1 (by simp [room])
    (by norm_num)
  simp only [cellDistSq] at this
  norm_num at this

end RoomLemmas

/-! ## Scenario S3: walking into the north wall -/

section ForwardLemmas

variable {K : Type} [LinearOrderedField K] [FloorRing K]

/-- The ray of the first forward frame of scenario S3. -/
theorem room_ray_first_frame (fuel : Nat) :
    r_raycast (K := K) (fuel + 1) room 4 4 (.fin 2) (.fin 2) (.fin 2 + .fin 0)
      (.fin 2 + .fin (5 / 4))
      = .ok (.hit 1 (.fin 2) (.fin 3) 2 3 0 (-1) (.fin (4 / 5))) := by
  simp [r_raycast, r_raycast_loop, r_signum, r_min, Flt.ofInt, Flt.ge, Flt.ne, Flt.ceilf,
    Flt.floorf, Flt.toInt, room]
  norm_num

/-- The ray of every later forward frame of scenario S3. -/
theorem room_ray_later_frame (fuel : Nat) :
    r_raycast (K := K) (fuel + 1) room 4 4 (.fin 2) (.fin (59 / 20)) (.fin 2 + .fin 0)
      (.fin (59 / 20) + .fin (5 / 4))
      = .ok (.hit 1 (.fin 2) (.fin 3) 2 3 0 (-1) (.fin (1 / 25))) := by
  have h3 : ⌈(59 / 20 : K)⌉ = 3 := by rw [Int.ceil_eq_iff]; norm_num
  have h4 : ⌊(59 / 20 : K)⌋ = 2 := by rw [Int.floor_eq_iff]; norm_num
  simp [r_raycast, r_raycast_loop, r_signum, r_min, Flt.ofInt, Flt.ge, Flt.ne, Flt.ceilf,
    Flt.floorf, Flt.toInt, room, h3, h4]
  norm_num

omit [FloorRing K] in
theorem forward_dx : g_update_dx sdlScancodes (.fin 1 : Flt K) (kbOnly 26) ⟨.fin 1, .fin 0⟩
    = ⟨.fin (5 / 4), .fin 0⟩ := by
  simp [g_update_dx, sdlScancodes, kbOnly, Flt.ofInt]
  norm_num

/-- A forward frame of scenario S3 from `n = 2` or from `n = 2.95` ends at
`n = 2.95`, the direction stays `(e=0, n=1)`. -/
theorem forward_frame (lm : Libm K) (hsin : lm.sin 0 = 0) (hcos : lm.cos 0 = 1)
    (hsqrt : lm.sqrt 1 = 1) (fuel : Nat) (n0 : K) (hn : n0 = 2 ∨ n0 = 59 / 20) :
    g_update lm sdlScancodes (fuel + 1) (.fin 1) (kbOnly 26)
        ⟨⟨.fin n0, .fin 2⟩, ⟨.fin 1, .fin 0⟩, room, 4, 4⟩
      = .ok ⟨⟨.fin (59 / 20), .fin 2⟩, ⟨.fin 1, .fin 0⟩, room, 4, 4⟩ := by
  rw [g_update_eq]
  simp only [forward_dx]
  have hmove : g_move (K := K) (fuel + 1) ⟨.fin n0, .fin 2⟩ ⟨.fin (5 / 4), .fin 0⟩ room 4 4
      = .ok ⟨.fin (59 / 20), .fin 2⟩ := by
    have habs : |(5 / 4 : K)| = 5 / 4 := abs_of_pos (by norm_num)
    unfold g_move
    rcases hn with rfl | rfl
    · simp only [room_ray_first_frame]
      simp [Flt.gt, m_rayPlaneIntersection, Flt.ofInt, Flt.fabsf, EPSILON, PLANE_OFFSET]
      norm_num [habs]
    · simp only [room_ray_later_frame]
      simp [Flt.gt, m_rayPlaneIntersection, Flt.ofInt, Flt.fabsf, EPSILON, PLANE_OFFSET]
      norm_num [habs]
  simp only [hmove]
  simp [m_normalize, m_rotateVertex, sqrtf, sinf, cosf, sdlScancodes, kbOnly, Flt.ofInt,
    M_PI_F, Flt.gt, hsin, hcos, hsqrt]
  norm_num

/-- Any positive number of forward frames of scenario S3 ends at `n = 2.95`. -/
theorem forward_frames (lm : Libm K) (hsin : lm.sin 0 = 0) (hcos : lm.cos 0 = 1)
    (hsqrt : lm.sqrt 1 = 1) (fuel : Nat) (frames : Nat) :
    ∀ n0 : K, n0 = 2 ∨ n0 = 59 / 20 →
    g_update_n lm sdlScancodes (fuel + 1) (.fin 1) (kbOnly 26) (frames + 1)
        ⟨⟨.fin n0, .fin 2⟩, ⟨.fin 1, .fin 0⟩, room, 4, 4⟩
      = .ok ⟨⟨.fin (59 / 20), .fin 2⟩, ⟨.fin 1, .fin 0⟩, room, 4, 4⟩ := by
  induction frames with
  | zero =>
    intro n0 hn
    simp [g_update_n, forward_frame lm hsin hcos hsqrt fuel n0 hn]
  | succ k ih =>
    intro n0 hn
    rw [g_update_n]
    simp only [forward_frame lm hsin hcos hsqrt fuel n0 hn]
    exact ih _ (Or.inr rfl)

end ForwardLemmas

/-! ## Scenario S4: turning with exact `sinf`, `cosf`, `sqrtf` -/

theorem M_PI_F_literal_near_pi : |(M_PI_F_literal : ℝ) - Real.pi| < 1 / 1000000 := by
  have h1 := Real.pi_gt_d6
  have h2 := Real.pi_lt_d6
  rw [abs_lt]
  unfold M_PI_F_literal
  constructor <;> norm_num at h1 h2 ⊢ <;> linarith

/-- One frame with only D held turns a unit direction by `M_PI_F / 4` and leaves
the position alone. -/
theorem turn_frame (fuel : Nat) (pos : vertex_t ℝ) (map : List Nat) (width height : Int)
    (φ : ℝ) :
    g_update (Libm.mk Real.sin Real.cos Real.sqrt Real.tan) sdlScancodes fuel (.fin 1)
        (kbOnly 7) ⟨pos, ⟨.fin (Real.cos φ), .fin (Real.sin φ)⟩, map, width, height⟩
      = .ok ⟨pos, ⟨.fin (Real.cos (φ + M_PI_F_literal / 4)),
          .fin (Real.sin (φ + M_PI_F_literal / 4))⟩, map, width, height⟩ := by
  rw [g_update_eq]
  have hdx : g_update_dx sdlScancodes (.fin 1 : Flt ℝ) (kbOnly 7)
      ⟨.fin (Real.cos φ), .fin (Real.sin φ)⟩ = ⟨.fin 0, .fin 0⟩ := by
    simp [g_update_dx, sdlScancodes, kbOnly, Flt.ofInt]
  have hmove : g_move fuel pos (⟨.fin 0, .fin 0⟩ : vertex_t ℝ) map width height = .ok pos := by
    simp [g_move]
  have hlen : Real.cos φ * Real.cos φ + Real.sin φ * Real.sin φ = 1 := by
    have := Real.cos_sq_add_sin_sq φ
    nlinarith
  have hda : (.fin 45 * (.fin (-1) * Flt.ofInt (if kbOnly 7 sdlScancodes.A ≠ 0 then 1 else 0)
      + .fin 1 * Flt.ofInt (if kbOnly 7 sdlScancodes.D ≠ 0 then 1 else 0)) * M_PI_F / .fin 180
        * .fin 1 : Flt ℝ) = .fin (M_PI_F_literal / 4) := by
    simp [sdlScancodes, kbOnly, Flt.ofInt, M_PI_F]
    ring
  simp only [hdx, hmove, hda]
  simp [m_normalize, m_rotateVertex, sqrtf, sinf, cosf, Flt.gt, hlen]
  norm_num
  rw [hlen]
  norm_num
  constructor
  · rw [Real.cos_add]; ring
  · rw [Real.sin_add]; ring

/-- The direction after `frames` frames with only D held. -/
theorem turn_frames (fuel : Nat) (pos : vertex_t ℝ) (map : List Nat) (width height : Int)
    (frames : Nat) : ∀ φ : ℝ,
    g_update_n (Libm.mk Real.sin Real.cos Real.sqrt Real.tan) sdlScancodes fuel (.fin 1)
        (kbOnly 7) frames ⟨pos, ⟨.fin (Real.cos φ), .fin (Real.sin φ)⟩, map, width, height⟩
      = .ok ⟨pos, ⟨.fin (Real.cos (φ + frames * (M_PI_F_literal / 4))),
          .fin (Real.sin (φ + frames * (M_PI_F_literal / 4)))⟩, map, width, height⟩ := by
  induction frames with
  | zero => intro φ; simp [g_update_n]
  | succ k ih =>
    intro φ
    rw [g_update_n]
    simp only [turn_frame]
    rw [ih]
    have : φ + M_PI_F_literal / 4 + k * (M_PI_F_literal / 4)
        = φ + ((k + 1 : ℕ) : ℝ) * (M_PI_F_literal / 4) := by push_cast; ring
    rw [this]

/-- After a full turn of eight frames the direction is north again. -/
theorem full_turn_bounds :
    |Real.cos (2 * M_PI_F_literal) - 1| ≤ 1 / 1000 ∧ |Real.sin (2 * M_PI_F_literal)| ≤ 1 / 1000 := by
  have hp := M_PI_F_literal_near_pi
  rw [abs_lt] at hp
  have hδ : |2 * (M_PI_F_literal : ℝ) - 2 * Real.pi| ≤ 1 / 500000 := by
    rw [abs_le]; constructor <;> linarith [hp.1, hp.2]
  have hc : Real.cos (2 * M_PI_F_literal) = Real.cos (2 * M_PI_F_literal - 2 * Real.pi) :=
    (Real.cos_sub_two_pi _).symm
  have hs : Real.sin (2 * M_PI_F_literal) = Real.sin (2 * M_PI_F_literal - 2 * Real.pi) :=
    (Real.sin_sub_two_pi _).symm
  constructor
  · rw [hc, abs_le]
    have h1 := Real.one_sub_sq_div_two_le_cos (x := 2 * M_PI_F_literal - 2 * Real.pi)
    have h2 := Real.cos_le_one (2 * M_PI_F_literal - 2 * Real.pi)
    have h3 : (2 * (M_PI_F_literal : ℝ) - 2 * Real.pi) ^ 2 ≤ (1 / 500000) ^ 2 :=
      sq_le_sq' (abs_le.mp hδ).1 (abs_le.mp hδ).2
    constructor <;> linarith
  · rw [hs]
    exact le_trans Real.abs_sin_le_abs (le_trans hδ (by norm_num))

/-- After a quarter turn of two frames the direction is east. -/
theorem quarter_turn_bounds :
    |Real.cos (M_PI_F_literal / 2)| ≤ 1 / 1000 ∧ |Real.sin (M_PI_F_literal / 2) - 1| ≤ 1 / 1000 := by
  have hp := M_PI_F_literal_near_pi
  rw [abs_lt] at hp
  have hδ : |(M_PI_F_literal : ℝ) / 2 - Real.pi / 2| ≤ 1 / 2000000 := by
    rw [abs_le]; constructor <;> linarith [hp.1, hp.2]
  have hc : Real.cos (M_PI_F_literal / 2) = -Real.sin (M_PI_F_literal / 2 - Real.pi / 2) := by
    rw [← Real.cos_add_pi_div_two]; congr 1; ring
  have hs : Real.sin (M_PI_F_literal / 2) = Real.cos (M_PI_F_literal / 2 - Real.pi / 2) := by
    rw [← Real.sin_add_pi_div_two]; congr 1; ring
  constructor
  · rw [hc, abs_neg]
    exact le_trans Real.abs_sin_le_abs (le_trans hδ (by norm_num))
  · rw [hs, abs_le]
    have h1 := Real.one_sub_sq_div_two_le_cos (x := M_PI_F_literal / 2 - Real.pi / 2)
    have h2 := Real.cos_le_one (M_PI_F_literal / 2 - Real.pi / 2)
    have h3 : ((M_PI_F_literal : ℝ) / 2 - Real.pi / 2) ^ 2 ≤ (1 / 2000000) ^ 2 :=
      sq_le_sq' (abs_le.mp hδ).1 (abs_le.mp hδ).2
    constructor <;> linarith

/-- The direction `frames` frames after facing north, with only D held. -/
theorem turn_frames_from_north (fuel : Nat) (pos : vertex_t ℝ) (map : List Nat)
    (width height : Int) (frames : Nat) :
    g_update_n (Libm.mk Real.sin Real.cos Real.sqrt Real.tan) sdlScancodes fuel (.fin 1)
        (kbOnly 7) frames ⟨pos, ⟨.fin 1, .fin 0⟩, map, width, height⟩
      = .ok ⟨pos, ⟨.fin (Real.cos (frames * (M_PI_F_literal / 4))),
          .fin (Real.sin (frames * (M_PI_F_literal / 4)))⟩, map, width, height⟩ := by
  have h := turn_frames fuel pos map width height frames 0
  simpa using h

/-! ## Claims -/

section Claims

variable {K : Type} [LinearOrderedField K] [FloorRing K]

/-- C1, at the failing input: in the 4x4 room the ray from `(e=2.0, n=2.5)` to
`(e=0.0, n=2.5)` starts on the grid line `e = 2` and travels west.  `r_raycast`
reports cell `(0, 2)` with normal `(+1, 0)`, the east face of that cell, which
is the line `e = 1`; the hit point it reports has `e = 0` and the fraction is
`1`, one whole cell too far: `H.x` differs from `x + 1` by more than `1e-4`. -/
theorem c1_westward_ray_from_grid_line (fuel : Nat) :
    r_raycast (K := K) (fuel + 2) room 4 4 (.fin 2) (.fin (5 / 2)) (.fin 0) (.fin (5 / 2))
      = .ok (.hit 1 (.fin 0) (.fin (5 / 2)) 0 2 1 0 (.fin 1)) ∧
    1 / 10000 < |(0 : K) - (((0 : Int) : K) + 1)| := by
  have h1 : ⌈(5 / 2 : K)⌉ = 3 := by rw [Int.ceil_eq_iff]; norm_num
  have h2 : ⌊(5 / 2 : K)⌋ = 2 := by rw [Int.floor_eq_iff]; norm_num
  constructor
  · simp [r_raycast, r_raycast_loop, r_signum, r_min, Flt.ofInt, Flt.ge, Flt.ne, Flt.ceilf,
      Flt.floorf, Flt.toInt, room, h1, h2]
    norm_num [Flt.infTimes]
  · norm_num

/-- C2: in the 4x4 room the ray from `(e=2.0, n=2.0)` to `(e=2.0, n=10.0)`
returns cell value 1 and reports hit cell `(2, 3)`, hit point `(e=2.0, n=3.0)`,
normal `(e=0, n=-1)` and fraction `1/8`, after one iteration of the loop. -/
theorem c2_scenario_S1_north_ray (fuel : Nat) :
    r_raycast (K := K) (fuel + 1) room 4 4 (.fin 2) (.fin 2) (.fin 2) (.fin 10)
      = .ok (.hit 1 (.fin 2) (.fin 3) 2 3 0 (-1) (.fin (1 / 8))) := by
  simp [r_raycast, r_raycast_loop, r_signum, r_min, Flt.ofInt, Flt.ge, Flt.ne, Flt.ceilf,
    Flt.floorf, Flt.toInt, room]
  norm_num

/-- C3, at the failing input: in the 4x4 room the ray from `(e=2.0, n=2.0)` to
`(e=10.0, n=2.0)` has `dy = 0` and starts on the grid line `n = 2`, so
`tMaxY = 0/0 = NaN`; the first `tMaxX < tMaxY` is false, `dist` becomes `NaN`,
the loop ends, and `r_raycast` returns 0 (no hit) with `f = 1`. -/
theorem c3_scenario_S2_east_ray_misses (fuel : Nat) :
    r_raycast (K := K) (fuel + 1) room 4 4 (.fin 2) (.fin 2) (.fin 10) (.fin 2)
      = .ok (.miss (.fin 1)) := by
  simp [r_raycast, r_raycast_loop, r_signum, r_min, Flt.ofInt, Flt.ge, Flt.ne, Flt.ceilf,
    Flt.floorf, Flt.toInt, room]
  cases fuel <;> simp [r_raycast_loop]

/-- C5, counterexample: in the 4x4 room the player at `(e=2.5, n=2.9)`, facing
north, is 0.1 away from the nearest wall.  One `g_update` with `dt = 0.048` and
W held asks for a move of 0.06; the raycast reports the north wall at `f = 5/3`,
beyond the end of the ray, so the move is performed in full and the player ends
at `n = 2.96`, only 0.04 away from the wall cell `(2, 3)`. -/
theorem c5_free_move_ends_within_offset :
    wallClear room 4 4 (5 / 2 : ℝ) (29 / 10) ∧
    g_update (Libm.mk Real.sin Real.cos Real.sqrt Real.tan) sdlScancodes 1 (.fin (6 / 125))
        (kbOnly 26) ⟨⟨.fin (29 / 10), .fin (5 / 2)⟩, ⟨.fin 1, .fin 0⟩, room, 4, 4⟩
      = .ok ⟨⟨.fin (74 / 25), .fin (5 / 2)⟩, ⟨.fin 1, .fin 0⟩, room, 4, 4⟩ ∧
    ¬ wallClear room 4 4 (5 / 2 : ℝ) (74 / 25) := by
  refine ⟨room_wallClear_start, ?_, room_not_wallClear_end⟩
  rw [g_update_eq]
  have hdx : g_update_dx sdlScancodes (.fin (6 / 125) : Flt ℝ) (kbOnly 26) ⟨.fin 1, .fin 0⟩
      = ⟨.fin (3 / 50), .fin 0⟩ := by
    simp [g_update_dx, sdlScancodes, kbOnly, Flt.ofInt]
    norm_num
  simp only [hdx, g_move_short]
  simp [m_normalize, m_rotateVertex, sqrtf, sinf, cosf, sdlScancodes, kbOnly, Flt.ofInt,
    M_PI_F, Flt.gt]
  norm_num

/-- C5, amended: when the raycast of an update reports a hit with `f ≤ 1` and
the start position is at least `PLANE_OFFSET` in front of the reported hit face,
`g_move` returns `P + f'·D` with `0 ≤ f' ≤ f`, a point of the segment from the
start to the reported hit point that lies exactly `PLANE_OFFSET` in front of
that face, and this is the position of every state `g_update` returns. -/
theorem c5_resolved_position_keeps_offset (lm : Libm K) (sc : Scancodes) (fuel : Nat)
    (map : List Nat) (width height : Int) (pn pe vn ve t dn de : K) (kb : Nat → Nat)
    (b : Nat) (hx hy : K) (xBlock yBlock eNormal nNormal : Int) (φ : K)
    (hD : g_update_dx sc (.fin t) kb ⟨.fin vn, .fin ve⟩ = ⟨.fin dn, .fin de⟩)
    (hray : r_raycast fuel map width height (.fin pe) (.fin pn) (.fin pe + .fin de)
      (.fin pn + .fin dn)
        = .ok (.hit b (.fin hx) (.fin hy) xBlock yBlock eNormal nNormal (.fin φ)))
    (hφ : φ ≤ 1)
    (hfront : 5 / 100 ≤ (eNormal : K) * (pe - hx) + (nNormal : K) * (pn - hy)) :
    ∃ f' : K, 0 ≤ f' ∧ f' ≤ φ ∧
      g_move fuel ⟨.fin pn, .fin pe⟩ ⟨.fin dn, .fin de⟩ map width height
        = .ok ⟨.fin (pn + dn * f'), .fin (pe + de * f')⟩ ∧
      (eNormal : K) * (pe + de * f' - hx) + (nNormal : K) * (pn + dn * f' - hy) = 5 / 100 ∧
      ∀ g' : gamestate_t K,
        g_update lm sc fuel (.fin t) kb ⟨⟨.fin pn, .fin pe⟩, ⟨.fin vn, .fin ve⟩, map, width, height⟩
          = .ok g' → g'.player_pos = ⟨.fin (pn + dn * f'), .fin (pe + de * f')⟩ := by
  have facts := r_raycast_hit_facts fuel map width height pe pn (pe + de) (pn + dn) b _ _
    xBlock yBlock eNormal nNormal _ (by simpa using hray)
  obtain ⟨hxH, hyH, -, hpos, -⟩ := facts
  obtain ⟨φ', hφ', hφ0, -⟩ := hpos.fin_of_le (c := φ) (by simp)
  obtain rfl : φ = φ' := by simpa using hφ'
  have hhx : hx = pe + de * φ := by simpa using hxH
  have hhy : hy = pn + dn * φ := by simpa using hyH
  subst hhx hhy
  obtain ⟨q, hqdef⟩ : ∃ q : K, q = (eNormal : K) * de + (nNormal : K) * dn := ⟨_, rfl⟩
  have hφq : φ * q ≤ -(5 / 100) := by rw [hqdef]; linarith
  have hq : q < 0 := by
    by_contra hc
    have : 0 ≤ φ * q := mul_nonneg hφ0.le (not_lt.mp hc)
    linarith
  have hq5 : q ≤ -(5 / 100) := by nlinarith
  have habs : 1 / 100000 ≤ |(eNormal : K) * de + (nNormal : K) * dn| := by
    rw [← hqdef, abs_of_neg hq]; linarith
  obtain ⟨φ', hφ', -, -, -, -, hmove⟩ := g_move_resolved fuel map width height pn pe dn de b _ _
    xBlock yBlock eNormal nNormal _ hray (by simpa using hφ) habs
  obtain rfl : φ = φ' := by simpa using hφ'
  rw [← hqdef] at hmove
  have hnum : -((nNormal : K) * pn + (eNormal : K) * pe +
      (-((eNormal : K) * (pe + de * φ) + (nNormal : K) * (pn + dn * φ)) - 5 / 100))
        = φ * q + 5 / 100 := by rw [hqdef]; ring
  rw [hnum] at hmove
  refine ⟨(φ * q + 5 / 100) / q, ?_, ?_, hmove, ?_, ?_⟩
  · rw [le_div_iff_of_neg hq]
    linarith
  · rw [div_le_iff_of_neg hq]
    linarith
  · have h1 : (eNormal : K) * (pe + de * ((φ * q + 5 / 100) / q) - (pe + de * φ))
        + (nNormal : K) * (pn + dn * ((φ * q + 5 / 100) / q) - (pn + dn * φ))
        = q * ((φ * q + 5 / 100) / q) - φ * q := by rw [hqdef]; ring
    rw [h1, mul_div_cancel₀ _ hq.ne]
    ring
  · intro g' hg
    rw [g_update_eq] at hg
    simp only [hD, hmove] at hg
    split at hg
    · simp at hg
    · simp only [Except.ok.injEq] at hg
      rw [← hg]


/-- C5, witness: the player at `(e=2.5, n=2.5)` facing `(e=0.6, n=0.8)` moves
for `dt = 1` with W held; the ray hits the north wall at `f = 1/2`, the start is
0.5 in front of that face, and the resolved position keeps the offset. -/
theorem c5_resolved_position_keeps_offset_witness :
    g_update_dx sdlScancodes (.fin 1 : Flt ℝ) (kbOnly 26) ⟨.fin (4 / 5), .fin (3 / 5)⟩
      = ⟨.fin 1, .fin (3 / 4)⟩ ∧
    ((1 / 2 : ℝ) ≤ 1) ∧
    ((5 / 100 : ℝ) ≤ ((0 : Int) : ℝ) * (5 / 2 - 23 / 8) + ((-1 : Int) : ℝ) * (5 / 2 - 3)) ∧
    ∃ f' : ℝ, 0 ≤ f' ∧ f' ≤ 1 / 2 ∧
      g_move 1 ⟨.fin (5 / 2), .fin (5 / 2)⟩ ⟨.fin 1, .fin (3 / 4)⟩ room 4 4
        = .ok ⟨.fin (5 / 2 + 1 * f'), .fin (5 / 2 + 3 / 4 * f')⟩ ∧
      ((0 : Int) : ℝ) * (5 / 2 + 3 / 4 * f' - 23 / 8)
        + ((-1 : Int) : ℝ) * (5 / 2 + 1 * f' - 3) = 5 / 100 ∧
      ∀ g' : gamestate_t ℝ,
        g_update (Libm.mk Real.sin Real.cos Real.sqrt Real.tan) sdlScancodes 1 (.fin 1)
          (kbOnly 26) ⟨⟨.fin (5 / 2), .fin (5 / 2)⟩, ⟨.fin (4 / 5), .fin (3 / 5)⟩, room, 4, 4⟩
          = .ok g' → g'.player_pos = ⟨.fin (5 / 2 + 1 * f'), .fin (5 / 2 + 3 / 4 * f')⟩ := by
  have hD : g_update_dx sdlScancodes (.fin 1 : Flt ℝ) (kbOnly 26) ⟨.fin (4 / 5), .fin (3 / 5)⟩
      = ⟨.fin 1, .fin (3 / 4)⟩ := by
    simp [g_update_dx, sdlScancodes, kbOnly, Flt.ofInt]
    norm_num
  have h2 : (1 / 2 : ℝ) ≤ 1 := by norm_num
  have h3 : (5 / 100 : ℝ) ≤ ((0 : Int) : ℝ) * (5 / 2 - 23 / 8)
      + ((-1 : Int) : ℝ) * (5 / 2 - 3) := by norm_num
  exact ⟨hD, h2, h3,
    c5_resolved_position_keeps_offset (Libm.mk Real.sin Real.cos Real.sqrt Real.tan)
      sdlScancodes 1 room 4 4 (5 / 2) (5 / 2) (4 / 5) (3 / 5) 1 1 (3 / 4) (kbOnly 26) 1
      (23 / 8) 3 2 3 0 (-1) (1 / 2) hD (room_ray_diagonal 0) h2 h3⟩

/-- C6, at the failing input: the player at `(e=2.5, n=2.5)` facing
`(e=0.6, n=0.8)` moves by `D = (e=0.75, n=1.0)` (`dt = 1`, W held) and hits the
north wall at `f = 1/2`.  `g_move` stops it at `P + 0.45·D = (e=2.8375, n=2.95)`:
the displacement along the wall is `0.3375`, not the `0.75` of `D`, and the
resolved fraction `0.45` is smaller than the raycast fraction `0.5`. -/
theorem c6_oblique_move_loses_tangential_motion (fuel : Nat) :
    g_move (K := K) (fuel + 1) ⟨.fin (5 / 2), .fin (5 / 2)⟩ ⟨.fin 1, .fin (3 / 4)⟩ room 4 4
      = .ok ⟨.fin (5 / 2 + 1 * (9 / 20)), .fin (5 / 2 + 3 / 4 * (9 / 20))⟩ ∧
    (5 / 2 + 3 / 4 * (9 / 20) : K) - 5 / 2 ≠ 3 / 4 ∧ (9 / 20 : K) < 1 / 2 := by
  refine ⟨?_, by norm_num, by norm_num⟩
  unfold g_move
  simp only [room_ray_diagonal]
  simp [Flt.gt, m_rayPlaneIntersection, Flt.ofInt, Flt.fabsf, EPSILON, PLANE_OFFSET]
  norm_num

/-- C7: on a hit with `f ≤ 1`, hit point `H`, normal `N` and `|N·D| ≥ EPSILON`,
`g_move` returns `P' = P + f'·D` with `f' = -(N·P + planeD)/(N·D)` and
`planeD = -(N·H) - 0.05`, and `N·P' = N·H + 0.05`. -/
theorem c7_resolved_position_on_offset_plane (fuel : Nat) (map : List Nat)
    (width height : Int) (pn pe dn de : K) (b : Nat) (xHit yHit : Flt K)
    (xBlock yBlock eNormal nNormal : Int) (f : Flt K)
    (hray : r_raycast fuel map width height (.fin pe) (.fin pn) (.fin pe + .fin de)
      (.fin pn + .fin dn) = .ok (.hit b xHit yHit xBlock yBlock eNormal nNormal f))
    (hf : Flt.le f (.fin 1) = true)
    (hq : 1 / 100000 ≤ |(eNormal : K) * de + (nNormal : K) * dn|) :
    ∃ hx hy planeD f' : K, xHit = .fin hx ∧ yHit = .fin hy ∧
      planeD = -((eNormal : K) * hx + (nNormal : K) * hy) - 5 / 100 ∧
      f' = -((nNormal : K) * pn + (eNormal : K) * pe + planeD)
        / ((eNormal : K) * de + (nNormal : K) * dn) ∧
      g_move fuel ⟨.fin pn, .fin pe⟩ ⟨.fin dn, .fin de⟩ map width height
        = .ok ⟨.fin (pn + dn * f'), .fin (pe + de * f')⟩ ∧
      (eNormal : K) * (pe + de * f') + (nNormal : K) * (pn + dn * f')
        = (eNormal : K) * hx + (nNormal : K) * hy + 5 / 100 := by
  obtain ⟨φ, -, -, -, hx, hy, hmove⟩ := g_move_resolved fuel map width height pn pe dn de b
    xHit yHit xBlock yBlock eNormal nNormal f hray hf hq
  have hq0 : (eNormal : K) * de + (nNormal : K) * dn ≠ 0 := by
    intro h0
    rw [h0, abs_zero] at hq
    norm_num at hq
  refine ⟨pe + de * φ, pn + dn * φ, _, _, hx, hy, rfl, rfl, hmove, ?_⟩
  field_simp
  ring

/-- C7, witness: the oblique move of the 4x4 room, resolved against the north
wall. -/
theorem c7_resolved_position_on_offset_plane_witness :
    Flt.le (.fin (1 / 2) : Flt ℚ) (.fin 1) = true ∧
    (1 / 100000 : ℚ) ≤ |((0 : Int) : ℚ) * (3 / 4) + ((-1 : Int) : ℚ) * 1| ∧
    ∃ hx hy planeD f' : ℚ, (.fin (23 / 8) : Flt ℚ) = .fin hx ∧ (.fin 3 : Flt ℚ) = .fin hy ∧
      planeD = -(((0 : Int) : ℚ) * hx + ((-1 : Int) : ℚ) * hy) - 5 / 100 ∧
      f' = -(((-1 : Int) : ℚ) * (5 / 2) + ((0 : Int) : ℚ) * (5 / 2) + planeD)
        / (((0 : Int) : ℚ) * (3 / 4) + ((-1 : Int) : ℚ) * 1) ∧
      g_move 1 ⟨.fin (5 / 2), .fin (5 / 2)⟩ ⟨.fin 1, .fin (3 / 4)⟩ room 4 4
        = .ok ⟨.fin (5 / 2 + 1 * f'), .fin (5 / 2 + 3 / 4 * f')⟩ ∧
      ((0 : Int) : ℚ) * (5 / 2 + 3 / 4 * f') + ((-1 : Int) : ℚ) * (5 / 2 + 1 * f')
        = ((0 : Int) : ℚ) * hx + ((-1 : Int) : ℚ) * hy + 5 / 100 := by
  have h1 : Flt.le (.fin (1 / 2) : Flt ℚ) (.fin 1) = true := by simp; norm_num
  have h2 : (1 / 100000 : ℚ) ≤ |((0 : Int) : ℚ) * (3 / 4) + ((-1 : Int) : ℚ) * 1| := by
    norm_num
  exact ⟨h1, h2, c7_resolved_position_on_offset_plane 1 room 4 4 (5 / 2) (5 / 2) 1 (3 / 4) 1
    (.fin (23 / 8)) (.fin 3) 2 3 0 (-1) (.fin (1 / 2)) (room_ray_diagonal 0) h1 h2⟩

/-- C8, at the failing input: the player at `(e=2.999999, n=2.5)` moves east by
`D = (e=0.000005, n=0)`.  The raycast reports the east wall at `f = 0.2` with
normal `(-1, 0)`; `|N·D| = 0.000005 < EPSILON`, so `m_rayPlaneIntersection`
returns `false` and leaves `f` at the raycast's `0.2`; `g_move` ignores the
return value and moves the player by `0.2·D` to `e = 3.0`, onto the wall face. -/
theorem c8_parallel_hit_moves_onto_wall (fuel : Nat) :
    g_move (K := K) (fuel + 1) ⟨.fin (5 / 2), .fin (2999999 / 1000000)⟩
        ⟨.fin 0, .fin (1 / 200000)⟩ room 4 4
      = .ok ⟨.fin (5 / 2), .fin 3⟩ := by
  have habs : |(1 / 200000 : K)| = 1 / 200000 := abs_of_pos (by norm_num)
  unfold g_move
  simp only [room_ray_tiny]
  simp [Flt.gt, m_rayPlaneIntersection, Flt.ofInt, Flt.fabsf, EPSILON, PLANE_OFFSET]
  norm_num [habs]

/-- C9, counterexample: with exact `sinf`, `cosf`, `sqrtf`, ten forward frames
from `(e=2.0, n=2.0)` end at `n = 2.95`, and `2.95 < 3.0 - PLANE_OFFSET` is
false: the player stands on the offset plane, not strictly below it. -/
theorem c9_ten_frames_not_strictly_below :
    g_update_n (Libm.mk Real.sin Real.cos Real.sqrt Real.tan) sdlScancodes 1 (.fin 1)
        (kbOnly 26) 10 ⟨⟨.fin 2, .fin 2⟩, ⟨.fin 1, .fin 0⟩, room, 4, 4⟩
      = .ok ⟨⟨.fin (59 / 20), .fin 2⟩, ⟨.fin 1, .fin 0⟩, room, 4, 4⟩ ∧
    Flt.lt (.fin (59 / 20) : Flt ℝ) (.fin 3 - PLANE_OFFSET) = false := by
  refine ⟨forward_frames _ (by simp) (by simp) (by simp) 0 9 2 (Or.inl rfl), ?_⟩
  simp [PLANE_OFFSET]
  norm_num

/-- C9, amended: from `(e=2.0, n=2.0)` facing `(e=0, n=1)` in the 4x4 room, ten
calls of `g_update` with `dt = 1.0` and only W held end at `e = 2.0` and
`n = 2.95 = 3.0 - PLANE_OFFSET` exactly, with the direction unchanged, whenever
the C library gives `sinf(0) = 0`, `cosf(0) = 1` and `sqrtf(1) = 1`. -/
theorem c9_ten_frames_reach_offset_plane (lm : Libm K) (hsin : lm.sin 0 = 0)
    (hcos : lm.cos 0 = 1) (hsqrt : lm.sqrt 1 = 1) (fuel : Nat) :
    g_update_n lm sdlScancodes (fuel + 1) (.fin 1) (kbOnly 26) 10
        ⟨⟨.fin 2, .fin 2⟩, ⟨.fin 1, .fin 0⟩, room, 4, 4⟩
      = .ok ⟨⟨.fin (59 / 20), .fin 2⟩, ⟨.fin 1, .fin 0⟩, room, 4, 4⟩ ∧
    (.fin 3 - PLANE_OFFSET : Flt K) = .fin (59 / 20) := by
  refine ⟨forward_frames lm hsin hcos hsqrt fuel 9 2 (Or.inl rfl), ?_⟩
  simp [PLANE_OFFSET]
  norm_num

/-- C9, witness: the exact real `sin`, `cos`, `sqrt`. -/
theorem c9_ten_frames_reach_offset_plane_witness :
    Real.sin 0 = 0 ∧ Real.cos 0 = 1 ∧ Real.sqrt 1 = 1 ∧
    g_update_n (Libm.mk Real.sin Real.cos Real.sqrt Real.tan) sdlScancodes 1 (.fin 1)
        (kbOnly 26) 10 ⟨⟨.fin 2, .fin 2⟩, ⟨.fin 1, .fin 0⟩, room, 4, 4⟩
      = .ok ⟨⟨.fin (59 / 20), .fin 2⟩, ⟨.fin 1, .fin 0⟩, room, 4, 4⟩ ∧
    (.fin 3 - PLANE_OFFSET : Flt ℝ) = .fin (59 / 20) :=
  ⟨Real.sin_zero, Real.cos_zero, Real.sqrt_one,
    c9_ten_frames_reach_offset_plane (Libm.mk Real.sin Real.cos Real.sqrt Real.tan)
      Real.sin_zero Real.cos_zero Real.sqrt_one 0⟩

end Claims

/-- C10, counterexample: with exact `sinf`, `cosf`, `sqrtf`, eight frames with
`dt = 1.0` and only D held turn the direction by `8 · M_PI_F/4 = 2·M_PI_F`, a
full turn: the direction is `(n = cos (2·M_PI_F), e = sin (2·M_PI_F))`, whose
east component is more than `1e-3` away from 1 and whose north component is more
than `1e-3` away from 0. -/
theorem c10_eight_frames_not_east :
    g_update_n (Libm.mk Real.sin Real.cos Real.sqrt Real.tan) sdlScancodes 1 (.fin 1)
        (kbOnly 7) 8 ⟨⟨.fin 2, .fin 2⟩, ⟨.fin 1, .fin 0⟩, room, 4, 4⟩
      = .ok ⟨⟨.fin 2, .fin 2⟩, ⟨.fin (Real.cos (2 * M_PI_F_literal)),
          .fin (Real.sin (2 * M_PI_F_literal))⟩, room, 4, 4⟩ ∧
    1 / 1000 < |Real.sin (2 * M_PI_F_literal) - 1| ∧
    1 / 1000 < |Real.cos (2 * M_PI_F_literal) - 0| := by
  obtain ⟨hc, hs⟩ := full_turn_bounds
  rw [abs_le] at hc hs
  refine ⟨?_, ?_, ?_⟩
  · have h := turn_frames_from_north 1 ⟨.fin 2, .fin 2⟩ room 4 4 8
    have h8 : ((8 : ℕ) : ℝ) * (M_PI_F_literal / 4) = 2 * M_PI_F_literal := by
      push_cast; ring
    rw [h8] at h
    exact h
  · rw [lt_abs]; right; linarith [hs.2]
  · rw [lt_abs]; left; linarith [hc.1]

/-- C10, amended: with exact `sinf`, `cosf`, `sqrtf`, from direction
`(e=0, n=1)` eight calls of `g_update` with `dt = 1.0` and only D held bring the
direction back to `(e=0, n=1)` within `1e-3` (a full turn of 8 · 45°), and two
calls bring it to `(e=1, n=0)` within `1e-3`; the position does not change. -/
theorem c10_turn_by_frames (fuel : Nat) (pos : vertex_t ℝ) (map : List Nat)
    (width height : Int) :
    (∃ n e : ℝ,
      g_update_n (Libm.mk Real.sin Real.cos Real.sqrt Real.tan) sdlScancodes fuel (.fin 1)
          (kbOnly 7) 8 ⟨pos, ⟨.fin 1, .fin 0⟩, map, width, height⟩
        = .ok ⟨pos, ⟨.fin n, .fin e⟩, map, width, height⟩ ∧
      |e - 0| ≤ 1 / 1000 ∧ |n - 1| ≤ 1 / 1000) ∧
    (∃ n e : ℝ,
      g_update_n (Libm.mk Real.sin Real.cos Real.sqrt Real.tan) sdlScancodes fuel (.fin 1)
          (kbOnly 7) 2 ⟨pos, ⟨.fin 1, .fin 0⟩, map, width, height⟩
        = .ok ⟨pos, ⟨.fin n, .fin e⟩, map, width, height⟩ ∧
      |e - 1| ≤ 1 / 1000 ∧ |n - 0| ≤ 1 / 1000) := by
  constructor
  · refine ⟨_, _, turn_frames_from_north fuel pos map width height 8, ?_, ?_⟩
    · have h8 : ((8 : ℕ) : ℝ) * (M_PI_F_literal / 4) = 2 * M_PI_F_literal := by
        push_cast; ring
      rw [h8, sub_zero]; exact full_turn_bounds.2
    · have h8 : ((8 : ℕ) : ℝ) * (M_PI_F_literal / 4) = 2 * M_PI_F_literal := by
        push_cast; ring
      rw [h8]; exact full_turn_bounds.1
  · refine ⟨_, _, turn_frames_from_north fuel pos map width height 2, ?_, ?_⟩
    · have h2 : ((2 : ℕ) : ℝ) * (M_PI_F_literal / 4) = M_PI_F_literal / 2 := by
        push_cast; ring
      rw [h2]; exact quarter_turn_bounds.2
    · have h2 : ((2 : ℕ) : ℝ) * (M_PI_F_literal / 4) = M_PI_F_literal / 2 := by
        push_cast; ring
      rw [h2, sub_zero]; exact quarter_turn_bounds.1

/-! ## Framebuffer lemmas -/

theorem loadWord_storeWord (fb : Framebuffer) (i j w : Nat) :
    loadWord (storeWord fb i w) j = if j = i then w % 2 ^ 32 else loadWord fb j := by
  by_cases h : j = i
  · subst h
    simp only [loadWord, storeWord, if_true]
    have e1 : ¬ (4 * j + 1 = 4 * j) := by omega
    have e2 : ¬ (4 * j + 2 = 4 * j) := by omega
    have e3 : ¬ (4 * j + 2 = 4 * j + 1) := by omega
    have e4 : ¬ (4 * j + 3 = 4 * j) := by omega
    have e5 : ¬ (4 * j + 3 = 4 * j + 1) := by omega
    have e6 : ¬ (4 * j + 3 = 4 * j + 2) := by omega
    simp only [e1, e2, e3, e4, e5, e6, if_false, if_true]
    omega
  · simp only [loadWord, storeWord, if_neg h]
    have a0 : ¬ (4 * j = 4 * i) := by omega
    have a1 : ¬ (4 * j = 4 * i + 1) := by omega
    have a2 : ¬ (4 * j = 4 * i + 2) := by omega
    have a3 : ¬ (4 * j = 4 * i + 3) := by omega
    have b0 : ¬ (4 * j + 1 = 4 * i) := by omega
    have b1 : ¬ (4 * j + 1 = 4 * i + 1) := by omega
    have b2 : ¬ (4 * j + 1 = 4 * i + 2) := by omega
    have b3 : ¬ (4 * j + 1 = 4 * i + 3) := by omega
    have c0 : ¬ (4 * j + 2 = 4 * i) := by omega
    have c1 : ¬ (4 * j + 2 = 4 * i + 1) := by omega
    have c2 : ¬ (4 * j + 2 = 4 * i + 2) := by omega
    have c3 : ¬ (4 * j + 2 = 4 * i + 3) := by omega
    have d0 : ¬ (4 * j + 3 = 4 * i) := by omega
    have d1 : ¬ (4 * j + 3 = 4 * i + 1) := by omega
    have d2 : ¬ (4 * j + 3 = 4 * i + 2) := by omega
    have d3 : ¬ (4 * j + 3 = 4 * i + 3) := by omega
    simp only [a0, a1, a2, a3, b0, b1, b2, b3, c0, c1, c2, c3, d0, d1, d2, d3, if_false]

/-- A row of word stores: pixel `j` holds `w` if it lies in the row, and is
untouched otherwise. -/
theorem loadWord_forLoop_row (w base : Nat) (count : Nat) :
    ∀ (lo : Nat) (fb : Framebuffer) (j : Nat),
      loadWord (forLoop (fun x fb => storeWord fb (base + x) w) count lo fb) j
        = if base + lo ≤ j ∧ j < base + lo + count then w % 2 ^ 32 else loadWord fb j := by
  induction count with
  | zero =>
    intro lo fb j
    rw [forLoop, if_neg (by omega)]
  | succ n ih =>
    intro lo fb j
    rw [forLoop, ih, loadWord_storeWord]
    split_ifs <;> first | rfl | (exfalso; omega)

/-- A block of rows of word stores. -/
theorem loadWord_forLoop_rows (w width : Nat) (count : Nat) :
    ∀ (lo : Nat) (fb : Framebuffer) (j : Nat),
      loadWord (forLoop (fun y fb =>
          forLoop (fun x fb => storeWord fb (y * width + x) w) width 0 fb) count lo fb) j
        = if lo * width ≤ j ∧ j < (lo + count) * width then w % 2 ^ 32 else loadWord fb j := by
  induction count with
  | zero =>
    intro lo fb j
    rw [forLoop, if_neg (by rw [Nat.add_zero]; omega)]
  | succ n ih =>
    intro lo fb j
    rw [forLoop, ih, loadWord_forLoop_row]
    have e1 : (lo + 1) * width = lo * width + width := by ring
    have e2 : (lo + 1 + n) * width = lo * width + width + n * width := by ring
    have e3 : (lo + (n + 1)) * width = lo * width + width + n * width := by ring
    rw [e1, e2, e3]
    have := Nat.zero_le (n * width)
    split_ifs <;> first | rfl | (exfalso; omega)

theorem storeByte_ok {fb fb1 : Framebuffer} {i : Int} {v : Nat}
    (h : storeByte fb i v = .ok fb1) (a : Nat) (ha : fb1 a ≠ fb a) : (a : Int) = i := by
  unfold storeByte at h
  split at h
  · simp at h
  · rename_i hi
    simp only [Except.ok.injEq] at h
    subst h
    by_cases e : a = i.toNat
    · rw [e]; omega
    · simp [e] at ha

/-- Drawing the one-texel red texture at pixel `(0, 0)`. -/
theorem draw_redTexel :
    r_drawcolumn (K := ℚ) opaqueBlack redTexel 0 0 1 (.fin 0) false
      = .ok (fun a => if a = 2 then 0 else if a = 1 then 0 else if a = 0 then 255
          else opaqueBlack a) := by
  simp [r_drawcolumn, r_drawcolumn_loop, WIDTH, HEIGHT, BPP, redTexel, Flt.ofInt, Flt.ge,
    Flt.toInt, r_min_int, texture_t.read, storeByte]

section RenderLemmas

variable {K : Type} [LinearOrderedField K] [FloorRing K]

/-- The loop of `r_drawcolumn` changes only the bytes `+0, +1, +2` of the pixels
of column `x` in the rows it runs through. -/
theorem r_drawcolumn_loop_frame (t : texture_t) (x rl tx bpp : Int) (ty_stride : Flt K)
    (transparency : Bool) (count : Nat) :
    ∀ (c : Int) (ty : Flt K) (fb fb' : Framebuffer),
      r_drawcolumn_loop t x rl tx bpp ty_stride transparency count c ty fb = .ok fb' →
      ∀ a : Nat, fb' a ≠ fb a →
        ∃ (r : Int) (k : Nat), c ≤ r ∧ r < c + count ∧ k < 3 ∧
          (a : Int) = r * WIDTH * BPP + x * BPP + k := by
  induction count with
  | zero =>
    intro c ty fb fb' h a ha
    simp only [r_drawcolumn_loop, Except.ok.injEq] at h
    subst h
    exact absurd rfl ha
  | succ n ih =>
    intro c ty fb fb' h a ha
    unfold r_drawcolumn_loop at h
    split at h
    · simp at h
    · split at h
      · simp at h
      · split at h
        · simp at h
        · split at h
          · simp at h
          · split at h
            · split at h
              · obtain ⟨r, k, h1, h2, h3, h4⟩ := ih _ _ _ _ h a ha
                exact ⟨r, k, by omega, by push_cast; omega, h3, h4⟩
              · split at h
                · simp at h
                · rename_i fb1 hs1
                  split at h
                  · simp at h
                  · rename_i fb2 hs2
                    split at h
                    · simp at h
                    · rename_i fb3 hs3
                      by_cases e3 : fb' a = fb3 a
                      · by_cases e2 : fb3 a = fb2 a
                        · by_cases e1 : fb2 a = fb1 a
                          · have e0 : fb1 a ≠ fb a := by
                              intro e0; apply ha; rw [e3, e2, e1, e0]
                            exact ⟨c, 0, le_refl _, by push_cast; omega, by norm_num,
                              by rw [storeByte_ok hs1 a e0]; push_cast; ring⟩
                          · exact ⟨c, 1, le_refl _, by push_cast; omega, by norm_num,
                              by rw [storeByte_ok hs2 a e1]; push_cast; ring⟩
                        · exact ⟨c, 2, le_refl _, by push_cast; omega, by norm_num,
                            by rw [storeByte_ok hs3 a e2]; push_cast; ring⟩
                      · obtain ⟨r, k, h1, h2, h3, h4⟩ := ih _ _ _ _ h a e3
                        exact ⟨r, k, by omega, by push_cast; omega, h3, h4⟩
            · simp at h

/-- A sprite whose distance exceeds the depth of every screen column draws no
column: the loop of `r_drawsprite` returns the framebuffer it was given. -/
theorem r_drawsprite_loop_culled (zbuffer : Nat → Flt K) (t : texture_t)
    (dist height tx : Flt K)
    (hcull : ∀ x : Nat, x < WIDTH → Flt.gt dist (zbuffer x) = true) (count : Nat) :
    ∀ (x : Int) (txcolumn : Flt K) (fb : Framebuffer),
      r_drawsprite_loop zbuffer t dist height tx count x txcolumn fb = .ok fb := by
  induction count with
  | zero => intro x txcolumn fb; rfl
  | succ n ih =>
    intro x txcolumn fb
    unfold r_drawsprite_loop
    by_cases h1 : x ≥ WIDTH
    · simp [h1]
    · by_cases h2 : x < 0
      · simp [h1, h2, ih]
      · have hx : x.toNat < WIDTH := by
          have : (x.toNat : Int) = x := Int.toNat_of_nonneg (not_lt.mp h2)
          have h3 : x < (WIDTH : Int) := not_le.mp h1
          omega
        simp [h1, h2, hcull _ hx, ih]

end RenderLemmas

theorem tan_half_fov_ne_zero : Real.tan (60 * M_PI_F_literal / 180 / 2) ≠ 0 := by
  have hp := M_PI_F_literal_near_pi
  rw [abs_lt] at hp
  have h1 := Real.pi_gt_d6
  have hpos : (0 : ℝ) < 60 * M_PI_F_literal / 180 / 2 := by
    unfold M_PI_F_literal; norm_num
  have hlt : 60 * (M_PI_F_literal : ℝ) / 180 / 2 < Real.pi / 2 := by
    norm_num at h1
    linarith [hp.1, hp.2]
  exact (Real.tan_pos_of_pos_of_lt_pi_div_two hpos hlt).ne'

/-! ## Direction length -/

section DirectionLemmas

variable {K : Type} [LinearOrderedField K] [FloorRing K]

end DirectionLemmas

section ScaleLemmas

variable {K : Type} [LinearOrderedField K]

end ScaleLemmas

section ShortRayLemmas

variable {K : Type} [LinearOrderedField K] [FloorRing K]

theorem r_raycast_long_eq (fuel : Nat) (map : List Nat) (width height : Int)
    (sx sy ex ey : K) :
    r_raycast fuel map width height (.fin sx) (.fin sy) (.fin ex) (.fin ey)
      = r_raycast_loop map width height (.fin sx) (.fin sy) (.fin (ex - sx))
          (.fin (ey - sy)) (r_signum (Flt.fin (ex - sx))) (r_signum (Flt.fin (ey - sy)))
          (Flt.ofInt (r_signum (Flt.fin (ex - sx))) / Flt.fin (ex - sx))
          (Flt.ofInt (r_signum (Flt.fin (ey - sy))) / Flt.fin (ey - sy))
          fuel (firstT (Flt.fin sx) (Flt.fin (ex - sx)))
          (firstT (Flt.fin sy) (Flt.fin (ey - sy)))
          (if 0 ≤ sx then ⌊sx⌋ else ⌈sx⌉) (if 0 ≤ sy then ⌊sy⌋ else ⌈sy⌉) (.fin 0) := by
  rw [r_raycast_eq]
  simp only [Flt.toInt, Flt.fin_sub_fin]

end ShortRayLemmas

/-! ## Claims on the update, the raycaster in length, and the renderer -/

section Claims2

variable {K : Type} [LinearOrderedField K] [FloorRing K]

omit [FloorRing K] in
/-- C11, at the failing input: with `kb[SDL_SCANCODE_W] = 2` (held, stored as a
byte other than 1) and S released, the forward axis is `f = 2` and the
displacement handed to `g_move` is `player_dir · 1.25 · 2 · dt`, twice the
displacement for the byte 1. -/
theorem c11_held_byte_two_doubles_displacement (vn ve t : K) :
    g_update_dx sdlScancodes (.fin t) (kbByte 26 2) ⟨.fin vn, .fin ve⟩
      = ⟨.fin (vn * (125 / 100) * 2 * t), .fin (ve * (125 / 100) * 2 * t)⟩ ∧
    g_update_dx sdlScancodes (.fin t) (kbByte 26 1) ⟨.fin vn, .fin ve⟩
      = ⟨.fin (vn * (125 / 100) * 1 * t), .fin (ve * (125 / 100) * 1 * t)⟩ := by
  constructor <;> simp [g_update_dx, sdlScancodes, kbByte, Flt.ofInt]

end Claims2

section Claims3

variable {K : Type} [LinearOrderedField K] [FloorRing K]

end Claims3

/-- C14, at the failing input: drawing the red texel `(R, G, B) = (255, 0, 0)`
at pixel `(0, 0)` of a framebuffer with alpha `0xFF` leaves the word
`0xFF0000FF` there, while `COLOR(255, 0, 0) = 0xFFFF0000`: the column drawer
puts R into the byte in which `COLOR` keeps B. -/
theorem c14_column_drawer_swaps_red_and_blue :
    ∃ fb : Framebuffer,
      r_drawcolumn (K := ℚ) opaqueBlack redTexel 0 0 1 (.fin 0) false = .ok fb ∧
      loadWord fb 0 = 0xFF0000FF ∧ COLOR 255 0 0 = 0xFFFF0000 ∧ COLOR 0 0 255 = 0xFF0000FF := by
  refine ⟨_, draw_redTexel, ?_, by decide, by decide⟩
  simp [loadWord, opaqueBlack]

section Claims4

variable {K : Type} [LinearOrderedField K] [FloorRing K]

/-- C15: a call of `r_drawcolumn` that returns changes only byte offsets
`+0, +1, +2` of the pixels in column `x` and rows
`[max(y_high, 0), min(y_low, HEIGHT))`; every alpha byte `+3` keeps its value. -/
theorem c15_column_drawer_frame (fb fb' : Framebuffer) (t : texture_t) (x y_high y_low : Int)
    (tex_column : Flt K) (transparency : Bool)
    (h : r_drawcolumn fb t x y_high y_low tex_column transparency = .ok fb') :
    (∀ a : Nat, fb' a ≠ fb a →
      ∃ (r : Int) (k : Nat), max y_high 0 ≤ r ∧ r < min y_low HEIGHT ∧ k < 3 ∧
        (a : Int) = r * WIDTH * BPP + x * BPP + k) ∧
    (∀ p : Nat, fb' (4 * p + 3) = fb (4 * p + 3)) := by
  have main : ∀ a : Nat, fb' a ≠ fb a →
      ∃ (r : Int) (k : Nat), max y_high 0 ≤ r ∧ r < min y_low HEIGHT ∧ k < 3 ∧
        (a : Int) = r * WIDTH * BPP + x * BPP + k := by
    intro a ha
    unfold r_drawcolumn at h
    split at h
    · simp at h
    · split at h
      · simp at h
      · split at h
        · simp at h
        · simp only at h
          split at h
          · simp only [Except.ok.injEq] at h
            subst h
            exact absurd rfl ha
          · split at h
            · simp at h
            · have hpos : (0 : Int) < (y_low - y_high) := by omega
              by_cases hc : y_high < 0
              · simp only [hc, decide_True, if_true, Bool.true_and] at h
                split at h
                · simp at h
                · obtain ⟨r, k, h1, h2, h3, h4⟩ :=
                    r_drawcolumn_loop_frame _ _ _ _ _ _ _ _ _ _ _ _ h a ha
                  refine ⟨r, k, ?_, ?_, h3, h4⟩
                  · rw [max_eq_right hc.le]; exact h1
                  · rw [lt_min_iff]
                    unfold r_min_int at h2
                    split at h2 <;> constructor <;> omega
              · simp only [hc, decide_False, Bool.false_and, Bool.false_eq_true, if_false] at h
                obtain ⟨r, k, h1, h2, h3, h4⟩ :=
                  r_drawcolumn_loop_frame _ _ _ _ _ _ _ _ _ _ _ _ h a ha
                refine ⟨r, k, ?_, ?_, h3, h4⟩
                · rw [max_eq_left (not_lt.mp hc)]; exact h1
                · rw [lt_min_iff]
                  unfold r_min_int at h2
                  split at h2 <;> constructor <;> omega
  refine ⟨main, ?_⟩
  intro p
  by_contra hne
  obtain ⟨r, k, -, -, hk, ha⟩ := main (4 * p + 3) hne
  simp only [WIDTH, BPP] at ha
  push_cast at ha
  omega

end Claims4

/-- C15, witness: drawing the one-texel red texture at pixel `(0, 0)`. -/
theorem c15_column_drawer_frame_witness :
    (∀ a : Nat,
      (fun a => if a = 2 then 0 else if a = 1 then 0 else if a = 0 then 255
          else opaqueBlack a) a ≠ opaqueBlack a →
      ∃ (r : Int) (k : Nat), max (0 : Int) 0 ≤ r ∧ r < min (1 : Int) HEIGHT ∧ k < 3 ∧
        (a : Int) = r * WIDTH * BPP + 0 * BPP + k) ∧
    (∀ p : Nat,
      (fun a => if a = 2 then 0 else if a = 1 then 0 else if a = 0 then 255
          else opaqueBlack a) (4 * p + 3) = opaqueBlack (4 * p + 3)) :=
  c15_column_drawer_frame (K := ℚ) opaqueBlack _ redTexel 0 0 1 (.fin 0) false draw_redTexel

/-- C16: after `r_drawBackground` every pixel of the rows `[0, HEIGHT/2)` is
`COLOR(10, 169, 216) = 0xFF0AA9D8` and every pixel of the rows
`[HEIGHT/2, HEIGHT)` is `COLOR(108, 108, 108) = 0xFF6C6C6C`, in all `WIDTH`
columns and whatever the framebuffer held before. -/
theorem c16_background_fill (fb : Framebuffer) (x y : Nat) (hx : x < WIDTH) (hy : y < HEIGHT) :
    loadWord (r_drawBackground fb) (y * WIDTH + x)
      = (if y < HEIGHT / 2 then 0xFF0AA9D8 else 0xFF6C6C6C) ∧
    COLOR 10 169 216 = 0xFF0AA9D8 ∧ COLOR 108 108 108 = 0xFF6C6C6C := by
  refine ⟨?_, by decide, by decide⟩
  unfold r_drawBackground
  simp only [loadWord_forLoop_rows]
  have c1 : COLOR 10 169 216 % 2 ^ 32 = 0xFF0AA9D8 := by decide
  have c2 : COLOR 108 108 108 % 2 ^ 32 = 0xFF6C6C6C := by decide
  rw [c1, c2]
  simp only [WIDTH, HEIGHT] at hx hy ⊢
  norm_num
  split_ifs <;> first | rfl | (exfalso; omega)

/-- C16, witness: the first pixel of the frame is sky. -/
theorem c16_background_fill_witness :
    loadWord (r_drawBackground opaqueBlack) (0 * WIDTH + 0)
      = (if 0 < HEIGHT / 2 then 0xFF0AA9D8 else 0xFF6C6C6C) ∧
    COLOR 10 169 216 = 0xFF0AA9D8 ∧ COLOR 108 108 108 = 0xFF6C6C6C :=
  c16_background_fill opaqueBlack 0 0 (by decide) (by decide)

section Claims5

variable {K : Type} [LinearOrderedField K] [FloorRing K]

/-- C17: on finite arguments `m_rayPlaneIntersection` returns `false` exactly
when `|N·D| < 1e-5`; otherwise it returns `f = -(N·P + d)/(N·D)`, which solves
`N·(P + f·D) + d = 0`, and `f = 0` when `P` lies on the plane. -/
theorem c17_ray_plane_intersection (Nn Ne d Pn Pe Dn De : K) :
    (m_rayPlaneIntersection ⟨.fin Nn, .fin Ne⟩ (.fin d) ⟨.fin Pn, .fin Pe⟩ ⟨.fin Dn, .fin De⟩
        = none ↔ |Ne * De + Nn * Dn| < 1 / 100000) ∧
    (¬ |Ne * De + Nn * Dn| < 1 / 100000 →
      m_rayPlaneIntersection ⟨.fin Nn, .fin Ne⟩ (.fin d) ⟨.fin Pn, .fin Pe⟩ ⟨.fin Dn, .fin De⟩
        = some (.fin (-(Nn * Pn + Ne * Pe + d) / (Ne * De + Nn * Dn))) ∧
      Nn * (Pn + -(Nn * Pn + Ne * Pe + d) / (Ne * De + Nn * Dn) * Dn)
        + Ne * (Pe + -(Nn * Pn + Ne * Pe + d) / (Ne * De + Nn * Dn) * De) + d = 0 ∧
      (Nn * Pn + Ne * Pe + d = 0 → -(Nn * Pn + Ne * Pe + d) / (Ne * De + Nn * Dn) = 0)) := by
  have hdef : m_rayPlaneIntersection ⟨.fin Nn, .fin Ne⟩ (.fin d) ⟨.fin Pn, .fin Pe⟩
      ⟨.fin Dn, .fin De⟩
      = if |Ne * De + Nn * Dn| < 1 / 100000 then none
        else some ((.fin (-(Nn * Pn + Ne * Pe + d)) : Flt K) / .fin (Ne * De + Nn * Dn)) := by
    simp [m_rayPlaneIntersection, Flt.fabsf, EPSILON]
  constructor
  · rw [hdef]
    by_cases h : |Ne * De + Nn * Dn| < 1 / 100000 <;> simp [h]
  · intro h
    have hq : Ne * De + Nn * Dn ≠ 0 := by
      intro h0
      apply h
      rw [h0, abs_zero]
      norm_num
    refine ⟨?_, ?_, ?_⟩
    · rw [hdef, if_neg h, Flt.fin_div_fin_of_ne _ _ hq]
    · field_simp
      ring
    · intro h0
      rw [h0]
      simp

/-- C17, witness: the plane `n = 3` (normal `(n=-1, e=0)`, `d = 3`) and the ray
from `(n=2, e=2)` with direction `(n=2, e=0)`: `f = 1/2`. -/
theorem c17_ray_plane_intersection_witness :
    ¬ |(0 : ℚ) * 0 + (-1) * 2| < 1 / 100000 ∧
    (m_rayPlaneIntersection (K := ℚ) ⟨.fin (-1), .fin 0⟩ (.fin 3) ⟨.fin 2, .fin 2⟩
        ⟨.fin 2, .fin 0⟩
        = some (.fin (-((-1) * 2 + 0 * 2 + 3) / (0 * 0 + (-1) * 2))) ∧
      (-1 : ℚ) * (2 + -((-1) * 2 + 0 * 2 + 3) / (0 * 0 + (-1) * 2) * 2)
        + 0 * (2 + -((-1) * 2 + 0 * 2 + 3) / (0 * 0 + (-1) * 2) * 0) + 3 = 0 ∧
      ((-1 : ℚ) * 2 + 0 * 2 + 3 = 0 → -((-1 : ℚ) * 2 + 0 * 2 + 3) / (0 * 0 + (-1) * 2) = 0)) := by
  have h : ¬ |(0 : ℚ) * 0 + (-1) * 2| < 1 / 100000 := by norm_num
  exact ⟨h, (c17_ray_plane_intersection (-1 : ℚ) 0 3 2 2 2 0).2 h⟩

end Claims5

section Claims6

variable {K : Type} [LinearOrderedField K] [FloorRing K]

/-- C19: a sprite with `dist < 0.1`, or with `dist > depth[x]` for every column
`x` in `[0, WIDTH)`, leaves the framebuffer unchanged: `r_drawsprite` returns
the framebuffer it was given (for finite poses and `tanf(FOV/2) ≠ 0`). -/
theorem c19_culled_sprite_draws_nothing (lm : Libm K) (fb : Framebuffer)
    (zbuffer : Nat → Flt K) (t : texture_t) (pn pe dn de sn se : K)
    (htan : lm.tan (60 * M_PI_F_literal / 180 / 2) ≠ 0)
    (hcull : (sn - pn) * dn + (se - pe) * de < 1 / 10 ∨
      ∀ x : Nat, x < WIDTH →
        Flt.gt (.fin ((sn - pn) * dn + (se - pe) * de)) (zbuffer x) = true) :
    r_drawsprite lm fb zbuffer t ⟨.fin pn, .fin pe⟩ ⟨.fin dn, .fin de⟩ ⟨.fin sn, .fin se⟩
      = .ok fb := by
  unfold r_drawsprite
  by_cases hd : (sn - pn) * dn + (se - pe) * de < 1 / 10
  · simp only [Flt.fin_sub_fin, Flt.fin_mul_fin, Flt.fin_add_fin, Flt.neg_fin, Flt.lt_fin_fin,
      hd, decide_True, if_true]
  · have hcull' := hcull.resolve_left hd
    have hd0 : (sn - pn) * dn + (se - pe) * de ≠ 0 := by
      intro h0; apply hd; rw [h0]; norm_num
    simp only [Flt.fin_sub_fin, Flt.fin_mul_fin, Flt.fin_add_fin, Flt.lt_fin_fin, hd,
      decide_False, Bool.false_eq_true, if_false, tanf, FOV, M_PI_F, Flt.ofInt, Flt.neg_fin,
      Flt.fin_div_fin_of_ne _ _ (by norm_num : (180 : K) ≠ 0),
      Flt.fin_div_fin_of_ne _ _ (by norm_num : (2 : K) ≠ 0),
      Flt.fin_div_fin_of_ne _ _ htan, Flt.fin_div_fin_of_ne _ _ hd0, Flt.toInt]
    exact r_drawsprite_loop_culled zbuffer t _ _ _ hcull' _ _ _ _
end Claims6

/-- C19, witness: scenario S6, the sprite at `(e=2.0, n=5.0)` seen from
`(e=2.0, n=2.0)` facing north, behind a wall at depth 1 in every column. -/
theorem c19_culled_sprite_draws_nothing_witness :
    ((5 - 2 : ℝ) * 1 + (2 - 2) * 0 < 1 / 10 ∨
      ∀ x : Nat, x < WIDTH →
        Flt.gt (.fin ((5 - 2 : ℝ) * 1 + (2 - 2) * 0)) ((fun _ => Flt.fin 1) x) = true) ∧
    r_drawsprite (Libm.mk Real.sin Real.cos Real.sqrt Real.tan) opaqueBlack
        (fun _ => .fin 1) redTexel ⟨.fin 2, .fin 2⟩ ⟨.fin 1, .fin 0⟩ ⟨.fin 5, .fin 2⟩
      = .ok opaqueBlack := by
  have h : ((5 - 2 : ℝ) * 1 + (2 - 2) * 0 < 1 / 10 ∨
      ∀ x : Nat, x < WIDTH →
        Flt.gt (.fin ((5 - 2 : ℝ) * 1 + (2 - 2) * 0)) ((fun _ => Flt.fin 1) x) = true) := by
    right
    intro x _
    simp [Flt.gt]
    norm_num
  exact ⟨h, c19_culled_sprite_draws_nothing (Libm.mk Real.sin Real.cos Real.sqrt Real.tan)
    opaqueBlack (fun _ => .fin 1) redTexel 2 2 1 0 5 2 tan_half_fov_ne_zero h⟩
section Claims7

variable {K : Type} [LinearOrderedField K] [FloorRing K]

/-- C20, at the failing input: in the 4x4 room the ray from `(e=1.5, n=2.0)` to
`(e=3.5, n=2.0)` has `dy = 0` and an integer start on that axis, so
`tMaxY = 0/0 = NaN`: the first iteration takes the `else` branch, the Y axis,
`dist` is `NaN` and the loop ends with no hit, although the wall cell `(3, 2)`
lies on the ray.  The same ray at `n = 2.5` advances the X axis only and hits
that cell at `f = 3/4`. -/
theorem c20_zero_dy_on_grid_line_selects_y (fuel : Nat) :
    r_raycast (K := K) (fuel + 1) room 4 4 (.fin (3 / 2)) (.fin 2) (.fin (7 / 2)) (.fin 2)
      = .ok (.miss (.fin 1)) ∧
    r_raycast (K := K) (fuel + 2) room 4 4 (.fin (3 / 2)) (.fin (5 / 2)) (.fin (7 / 2))
        (.fin (5 / 2))
      = .ok (.hit 1 (.fin 3) (.fin (5 / 2)) 3 2 (-1) 0 (.fin (3 / 4))) := by
  have h1 : ⌈(5 / 2 : K)⌉ = 3 := by rw [Int.ceil_eq_iff]; norm_num
  have h2 : ⌊(5 / 2 : K)⌋ = 2 := by rw [Int.floor_eq_iff]; norm_num
  have h3 : ⌈(3 / 2 : K)⌉ = 2 := by rw [Int.ceil_eq_iff]; norm_num
  have h4 : ⌊(3 / 2 : K)⌋ = 1 := by rw [Int.floor_eq_iff]; norm_num
  constructor
  · simp [r_raycast, r_raycast_loop, r_signum, r_min, Flt.ofInt, Flt.ge, Flt.ne, Flt.ceilf,
      Flt.floorf, Flt.toInt, room, h3, h4]
    norm_num
    cases fuel <;> simp [r_raycast_loop]
  · simp [r_raycast, r_raycast_loop, r_signum, r_min, Flt.ofInt, Flt.ge, Flt.ne, Flt.ceilf,
      Flt.floorf, Flt.toInt, room, h1, h2, h3, h4]
    norm_num [Flt.infTimes]

end Claims7

/-! ## Lemmas on grid reads, termination, the column loop of the renderer and the
column drawer's assertions -/

section SafetyLemmas

variable {K : Type} [LinearOrderedField K] [FloorRing K]

/-- Inside the bounds test the index `(height-1-y)·width + x` is a valid index
of a level array of at least `width·height` bytes. -/
theorem map_index_inside (map : List Nat) (width height : Int)
    (hlen : width * height ≤ map.length) (x1 y1 : Int)
    (hb : ¬ (x1 < 0 ∨ x1 ≥ width ∨ y1 < 0 ∨ y1 ≥ height)) :
    0 ≤ (height - 1 - y1) * width + x1 ∧
    (height - 1 - y1) * width + x1 < width * height ∧
    ((height - 1 - y1) * width + x1).toNat < map.length := by
  simp only [not_or, not_lt, ge_iff_le, not_le] at hb
  obtain ⟨h1, h2, h3, h4⟩ := hb
  have hw : 0 < width := by omega
  have h5 : 0 ≤ (height - 1 - y1) * width := mul_nonneg (by omega) hw.le
  have h6 : (height - 1 - y1) * width ≤ (height - 1) * width :=
    mul_le_mul_of_nonneg_right (by omega) hw.le
  have h7 : (height - 1) * width = width * height - width := by ring
  refine ⟨by omega, by omega, ?_⟩
  have : (((height - 1 - y1) * width + x1).toNat : Int) < (map.length : Int) := by
    rw [Int.toNat_of_nonneg (by omega)]
    omega
  exact_mod_cast this

/-- With a level array of at least `width·height` bytes the loop never reads
outside it. -/
theorem r_raycast_loop_no_oob (map : List Nat) (width height : Int)
    (hlen : width * height ≤ map.length)
    (fStartX fStartY dx dy : Flt K) (stepX stepY : Int) (tDeltaX tDeltaY : Flt K)
    (fuel : Nat) :
    ∀ (tMaxX tMaxY : Flt K) (x y : Int) (dist : Flt K),
      r_raycast_loop map width height fStartX fStartY dx dy stepX stepY tDeltaX tDeltaY
        fuel tMaxX tMaxY x y dist ≠ .error .outOfBounds := by
  induction fuel with
  | zero =>
    intro tMaxX tMaxY x y dist
    unfold r_raycast_loop
    split <;> simp
  | succ n ih =>
    intro tMaxX tMaxY x y dist
    unfold r_raycast_loop
    by_cases hd : Flt.le dist (.fin 1) = true
    · rcases c : Flt.lt tMaxX tMaxY with _ | _
      · simp only [hd, c, if_true, Bool.false_eq_true, if_false]
        by_cases hb : x < 0 ∨ x ≥ width ∨ y + stepY < 0 ∨ y + stepY ≥ height
        · rw [if_pos hb]; exact ih _ _ _ _ _
        · rw [if_neg hb]
          have hr := (map_index_inside map width height hlen _ _ hb).2.2
          rcases hm : map[((height - 1 - (y + stepY)) * width + x).toNat]? with _ | b
          · rw [List.getElem?_eq_none_iff] at hm
            omega
          · simp only []
            split
            · split <;> simp
            · exact ih _ _ _ _ _
      · simp only [hd, c, if_true]
        by_cases hb : x + stepX < 0 ∨ x + stepX ≥ width ∨ y < 0 ∨ y ≥ height
        · rw [if_pos hb]; exact ih _ _ _ _ _
        · rw [if_neg hb]
          have hr := (map_index_inside map width height hlen _ _ hb).2.2
          rcases hm : map[((height - 1 - y) * width + (x + stepX)).toNat]? with _ | b
          · rw [List.getElem?_eq_none_iff] at hm
            omega
          · simp only []
            split
            · split <;> simp
            · exact ih _ _ _ _ _
    · simp [hd]

theorem r_raycast_no_oob (fuel : Nat) (map : List Nat) (width height : Int)
    (hlen : width * height ≤ map.length) (sx sy ex ey : Flt K) :
    r_raycast fuel map width height sx sy ex ey ≠ .error .outOfBounds := by
  rw [r_raycast_eq]
  split
  · exact r_raycast_loop_no_oob map width height hlen _ _ _ _ _ _ _ _ _ _ _ _ _ _
  · simp
/-- A step into a cell outside the grid reads nothing and does not end the
traversal: the loop goes on from the advanced state, whatever the level array
holds. -/
theorem r_raycast_loop_skip (map : List Nat) (width height : Int)
    (fStartX fStartY dx dy : Flt K) (stepX stepY : Int) (tDeltaX tDeltaY : Flt K)
    (n : Nat) (tMaxX tMaxY : Flt K) (x y : Int) (dist : Flt K)
    (hd : Flt.le dist (.fin 1) = true)
    (hout : (if Flt.lt tMaxX tMaxY then x + stepX else x) < 0 ∨
      (if Flt.lt tMaxX tMaxY then x + stepX else x) ≥ width ∨
      (if Flt.lt tMaxX tMaxY then y else y + stepY) < 0 ∨
      (if Flt.lt tMaxX tMaxY then y else y + stepY) ≥ height) :
    r_raycast_loop map width height fStartX fStartY dx dy stepX stepY tDeltaX tDeltaY
        (n + 1) tMaxX tMaxY x y dist
      = r_raycast_loop map width height fStartX fStartY dx dy stepX stepY tDeltaX tDeltaY
          n (if Flt.lt tMaxX tMaxY then tMaxX + tDeltaX else tMaxX)
          (if Flt.lt tMaxX tMaxY then tMaxY else tMaxY + tDeltaY)
          (if Flt.lt tMaxX tMaxY then x + stepX else x)
          (if Flt.lt tMaxX tMaxY then y else y + stepY) (r_min tMaxX tMaxY) := by
  conv_lhs => unfold r_raycast_loop
  simp only [hd, if_true]
  rw [if_pos hout]

/-- When the loop condition `dist <= 1` fails the loop ends at once, whatever
the fuel. -/
theorem r_raycast_loop_exit (map : List Nat) (width height : Int)
    (fStartX fStartY dx dy : Flt K) (stepX stepY : Int) (tDeltaX tDeltaY : Flt K)
    (fuel : Nat) (tMaxX tMaxY : Flt K) (x y : Int) (dist : Flt K)
    (hd : Flt.le dist (.fin 1) = false) :
    r_raycast_loop map width height fStartX fStartY dx dy stepX stepY tDeltaX tDeltaY
      fuel tMaxX tMaxY x y dist = .ok (.miss (.fin 1)) := by
  unfold r_raycast_loop
  simp [hd]

/-- One more step of size `δ` fits below 1 exactly when `a <= 1`. -/
theorem stepsLeft_succ (a δ : K) (hδ : 0 < δ) (ha : a ≤ 1) :
    (⌊(1 - (a + δ)) / δ⌋ + 1).toNat + 1 = (⌊(1 - a) / δ⌋ + 1).toNat := by
  have h1 : (1 - (a + δ)) / δ = (1 - a) / δ - 1 := by
    field_simp
    ring
  have h2 : 0 ≤ ⌊(1 - a) / δ⌋ := Int.floor_nonneg.mpr (div_nonneg (by linarith) hδ.le)
  rw [h1, Int.floor_sub_one]
  omega

/-- Termination of the DDA loop for finite positive `tMax` and `tDelta`. -/
theorem r_raycast_loop_terminates (map : List Nat) (width height : Int)
    (fStartX fStartY dx dy : Flt K) (stepX stepY : Int) (δx δy : K)
    (hx : 0 < δx) (hy : 0 < δy) (fuel : Nat) :
    ∀ (a b : K) (x y : Int) (dist : Flt K),
      (⌊(1 - a) / δx⌋ + 1).toNat + (⌊(1 - b) / δy⌋ + 1).toNat + 2 ≤ fuel →
      r_raycast_loop map width height fStartX fStartY dx dy stepX stepY (.fin δx) (.fin δy)
        fuel (.fin a) (.fin b) x y dist ≠ .error .fuel := by
  induction fuel with
  | zero => intro a b x y dist h; omega
  | succ n ih =>
    intro a b x y dist hfuel
    have hrec : ∀ (x1 y1 : Int),
        (Flt.lt (Flt.fin a) (Flt.fin b) = true →
          r_raycast_loop map width height fStartX fStartY dx dy stepX stepY (.fin δx) (.fin δy)
            n (.fin a + .fin δx) (.fin b) x1 y1 (r_min (.fin a) (.fin b)) ≠ .error .fuel) ∧
        (Flt.lt (Flt.fin a) (Flt.fin b) = false →
          r_raycast_loop map width height fStartX fStartY dx dy stepX stepY (.fin δx) (.fin δy)
            n (.fin a) (.fin b + .fin δy) x1 y1 (r_min (.fin a) (.fin b)) ≠ .error .fuel) := by
      intro x1 y1
      constructor
      · intro c
        have hm : r_min (Flt.fin a) (Flt.fin b) = .fin a := by simp [r_min, c]
        rw [hm, Flt.fin_add_fin]
        by_cases h1 : a ≤ 1
        · apply ih
          have := stepsLeft_succ a δx hx h1
          omega
        · rw [r_raycast_loop_exit _ _ _ _ _ _ _ _ _ _ _ _ _ _ _ _ _ (by simp [Flt.le, h1])]
          simp
      · intro c
        have hm : r_min (Flt.fin a) (Flt.fin b) = .fin b := by simp [r_min, c]
        rw [hm, Flt.fin_add_fin]
        by_cases h1 : b ≤ 1
        · apply ih
          have := stepsLeft_succ b δy hy h1
          omega
        · rw [r_raycast_loop_exit _ _ _ _ _ _ _ _ _ _ _ _ _ _ _ _ _ (by simp [Flt.le, h1])]
          simp
    unfold r_raycast_loop
    by_cases hd : Flt.le dist (.fin 1) = true
    · rcases c : Flt.lt (Flt.fin a) (Flt.fin b) with _ | _
      · simp only [hd, c, if_true, Bool.false_eq_true, if_false]
        split
        · exact (hrec _ _).2 c
        · split
          · simp
          · split
            · split <;> simp
            · exact (hrec _ _).2 c
      · simp only [hd, c, if_true]
        split
        · exact (hrec _ _).1 c
        · split
          · simp
          · split
            · split <;> simp
            · exact (hrec _ _).1 c
    · simp [hd]
/-- The number of steps of size `1/|d|` that fit below 1 from a positive first
crossing is at most `⌈|d|⌉ + 1`. -/
theorem stepsLeft_le (q d : K) (hq : 0 < q) :
    (⌊(1 - q) / (1 / |d|)⌋ + 1).toNat ≤ ⌈|d|⌉.toNat + 1 := by
  have h0 : (0 : K) ≤ |d| := abs_nonneg d
  have h1 : (1 - q) / (1 / |d|) ≤ |d| := by
    rw [div_div_eq_mul_div, div_one]
    nlinarith
  have h2 : ⌊(1 - q) / (1 / |d|)⌋ ≤ ⌈|d|⌉ :=
    (Int.floor_le_floor h1).trans (Int.floor_le_ceil _)
  have h3 : 0 ≤ ⌈|d|⌉ := Int.ceil_nonneg h0
  omega

/-- Termination of `r_raycast` for finite end points and both deltas nonzero. -/
theorem r_raycast_terminates (fuel : Nat) (map : List Nat) (width height : Int)
    (sx sy ex ey : K) (hdx : ex - sx ≠ 0) (hdy : ey - sy ≠ 0)
    (hfuel : ⌈|ex - sx|⌉.toNat + ⌈|ey - sy|⌉.toNat + 4 ≤ fuel) :
    r_raycast fuel map width height (.fin sx) (.fin sy) (.fin ex) (.fin ey) ≠ .error .fuel := by
  rw [r_raycast_long_eq]
  obtain ⟨qx, hqx, hqx0, -⟩ := firstT_of_ne sx hdx
  obtain ⟨qy, hqy, hqy0, -⟩ := firstT_of_ne sy hdy
  rw [hqx, hqy, (tDelta_of_ne hdx).1, (tDelta_of_ne hdy).1]
  apply r_raycast_loop_terminates _ _ _ _ _ _ _ _ _ _ _ (tDelta_of_ne hdx).2 (tDelta_of_ne hdy).2
  have h1 := stepsLeft_le qx (ex - sx) hqx0
  have h2 := stepsLeft_le qy (ey - sy) hqy0
  omega

omit [FloorRing K] in
/-- The loop bound and increment of `r_render`: `FOV / 2 = 30`, and adding
`FOV / WIDTH` to `-30 + c/4` gives `-30 + (c+1)/4`. -/
theorem render_angle_facts (c : Nat) :
    (FOV / Flt.fin 2 : Flt K) = .fin 30 ∧
    (Flt.fin (-30 + (c : K) / 4) + FOV / Flt.ofInt (WIDTH : Nat) : Flt K)
        = .fin (-30 + ((c + 1 : Nat) : K) / 4) ∧
    (-FOV / Flt.fin 2 : Flt K) = .fin (-30 + ((0 : Nat) : K) / 4) := by
  refine ⟨?_, ?_, ?_⟩
  · simp [FOV]; norm_num
  · simp [FOV, Flt.ofInt, WIDTH]
    ring
  · simp [FOV]; norm_num

/-- The column loop entered at angle `-30 + 0.25·c` with column `c` runs the
body for the columns `c, …, 239` and stops. -/
theorem r_render_loop_columns (lm : Libm K) (rayFuel : Nat) (game : gamestate_t K)
    (textures : Nat → texture_t) (n : Nat) :
    ∀ (c fuel : Nat) (st : (Nat → Flt K) × Framebuffer), c + n = 240 →
      r_render_loop lm rayFuel game textures (fuel + n) (.fin (-30 + (c : K) / 4)) c st
        = forEachColumn (r_render_column lm rayFuel game textures) (renderColumns c n) st := by
  induction n with
  | zero =>
    intro c fuel st hc
    have h : c = 240 := by omega
    subst h
    unfold r_render_loop
    have h1 : ¬ ((-30 + ((240 : Nat) : K) / 4) < 30) := by norm_num
    rw [(render_angle_facts 0).1, Flt.lt_fin_fin, decide_eq_false h1]
    simp [renderColumns, forEachColumn]
  | succ n ih =>
    intro c fuel st hc
    have hlt : (-30 + (c : K) / 4) < 30 := by
      have : (c : K) < 240 := by exact_mod_cast (by omega : c < 240)
      linarith
    rw [← Nat.add_assoc]
    unfold r_render_loop
    rw [(render_angle_facts 0).1, Flt.lt_fin_fin, decide_eq_true hlt]
    simp only [if_true, renderColumns, List.range', List.map_cons, forEachColumn]
    rcases hb : r_render_column lm rayFuel game textures (.fin (-30 + (c : K) / 4)) c st
      with err | st1
    · rfl
    · simp only []
      have := ih (c + 1) fuel st1 (by omega)
      simp only [renderColumns] at this
      rw [← this, (render_angle_facts c).2.1]
      rfl
/-- A read at an offset inside `[0, rowlength·height)` succeeds when the pixel
array has at least `rowlength·height` bytes. -/
theorem texture_read_ok (t : texture_t) (i : Int) (h0 : 0 ≤ i)
    (h1 : i < t.rowlength * t.height) (hlen : t.rowlength * t.height ≤ t.pixels.length) :
    ∃ v, t.read i = .ok v := by
  unfold texture_t.read
  rw [if_neg (not_lt.mpr h0)]
  have h2 : i.toNat < t.pixels.length := by
    have : ((i.toNat : Nat) : Int) < (t.pixels.length : Int) := by
      rw [Int.toNat_of_nonneg h0]; omega
    exact_mod_cast this
  rw [List.getElem?_eq_getElem h2]
  exact ⟨_, rfl⟩

theorem storeByte_nonneg (fb : Framebuffer) (i : Int) (v : Nat) (h0 : 0 ≤ i) :
    ∃ fb1, storeByte fb i v = .ok fb1 := by
  unfold storeByte
  rw [if_neg (not_lt.mpr h0)]
  exact ⟨_, rfl⟩

/-- Under the loop invariant of `r_drawcolumn` no assertion and no cast of the
loop fails; the only possible fault is a read outside a pixel array that is
shorter than `rowlength·height`. -/
theorem r_drawcolumn_loop_safe (t : texture_t) (x tx : Int) (σ : K) (transparency : Bool)
    (hx : 0 ≤ x ∧ x < WIDTH) (htx0 : 0 ≤ tx)
    (htx : tx * t.bytesperpixel + 2 < t.rowlength) (hbpp : 0 ≤ t.bytesperpixel)
    (hσ : 0 ≤ σ) (count : Nat) :
    ∀ (c : Int) (τ : K) (fb : Framebuffer), 0 ≤ c → c + count ≤ HEIGHT → 0 ≤ τ →
      τ + count * σ ≤ (t.height - 1 : Int) + σ →
      ∀ e, r_drawcolumn_loop t x t.rowlength tx t.bytesperpixel (.fin σ) transparency
          count c (.fin τ) fb = .error e →
        e = .outOfBounds ∧ ¬ (t.rowlength * t.height ≤ t.pixels.length) := by
  induction count with
  | zero =>
    intro c τ fb _ _ _ _ e h
    simp [r_drawcolumn_loop] at h
  | succ n ih =>
    intro c τ fb hc0 hc hτ0 hτ e h
    have hτ1 : τ ≤ ((t.height - 1 : Int) : K) := by
      have : 0 ≤ (n : K) * σ := mul_nonneg (Nat.cast_nonneg n) hσ
      push_cast at hτ ⊢
      linarith
    have hi0 : 0 ≤ ⌊τ⌋ := Int.floor_nonneg.mpr hτ0
    have hi1 : ⌊τ⌋ ≤ t.height - 1 := by
      have : ((⌊τ⌋ : Int) : K) ≤ ((t.height - 1 : Int) : K) := (Int.floor_le τ).trans hτ1
      exact_mod_cast this
    have hrl : 0 ≤ t.rowlength := by
      have := mul_nonneg htx0 hbpp
      omega
    have hm0 : 0 ≤ ⌊τ⌋ * t.rowlength := mul_nonneg hi0 hrl
    have hm1 : ⌊τ⌋ * t.rowlength ≤ (t.height - 1) * t.rowlength :=
      mul_le_mul_of_nonneg_right hi1 hrl
    have hm2 : (t.height - 1) * t.rowlength = t.rowlength * t.height - t.rowlength := by ring
    have hm3 : 0 ≤ tx * t.bytesperpixel := mul_nonneg htx0 hbpp
    have hnext : τ + σ + n * σ ≤ (t.height - 1 : Int) + σ := by
      push_cast at hτ ⊢
      linarith
    have hfbi : c * WIDTH * BPP + x * BPP + 2 < WIDTH * HEIGHT * BPP := by
      simp only [WIDTH, HEIGHT, BPP] at hc hx ⊢
      push_cast at hc hx ⊢
      omega
    have hfb0 : 0 ≤ c * WIDTH * BPP + x * BPP := by
      simp only [WIDTH, BPP]
      push_cast
      omega
    unfold r_drawcolumn_loop at h
    simp only [Flt.toInt, if_pos hτ0] at h
    rw [if_neg (not_not.mpr (by omega)), if_neg (not_not.mpr (by omega)),
      if_neg (not_not.mpr hfbi)] at h
    have hbad : ∀ (i : Int) (er : Fault), 0 ≤ i → i < t.rowlength * t.height →
        t.read i = .error er → ¬ (t.rowlength * t.height ≤ t.pixels.length) := by
      intro i er h0 h1 hr hlen
      obtain ⟨v, hv⟩ := texture_read_ok t i h0 h1 hlen
      rw [hv] at hr
      cases hr
    rcases hR : t.read (⌊τ⌋ * t.rowlength + tx * t.bytesperpixel + 0) with eR | R
    · rw [hR] at h
      simp only [Except.error.injEq] at h
      exact ⟨h.symm, hbad _ _ (by omega) (by omega) hR⟩
    · rcases hG : t.read (⌊τ⌋ * t.rowlength + tx * t.bytesperpixel + 1) with eG | G
      · rw [hR, hG] at h
        simp only [Except.error.injEq] at h
        exact ⟨h.symm, hbad _ _ (by omega) (by omega) hG⟩
      · rcases hB : t.read (⌊τ⌋ * t.rowlength + tx * t.bytesperpixel + 2) with eB | B
        · rw [hR, hG, hB] at h
          simp only [Except.error.injEq] at h
          exact ⟨h.symm, hbad _ _ (by omega) (by omega) hB⟩
        · rw [hR, hG, hB] at h
          simp only [Flt.fin_add_fin] at h
          split at h
          · exact ih (c + 1) (τ + σ) fb (by omega) (by push_cast at hc ⊢; omega)
              (add_nonneg hτ0 hσ) hnext e h
          · obtain ⟨fb1, h1⟩ := storeByte_nonneg fb (c * WIDTH * BPP + x * BPP + 0) R (by omega)
            obtain ⟨fb2, h2⟩ := storeByte_nonneg fb1 (c * WIDTH * BPP + x * BPP + 1) G (by omega)
            obtain ⟨fb3, h3⟩ := storeByte_nonneg fb2 (c * WIDTH * BPP + x * BPP + 2) B (by omega)
            rw [h1] at h
            simp only [] at h
            rw [h2] at h
            simp only [] at h
            rw [h3] at h
            simp only [] at h
            exact ih (c + 1) (τ + σ) fb3 (by omega) (by push_cast at hc ⊢; omega)
              (add_nonneg hτ0 hσ) hnext e h
/-- Under the contract of `r_drawcolumn` no assertion and no cast of the
function fails; the only possible fault is a read outside a pixel array that
is shorter than `rowlength·height`. -/
theorem r_drawcolumn_safe (fb : Framebuffer) (t : texture_t) (x y_high y_low : Int) (u : K)
    (transparency : Bool) (hy : y_low > y_high) (hx : 0 ≤ x ∧ x < WIDTH)
    (hu : 0 ≤ u ∧ u ≤ 1) (hw : 1 ≤ t.width) (hh : 1 ≤ t.height) (hbpp : 3 ≤ t.bytesperpixel)
    (hrl : t.width * t.bytesperpixel ≤ t.rowlength) :
    ∀ e, r_drawcolumn fb t x y_high y_low (.fin u) transparency = .error e →
      e = .outOfBounds ∧ ¬ (t.rowlength * t.height ≤ t.pixels.length) := by
  intro e h
  unfold r_drawcolumn at h
  rw [if_neg (not_not.mpr hy), if_neg (not_not.mpr (by exact ⟨hx.1, hx.2⟩))] at h
  have hu' : (Flt.ge (Flt.fin u) (.fin 0) && Flt.le (Flt.fin u) (.fin 1)) = true := by
    simp [Flt.ge, hu.1, hu.2]
  rw [if_neg (not_not.mpr hu')] at h
  simp only [] at h
  by_cases hearly : y_low - y_high < 1 ∨ y_low < 0
  · rw [if_pos hearly] at h
    cases h
  rw [if_neg hearly] at h
  have hyl0 : 0 ≤ y_low := by omega
  have hylen : (0 : K) < ((y_low - y_high : Int) : K) := by
    exact_mod_cast (by omega : 0 < y_low - y_high)
  have hw1 : (0 : K) ≤ ((t.width - 1 : Int) : K) := by exact_mod_cast (by omega : 0 ≤ t.width - 1)
  have hh1 : (0 : K) ≤ ((t.height - 1 : Int) : K) := by
    exact_mod_cast (by omega : 0 ≤ t.height - 1)
  have hp0 : 0 ≤ u * ((t.width - 1 : Int) : K) := mul_nonneg hu.1 hw1
  have hp1 : u * ((t.width - 1 : Int) : K) ≤ ((t.width - 1 : Int) : K) :=
    mul_le_of_le_one_left hw1 hu.2
  have htx0 : 0 ≤ ⌊u * ((t.width - 1 : Int) : K)⌋ := Int.floor_nonneg.mpr hp0
  have htx1 : ⌊u * ((t.width - 1 : Int) : K)⌋ ≤ t.width - 1 := by
    have : ((⌊u * ((t.width - 1 : Int) : K)⌋ : Int) : K) ≤ ((t.width - 1 : Int) : K) :=
      (Int.floor_le _).trans hp1
    exact_mod_cast this
  have htx : ⌊u * ((t.width - 1 : Int) : K)⌋ * t.bytesperpixel + 2 < t.rowlength := by
    have h1 : ⌊u * ((t.width - 1 : Int) : K)⌋ * t.bytesperpixel
        ≤ (t.width - 1) * t.bytesperpixel := mul_le_mul_of_nonneg_right htx1 (by omega)
    have h2 : (t.width - 1) * t.bytesperpixel = t.width * t.bytesperpixel - t.bytesperpixel := by
      ring
    omega
  have hσ : (0 : K) ≤ ((t.height - 1 : Int) : K) / ((y_low - y_high : Int) : K) :=
    div_nonneg hh1 hylen.le
  have hσm : ((y_low - y_high : Int) : K) * (((t.height - 1 : Int) : K) / ((y_low - y_high : Int) : K))
      = ((t.height - 1 : Int) : K) := by
    rw [← mul_div_assoc, mul_div_cancel_left₀ _ hylen.ne']
  simp only [Flt.ofInt, Flt.fin_mul_fin, Flt.toInt, if_pos hp0,
    Flt.fin_div_fin_of_ne _ _ hylen.ne', Flt.neg_fin] at h
  by_cases hc : y_high < 0
  · simp only [hc, decide_True, if_true, Bool.true_and] at h
    have hτ0 : (0 : K) ≤ -((y_high : Int) : K) / ((y_low - y_high : Int) : K)
        * ((t.height - 1 : Int) : K) := by
      have : (0 : K) ≤ -((y_high : Int) : K) := by
        have : ((y_high : Int) : K) < 0 := by exact_mod_cast hc
        linarith
      exact mul_nonneg (div_nonneg this hylen.le) hh1
    have hτeq : -((y_high : Int) : K) / ((y_low - y_high : Int) : K) * ((t.height - 1 : Int) : K)
        = -((y_high : Int) : K) * (((t.height - 1 : Int) : K) / ((y_low - y_high : Int) : K)) := by
      rw [div_mul_eq_mul_div, mul_div_assoc]
    have hτ1 : -((y_high : Int) : K) / ((y_low - y_high : Int) : K) * ((t.height - 1 : Int) : K)
        < ((t.height : Int) : K) := by
      rw [hτeq]
      have h1 : -((y_high : Int) : K) ≤ ((y_low - y_high : Int) : K) := by
        push_cast
        have : (0 : K) ≤ ((y_low : Int) : K) := by exact_mod_cast hyl0
        linarith
      have h2 := mul_le_mul_of_nonneg_right h1 hσ
      rw [hσm] at h2
      push_cast at h2 ⊢
      linarith
    have hassert : (!(Flt.ge (Flt.fin (-((y_high : Int) : K) / ((y_low - y_high : Int) : K)
        * ((t.height - 1 : Int) : K))) (.fin 0) && Flt.lt (Flt.fin (-((y_high : Int) : K)
        / ((y_low - y_high : Int) : K) * ((t.height - 1 : Int) : K))) (.fin ((t.height : Int) : K))))
        = false := by
      simp only [Flt.ge, Flt.le_fin_fin, Flt.lt_fin_fin, decide_eq_true hτ0, decide_eq_true hτ1]
      rfl
    rw [hassert] at h
    simp only [Bool.false_eq_true, if_false] at h
    refine r_drawcolumn_loop_safe t x _ _ transparency hx htx0 htx (by omega) hσ _ 0 _ fb
      (le_refl _) ?_ hτ0 ?_ e h
    · unfold r_min_int
      split <;> simp only [HEIGHT] at * <;> omega
    · rw [hτeq]
      have hcnt : (((r_min_int y_low HEIGHT - 0).toNat : Nat) : K) ≤ ((y_low : Int) : K) := by
        have : (((r_min_int y_low HEIGHT - 0).toNat : Nat) : Int) ≤ y_low := by
          unfold r_min_int
          split <;> omega
        exact_mod_cast this
      have h2 := mul_le_mul_of_nonneg_right hcnt hσ
      have h3 : (((y_low : Int) : K) - ((y_high : Int) : K))
          * (((t.height - 1 : Int) : K) / ((y_low - y_high : Int) : K))
          = ((t.height - 1 : Int) : K) := by
        rw [← Int.cast_sub]; exact hσm
      rw [sub_mul] at h3
      linarith
  · simp only [hc, decide_False, if_false, Bool.false_and, Bool.false_eq_true] at h
    by_cases hcnt0 : (r_min_int y_low HEIGHT - y_high).toNat = 0
    · rw [hcnt0] at h
      simp [r_drawcolumn_loop] at h
    refine r_drawcolumn_loop_safe t x _ _ transparency hx htx0 htx (by omega) hσ _ y_high 0 fb
      (by omega) ?_ (le_refl _) ?_ e h
    · unfold r_min_int at hcnt0 ⊢
      split at hcnt0 <;> simp only [HEIGHT] at * <;> omega
    · have hcnt : (((r_min_int y_low HEIGHT - y_high).toNat : Nat) : K)
          ≤ ((y_low - y_high : Int) : K) := by
        have : (((r_min_int y_low HEIGHT - y_high).toNat : Nat) : Int) ≤ y_low - y_high := by
          unfold r_min_int
          split <;> omega
        exact_mod_cast this
      have h2 := mul_le_mul_of_nonneg_right hcnt hσ
      rw [hσm] at h2
      linarith
end SafetyLemmas

/-! ## Claims on grid reads, termination, the column loop and the column drawer -/

section Claims8

variable {K : Type} [LinearOrderedField K] [FloorRing K]

/-- C21: for every grid of dimensions `W > 0`, `H > 0` whose array holds `W·H`
bytes and every ray, the index `(H - 1 - y)·W + x` that `r_raycast` reads lies in
`[0, W·H)` whenever the cell passes the bounds test `0 <= x < W`, `0 <= y < H`
that precedes every read, so no read of `r_raycast` leaves the array.  A step
into a cell outside the grid reads nothing and does not end the traversal: the
loop continues from the advanced state.  So a ray that crosses cells outside
the grid still reports a later wall: in the 4x4 room the ray from `(e=5.5,
n=1.5)` to `(e=1.5, n=1.5)` starts outside, steps through the outside cell
`(4, 1)` and reports the wall cell `(3, 1)` at `e = 4`. -/
theorem c21_grid_reads_inside (fuel : Nat) (map : List Nat) (W H : Int) (hW : 0 < W)
    (hH : 0 < H) (hlen : map.length = (W * H).toNat) (sx sy ex ey : Flt K) :
    (∀ x y : Int, ¬ (x < 0 ∨ x ≥ W ∨ y < 0 ∨ y ≥ H) →
      0 ≤ (H - 1 - y) * W + x ∧ (H - 1 - y) * W + x < W * H ∧
      ∃ b, map[((H - 1 - y) * W + x).toNat]? = some b) ∧
    r_raycast fuel map W H sx sy ex ey ≠ .error .outOfBounds ∧
    (∀ (fStartX fStartY dx dy : Flt K) (stepX stepY : Int) (tDeltaX tDeltaY : Flt K)
      (n : Nat) (tMaxX tMaxY : Flt K) (x y : Int) (dist : Flt K),
      Flt.le dist (.fin 1) = true →
      ((if Flt.lt tMaxX tMaxY then x + stepX else x) < 0 ∨
        (if Flt.lt tMaxX tMaxY then x + stepX else x) ≥ W ∨
        (if Flt.lt tMaxX tMaxY then y else y + stepY) < 0 ∨
        (if Flt.lt tMaxX tMaxY then y else y + stepY) ≥ H) →
      r_raycast_loop map W H fStartX fStartY dx dy stepX stepY tDeltaX tDeltaY
          (n + 1) tMaxX tMaxY x y dist
        = r_raycast_loop map W H fStartX fStartY dx dy stepX stepY tDeltaX tDeltaY
            n (if Flt.lt tMaxX tMaxY then tMaxX + tDeltaX else tMaxX)
            (if Flt.lt tMaxX tMaxY then tMaxY else tMaxY + tDeltaY)
            (if Flt.lt tMaxX tMaxY then x + stepX else x)
            (if Flt.lt tMaxX tMaxY then y else y + stepY) (r_min tMaxX tMaxY)) ∧
    r_raycast (K := K) (fuel + 2) room 4 4 (.fin (11 / 2)) (.fin (3 / 2)) (.fin (3 / 2))
        (.fin (3 / 2))
      = .ok (.hit 1 (.fin 4) (.fin (3 / 2)) 3 1 1 0 (.fin (3 / 8))) := by
  have hWH : 0 ≤ W * H := (mul_pos hW hH).le
  have hlen' : W * H ≤ map.length := by
    rw [hlen, Int.toNat_of_nonneg hWH]
  refine ⟨?_, r_raycast_no_oob fuel map W H hlen' sx sy ex ey, ?_, ?_⟩
  · intro x y hb
    obtain ⟨h0, h1, h2⟩ := map_index_inside map W H hlen' x y hb
    exact ⟨h0, h1, _, List.getElem?_eq_getElem h2⟩
  · intro fStartX fStartY dx dy stepX stepY tDeltaX tDeltaY n tMaxX tMaxY x y dist hd hout
    exact r_raycast_loop_skip map W H fStartX fStartY dx dy stepX stepY tDeltaX tDeltaY n
      tMaxX tMaxY x y dist hd hout
  · have h1 : ⌈(3 / 2 : K)⌉ = 2 := by rw [Int.ceil_eq_iff]; norm_num
    have h2 : ⌊(3 / 2 : K)⌋ = 1 := by rw [Int.floor_eq_iff]; norm_num
    have h3 : ⌊(11 / 2 : K)⌋ = 5 := by rw [Int.floor_eq_iff]; norm_num
    have h4 : ⌈(11 / 2 : K)⌉ = 6 := by rw [Int.ceil_eq_iff]; norm_num
    simp [r_raycast, r_raycast_loop, r_signum, r_min, Flt.ofInt, Flt.ge, Flt.ne, Flt.ceilf,
      Flt.floorf, Flt.toInt, room, h1, h2, h3, h4]
    norm_num [Flt.infTimes]

/-- C23: the column loop of `r_render`, started at `angle = -FOV/2` and
`column = 0`, runs its body exactly `WIDTH = 240` times, for the pairs
`(angle, column) = (-30 + 0.25·c, c)`, `c = 0 .. 239`, in this order (unless an
iteration faults), and then stops; every column index of these iterations
satisfies `0 <= column < WIDTH`, so the store `zbuffer[column]` stays inside the
array. -/
theorem c23_render_column_loop (lm : Libm K) (fuel rayFuel : Nat) (game : gamestate_t K)
    (textures : Nat → texture_t) (fb : Framebuffer) (st : (Nat → Flt K) × Framebuffer) :
    r_render_loop lm rayFuel game textures (fuel + WIDTH) (-FOV / .fin 2) 0 st
      = forEachColumn (r_render_column lm rayFuel game textures) (renderColumns 0 WIDTH) st ∧
    r_render lm (fuel + WIDTH) rayFuel fb game textures
      = (match forEachColumn (r_render_column lm rayFuel game textures) (renderColumns 0 WIDTH)
          ((fun _ => Flt.nan), r_drawBackground fb) with
        | .error err => .error err
        | .ok st1 => .ok st1.2) ∧
    (renderColumns (K := K) 0 WIDTH).length = 240 ∧
    (∀ c : Nat, c < 240 →
      (renderColumns (K := K) 0 WIDTH)[c]? = some (.fin (-30 + (c : K) / 4), (c : Int))) ∧
    (∀ p ∈ renderColumns (K := K) 0 WIDTH, 0 ≤ p.2 ∧ p.2 < WIDTH ∧
      ∀ (zbuffer : Nat → Flt K) (v : Flt K), ∃ z1, storeZ zbuffer p.2 v = .ok z1) := by
  have hloop : ∀ st : (Nat → Flt K) × Framebuffer,
      r_render_loop lm rayFuel game textures (fuel + WIDTH) (-FOV / .fin 2) 0 st
        = forEachColumn (r_render_column lm rayFuel game textures) (renderColumns 0 WIDTH)
            st := by
    intro st
    rw [(render_angle_facts (K := K) 0).2.2]
    exact r_render_loop_columns lm rayFuel game textures 240 0 fuel st rfl
  refine ⟨hloop st, ?_, ?_, ?_, ?_⟩
  · unfold r_render
    rw [hloop]
  · simp [renderColumns, WIDTH]
  · intro c hc
    simp [renderColumns, WIDTH, List.getElem?_range', hc]
  · intro p hp
    simp only [renderColumns, List.mem_map, List.mem_range'_1] at hp
    obtain ⟨c, ⟨-, hc⟩, rfl⟩ := hp
    have h0 : (0 : Int) ≤ (c : Int) := Int.natCast_nonneg c
    have h1 : (c : Int) < (WIDTH : Nat) := by exact_mod_cast (by omega : c < WIDTH)
    refine ⟨h0, h1, fun zbuffer v => ?_⟩
    unfold storeZ
    rw [if_neg (by omega)]
    exact ⟨_, rfl⟩

/-- C24: for every call of `r_drawcolumn` with `y_low > y_high`, `0 <= x < WIDTH`,
`tex_column` in `[0, 1]` and a texture with `width >= 1`, `height >= 1`,
`bytesperpixel >= 3` and `rowlength >= width·bytesperpixel`, no assertion of the
function fails and no cast to `int` is undefined (in exact arithmetic), also when
the top is clipped; and when the pixel array holds `rowlength·height` bytes every
texel read and every framebuffer write is in range, and the call returns. -/
theorem c24_column_drawer_assertions_hold (fb : Framebuffer) (t : texture_t)
    (x y_high y_low : Int) (u : K) (transparency : Bool) (hy : y_low > y_high)
    (hx : 0 ≤ x ∧ x < WIDTH) (hu : 0 ≤ u ∧ u ≤ 1) (hw : 1 ≤ t.width) (hh : 1 ≤ t.height)
    (hbpp : 3 ≤ t.bytesperpixel) (hrl : t.width * t.bytesperpixel ≤ t.rowlength) :
    r_drawcolumn fb t x y_high y_low (.fin u) transparency ≠ .error .assertion ∧
    r_drawcolumn fb t x y_high y_low (.fin u) transparency ≠ .error .cast ∧
    (t.rowlength * t.height ≤ t.pixels.length →
      ∃ fb1, r_drawcolumn fb t x y_high y_low (.fin u) transparency = .ok fb1) := by
  have hsafe := r_drawcolumn_safe fb t x y_high y_low u transparency hy hx hu hw hh hbpp hrl
  refine ⟨fun h => ?_, fun h => ?_, fun hlen => ?_⟩
  · have := (hsafe _ h).1
    cases this
  · have := (hsafe _ h).1
    cases this
  · rcases hres : r_drawcolumn fb t x y_high y_low (.fin u) transparency with e | fb1
    · exact absurd hlen (hsafe e hres).2
    · exact ⟨fb1, rfl⟩

end Claims8

/-- C21, witness: the 4x4 room and the ray from `(e=1.5, n=1.5)` to
`(e=2.5, n=2.5)`. -/
theorem c21_grid_reads_inside_witness :
    (0 : Int) < 4 ∧ room.length = ((4 : Int) * 4).toNat ∧
    r_raycast (K := ℚ) 3 room 4 4 (.fin (3 / 2)) (.fin (3 / 2)) (.fin (5 / 2)) (.fin (5 / 2))
      ≠ .error .outOfBounds :=
  ⟨by decide, by decide,
    (c21_grid_reads_inside (K := ℚ) 3 room 4 4 (by decide) (by decide) (by decide)
      (.fin (3 / 2)) (.fin (3 / 2)) (.fin (5 / 2)) (.fin (5 / 2))).2.1⟩

/-- A tie in the DDA loop: in the 4x4 room the ray from `(e=1.5, n=1.5)` to
`(e=2.5, n=2.5)` enters the loop with `tMaxX = tMaxY = 1/2`.  The first
iteration steps `y`, finds the empty cell `(1, 2)` and goes on with
`tMaxX = 1/2`, `tMaxY = 3/2`: `min(tMaxX, tMaxY)` is `1/2` before and after, it
has not increased. -/
theorem room_tie_leaves_min_unchanged :
    r_raycast (K := ℚ) 3 room 4 4 (.fin (3 / 2)) (.fin (3 / 2)) (.fin (5 / 2)) (.fin (5 / 2))
      = r_raycast_loop room 4 4 (.fin (3 / 2)) (.fin (3 / 2)) (.fin 1) (.fin 1) 1 1 (.fin 1)
          (.fin 1) 3 (.fin (1 / 2)) (.fin (1 / 2)) 1 1 (.fin 0) ∧
    r_raycast_loop room 4 4 (.fin (3 / 2 : ℚ)) (.fin (3 / 2)) (.fin 1) (.fin 1) 1 1 (.fin 1)
        (.fin 1) 3 (.fin (1 / 2)) (.fin (1 / 2)) 1 1 (.fin 0)
      = r_raycast_loop room 4 4 (.fin (3 / 2)) (.fin (3 / 2)) (.fin 1) (.fin 1) 1 1 (.fin 1)
          (.fin 1) 2 (.fin (1 / 2)) (.fin (3 / 2)) 1 2 (.fin (1 / 2)) ∧
    r_min (.fin (1 / 2 : ℚ)) (.fin (1 / 2)) = .fin (1 / 2) ∧
    r_min (.fin (1 / 2 : ℚ)) (.fin (3 / 2)) = .fin (1 / 2) ∧
    Flt.lt (r_min (.fin (1 / 2 : ℚ)) (.fin (1 / 2))) (r_min (.fin (1 / 2)) (.fin (3 / 2)))
      = false := by
  have h1 : ⌈(3 / 2 : ℚ)⌉ = 2 := by rw [Int.ceil_eq_iff]; norm_num
  have h2 : ⌊(3 / 2 : ℚ)⌋ = 1 := by rw [Int.floor_eq_iff]; norm_num
  refine ⟨?_, ?_, ?_, ?_, ?_⟩
  · rw [r_raycast_long_eq]
    simp [firstT, r_signum, Flt.ofInt, Flt.ge, Flt.ne, Flt.ceilf, Flt.floorf, h1, h2]
    norm_num
  · conv_lhs => unfold r_raycast_loop
    simp [r_min, room]
    norm_num
  · simp [r_min]
  · simp [r_min]
    norm_num
  · simp [r_min]
    norm_num

/-- C24, witness: the one-texel red texture drawn at pixel `(0, 0)`. -/
theorem c24_column_drawer_assertions_hold_witness :
    r_drawcolumn (K := ℚ) opaqueBlack redTexel 0 0 1 (.fin 0) false ≠ .error .assertion ∧
    r_drawcolumn (K := ℚ) opaqueBlack redTexel 0 0 1 (.fin 0) false ≠ .error .cast ∧
    (redTexel.rowlength * redTexel.height ≤ redTexel.pixels.length →
      ∃ fb1, r_drawcolumn (K := ℚ) opaqueBlack redTexel 0 0 1 (.fin 0) false = .ok fb1) :=
  c24_column_drawer_assertions_hold (K := ℚ) opaqueBlack redTexel 0 0 1 0 false (by decide)
    (by decide) (by norm_num) (by decide) (by decide) (by decide) (by decide)

/-! ## Lemmas on binary32 rounding -/

section RoundingLemmas

variable {K : Type} [LinearOrderedField K] [FloorRing K]

omit [FloorRing K] in
theorem two_zpow_pos (n : Int) : (0 : K) < 2 ^ n := zpow_pos (by norm_num) n

/-- The binary exponent of a positive number is fixed by the two powers of two
around it. -/
theorem log_two_eq {x : K} {L : Int} (h1 : (2 : K) ^ L ≤ x) (h2 : x < (2 : K) ^ (L + 1)) :
    Int.log 2 x = L := by
  have hx : 0 < x := lt_of_lt_of_le (two_zpow_pos L) h1
  have a : L ≤ Int.log 2 x :=
    (Int.zpow_le_iff_le_log (by norm_num) hx).mp (by simpa using h1)
  have b : Int.log 2 x < L + 1 :=
    (Int.lt_zpow_iff_log_lt (by norm_num) hx).mp (by simpa using h2)
  omega

theorem log_two_bounds {x : K} (hx : 0 < x) :
    (2 : K) ^ Int.log 2 x ≤ x ∧ x < (2 : K) ^ (Int.log 2 x + 1) := by
  have a := Int.zpow_log_le_self (b := 2) (by norm_num) hx
  have b := Int.lt_zpow_succ_log_self (b := 2) (by norm_num) x
  simp only [Nat.cast_ofNat] at a b
  exact ⟨a, b⟩

theorem roundHalfEven_eq {y : K} {m : Int} (h1 : (m : K) - 1 / 2 < y)
    (h2 : y < (m : K) + 1 / 2) : roundHalfEven y = m := by
  unfold roundHalfEven
  by_cases hy : (m : K) ≤ y
  · have hf : ⌊y⌋ = m := by
      rw [Int.floor_eq_iff]
      exact ⟨hy, by linarith⟩
    rw [hf, if_pos (by linarith)]
  · have hf : ⌊y⌋ = m - 1 := by
      rw [Int.floor_eq_iff]
      push_cast
      exact ⟨by linarith, by linarith [not_le.mp hy]⟩
    rw [hf]
    push_cast
    rw [if_neg (by linarith), if_pos (by linarith)]
    omega

theorem roundHalfEven_intCast (n : Int) : roundHalfEven ((n : Int) : K) = n :=
  roundHalfEven_eq (by linarith) (by linarith)

/-- A tie goes to the even neighbour. -/
theorem roundHalfEven_tie_even (n : Int) (hn : n % 2 = 0) :
    roundHalfEven ((n : K) + 1 / 2) = n := by
  unfold roundHalfEven
  have hf : ⌊(n : K) + 1 / 2⌋ = n := by
    rw [Int.floor_eq_iff]
    exact ⟨by linarith, by linarith⟩
  rw [hf, if_neg (by simp), if_neg (by simp), if_pos hn]

theorem floor_le_roundHalfEven (y : K) : ⌊y⌋ ≤ roundHalfEven y := by
  unfold roundHalfEven
  split_ifs <;> omega

theorem roundHalfEven_sub_ge (y : K) : y - 1 / 2 ≤ (roundHalfEven y : K) := by
  unfold roundHalfEven
  have h1 := Int.floor_le y
  have h2 := Int.lt_floor_add_one y
  split_ifs with a b c
  · linarith
  · push_cast; linarith
  · linarith
  · push_cast; linarith

/-- Rounding to binary32 from below: in the normal range the result is at
least `2^L` and at least `x - 2^(L-24)`, half a unit in the last place. -/
theorem binary32_lower {x : K} {L : Int} (h1 : (2 : K) ^ L ≤ x) (h2 : x < (2 : K) ^ (L + 1))
    (hL : -126 ≤ L) :
    binary32 x = .pinf ∨ ∃ r, binary32 x = .fin r ∧ (2 : K) ^ L ≤ r ∧ x - 2 ^ (L - 24) ≤ r := by
  have hx : 0 < x := lt_of_lt_of_le (two_zpow_pos L) h1
  have he : (0 : K) < 2 ^ (L - 23) := two_zpow_pos _
  have hsplit : (2 : K) ^ L = 2 ^ (23 : Nat) * 2 ^ (L - 23) := by
    rw [← zpow_natCast, ← zpow_add₀ (by norm_num : (2 : K) ≠ 0)]
    congr 1
    omega
  have hhalf : (2 : K) ^ (L - 24) = 1 / 2 * 2 ^ (L - 23) := by
    have : L - 23 = (L - 24) + 1 := by omega
    rw [this, zpow_add₀ (by norm_num : (2 : K) ≠ 0), zpow_one]
    ring
  have hc : ((2 ^ 23 : Int) : K) = 2 ^ (23 : Nat) := by norm_num
  have hy : ((2 ^ 23 : Int) : K) ≤ x / 2 ^ (L - 23) := by
    rw [le_div_iff₀ he, hc, ← hsplit]
    exact h1
  have hfl : (2 ^ 23 : Int) ≤ roundHalfEven (x / 2 ^ (L - 23)) :=
    (Int.le_floor.mpr hy).trans (floor_le_roundHalfEven _)
  have hr1 : (2 : K) ^ L ≤ (roundHalfEven (x / 2 ^ (L - 23)) : K) * 2 ^ (L - 23) := by
    rw [hsplit]
    apply mul_le_mul_of_nonneg_right _ he.le
    rw [← hc]
    exact_mod_cast hfl
  have hr2 : x - 2 ^ (L - 24) ≤ (roundHalfEven (x / 2 ^ (L - 23)) : K) * 2 ^ (L - 23) := by
    have := mul_le_mul_of_nonneg_right (roundHalfEven_sub_ge (x / 2 ^ (L - 23))) he.le
    rw [sub_mul, div_mul_cancel₀ _ he.ne'] at this
    rw [hhalf]
    exact this
  unfold binary32
  rw [if_neg hx.ne', abs_of_pos hx, log_two_eq h1 h2, max_eq_left (by omega)]
  simp only []
  by_cases hbig : (2 : K) ^ (128 : Nat)
      ≤ |(roundHalfEven (x / 2 ^ (L - 23)) : K) * 2 ^ (L - 23)|
  · left
    rw [if_pos hbig, if_pos hx]
  · right
    rw [if_neg hbig]
    exact ⟨_, rfl, hr1, hr2⟩

/-- Rounding a positive number to binary32 gives a number that is not
negative, or `+inf`. -/
theorem binary32_nonneg {x : K} (hx : 0 < x) :
    binary32 x = .pinf ∨ ∃ r, binary32 x = .fin r ∧ 0 ≤ r := by
  unfold binary32
  rw [if_neg hx.ne']
  simp only []
  split_ifs with hbig
  · exact Or.inl rfl
  · right
    refine ⟨_, rfl, mul_nonneg ?_ (two_zpow_pos _).le⟩
    have h0 : (0 : Int) ≤ ⌊x / 2 ^ max (Int.log 2 |x| - 23) (-149)⌋ :=
      Int.floor_nonneg.mpr (div_nonneg hx.le (two_zpow_pos _).le)
    exact_mod_cast h0.trans (floor_le_roundHalfEven _)

/-- A number `n·2^j` with `n < 2^24` and `j >= -149` below `2^128` is a
binary32 value: rounding returns it. -/
theorem binary32_exact (n : Nat) (j : Int) (hn0 : 0 < n) (hn : n < 2 ^ 24) (hj : -149 ≤ j)
    (hmax : (n : K) * 2 ^ j < 2 ^ (128 : Nat)) :
    binary32 ((n : K) * 2 ^ j) = .fin ((n : K) * 2 ^ j) := by
  have hnK : (0 : K) < (n : K) := by exact_mod_cast hn0
  have hq : (0 : K) < (n : K) * 2 ^ j := mul_pos hnK (two_zpow_pos j)
  obtain ⟨hl1, hl2⟩ := log_two_bounds hq
  obtain ⟨L, hLdef⟩ : ∃ L, L = Int.log 2 ((n : K) * 2 ^ j) := ⟨_, rfl⟩
  rw [← hLdef] at hl1 hl2
  have hLj : L < j + 24 := by
    have h24 : (n : K) * 2 ^ j < 2 ^ (j + 24) := by
      rw [zpow_add₀ (by norm_num : (2 : K) ≠ 0), mul_comm ((2 : K) ^ j)]
      apply mul_lt_mul_of_pos_right _ (two_zpow_pos j)
      have hn1 : n < 16777216 := by simpa using hn
      have e24 : (2 : K) ^ (24 : Int) = 16777216 := by norm_num
      rw [e24]
      exact_mod_cast hn1
    exact (zpow_lt_zpow_iff_right₀ (by norm_num : (1 : K) < 2)).mp (lt_of_le_of_lt hl1 h24)
  obtain ⟨e, hedef⟩ : ∃ e, e = max (L - 23) (-149) := ⟨_, rfl⟩
  have hej : e ≤ j := by omega
  have hy : (n : K) * 2 ^ j / 2 ^ e = ((n * 2 ^ (j - e).toNat : Nat) : Int) := by
    rw [div_eq_iff (two_zpow_pos e).ne']
    push_cast
    rw [mul_assoc, ← zpow_natCast, ← zpow_add₀ (by norm_num : (2 : K) ≠ 0)]
    congr 2
    rw [Int.toNat_of_nonneg (by omega)]
    omega
  unfold binary32
  rw [if_neg hq.ne', abs_of_pos hq, ← hLdef, ← hedef]
  simp only []
  rw [hy, roundHalfEven_intCast, ← hy, div_mul_cancel₀ _ (two_zpow_pos e).ne', abs_of_pos hq,
    if_neg (not_le.mpr hmax)]

/-- The tie `1 + 2^-24` between the binary32 values `1` and `1 + 2^-23` is
rounded to `1`. -/
theorem binary32_one_add_half_ulp : binary32 ((1 : K) + 1 / 2 ^ (24 : Nat)) = .fin 1 := by
  have h1 : (2 : K) ^ (0 : Int) ≤ 1 + 1 / 2 ^ (24 : Nat) := by
    rw [zpow_zero]; norm_num
  have h2 : (1 : K) + 1 / 2 ^ (24 : Nat) < 2 ^ ((0 : Int) + 1) := by norm_num
  have hq : (0 : K) < 1 + 1 / 2 ^ (24 : Nat) := by positivity
  have hy : ((1 : K) + 1 / 2 ^ (24 : Nat)) / 2 ^ ((0 : Int) - 23)
      = ((2 ^ 23 : Int) : K) + 1 / 2 := by
    norm_num
  unfold binary32
  rw [if_neg hq.ne', abs_of_pos hq, log_two_eq h1 h2, max_eq_left (by omega)]
  simp only []
  rw [hy, roundHalfEven_tie_even _ (by decide)]
  norm_num

omit [FloorRing K] in
@[simp] theorem Flt.pinf_div_fin (b : K) :
    (Flt.pinf / Flt.fin b : Flt K) = if 0 ≤ b then .pinf else .ninf := rfl

omit [FloorRing K] in
@[simp] theorem Flt.ninf_div_fin (b : K) :
    (Flt.ninf / Flt.fin b : Flt K) = if 0 ≤ b then .ninf else .pinf := rfl

theorem r_raycast_loop_rnd_exit (rnd : Flt K → Flt K) (map : List Nat) (width height : Int)
    (fStartX fStartY dx dy : Flt K) (stepX stepY : Int) (tDeltaX tDeltaY : Flt K)
    (fuel : Nat) (tMaxX tMaxY : Flt K) (x y : Int) (dist : Flt K)
    (hd : Flt.le dist (.fin 1) = false) :
    r_raycast_loop_rnd rnd map width height fStartX fStartY dx dy stepX stepY tDeltaX tDeltaY
      fuel tMaxX tMaxY x y dist = .ok (.miss (.fin 1)) := by
  unfold r_raycast_loop_rnd
  simp [hd]

/-- Adding a step of at least `2^-24 + c` to a float that is at most 1 and
rounding to binary32 gives a float that is larger by `c` or more (`c <= 1`). -/
theorem binary32_add_progress {a d c : K} (ha0 : 0 ≤ a) (ha1 : a ≤ 1) (hc0 : 0 < c)
    (hc1 : c ≤ 1) (hd : 1 / 2 ^ (24 : Nat) + c ≤ d) :
    Flt.AtLeast (a + c) (binary32 (a + d)) := by
  have hx : (0 : K) < a + d := by
    have : (0 : K) < 1 / 2 ^ (24 : Nat) := by positivity
    linarith
  obtain ⟨h1, h2⟩ := log_two_bounds hx
  obtain ⟨L, hLdef⟩ : ∃ L, L = Int.log 2 (a + d) := ⟨_, rfl⟩
  rw [← hLdef] at h1 h2
  have hL : -24 ≤ L := by
    have h3 : (2 : K) ^ (-24 : Int) < 2 ^ (L + 1) := by
      refine lt_of_le_of_lt ?_ h2
      have : (2 : K) ^ (-24 : Int) = 1 / 2 ^ (24 : Nat) := by norm_num
      rw [this]
      linarith
    have := (zpow_lt_zpow_iff_right₀ (by norm_num : (1 : K) < 2)).mp h3
    omega
  rcases binary32_lower h1 h2 (by omega) with hinf | ⟨r, hr, hr1, hr2⟩
  · exact Or.inl hinf
  · refine Or.inr ⟨r, hr, ?_⟩
    by_cases hL0 : L ≤ 0
    · have h4 : (2 : K) ^ (L - 24) ≤ 2 ^ (-24 : Int) :=
        zpow_le_zpow_right₀ (by norm_num) (by omega)
      have : (2 : K) ^ (-24 : Int) = 1 / 2 ^ (24 : Nat) := by norm_num
      rw [this] at h4
      linarith
    · have h4 : (2 : K) ^ (1 : Int) ≤ 2 ^ L := zpow_le_zpow_right₀ (by norm_num) (by omega)
      rw [zpow_one] at h4
      linarith

/-- One rounded step `tMax + tDelta` keeps `tMax` nonnegative or `+inf`, and
when `tMax <= 1` it uses up one of the steps of size `1/N` below one. -/
theorem round32_add_step {A D : Flt K} (N : Nat) (hN : 0 < N) (hA : Flt.AtLeast 0 A)
    (hD : Flt.AtLeast (1 / 2 ^ (24 : Nat) + 1 / (N : K)) D) :
    Flt.AtLeast 0 (Flt.round32 (A + D)) ∧
    (Flt.le A (.fin 1) = true →
      stepsBelowOne N (Flt.round32 (A + D)) + 1 ≤ stepsBelowOne N A) := by
  have hNK : (0 : K) < (N : K) := by exact_mod_cast hN
  have hN1 : (1 : K) ≤ (N : K) := by exact_mod_cast hN
  have hc0 : (0 : K) < 1 / (N : K) := by positivity
  have hc1 : (1 : K) / (N : K) ≤ 1 := by
    rw [div_le_one hNK]; exact hN1
  rcases hA with rfl | ⟨a, rfl, ha0⟩
  · rcases hD with rfl | ⟨d, rfl, hd⟩
    · exact ⟨Or.inl rfl, by simp [Flt.le]⟩
    · exact ⟨Or.inl rfl, by simp [Flt.le]⟩
  · rcases hD with rfl | ⟨d, rfl, hd⟩
    · refine ⟨Or.inl rfl, fun hle => ?_⟩
      have ha1 : a ≤ 1 := by simpa [Flt.le] using hle
      have h0 : 0 ≤ ⌊(1 - a) * (N : K)⌋ :=
        Int.floor_nonneg.mpr (mul_nonneg (by linarith) hNK.le)
      show 0 + 1 ≤ (⌊(1 - a) * (N : K)⌋ + 1).toNat
      omega
    · rw [Flt.fin_add_fin]
      show Flt.AtLeast 0 (binary32 (a + d)) ∧ _
      have hx : (0 : K) < a + d := by
        have : (0 : K) < 1 / 2 ^ (24 : Nat) := by positivity
        linarith
      constructor
      · rcases binary32_nonneg hx with h | ⟨r, hr, hr0⟩
        · exact Or.inl h
        · exact Or.inr ⟨r, hr, hr0⟩
      · intro hle
        have ha1 : a ≤ 1 := by simpa [Flt.le] using hle
        have h0 : 0 ≤ ⌊(1 - a) * (N : K)⌋ :=
          Int.floor_nonneg.mpr (mul_nonneg (by linarith) hNK.le)
        show stepsBelowOne N (binary32 (a + d)) + 1 ≤ (⌊(1 - a) * (N : K)⌋ + 1).toNat
        rcases binary32_add_progress ha0 ha1 hc0 hc1 hd with h | ⟨r, hr, hr1⟩
        · rw [h]
          show 0 + 1 ≤ _
          omega
        · rw [hr]
          show (⌊(1 - r) * (N : K)⌋ + 1).toNat + 1 ≤ _
          have h5 : (1 - r) * (N : K) ≤ (1 - a) * (N : K) - 1 := by
            have h6 : (1 - r) * (N : K) ≤ (1 - (a + 1 / (N : K))) * (N : K) :=
              mul_le_mul_of_nonneg_right (by linarith) hNK.le
            have h7 : (1 - (a + 1 / (N : K))) * (N : K) = (1 - a) * (N : K) - 1 := by
              field_simp
              ring
            linarith
          have h8 : ⌊(1 - r) * (N : K)⌋ ≤ ⌊(1 - a) * (N : K)⌋ - 1 := by
            rw [← Int.floor_sub_one]
            exact Int.floor_le_floor h5
          omega

/-- Termination of the DDA loop in binary32: with steps `tDelta` of at least
`2^-24 + 1/N` the loop ends before the fuel does. -/
theorem r_raycast_loop_round32_terminates (N : Nat) (hN : 0 < N) (map : List Nat)
    (width height : Int)
    (fStartX fStartY dx dy : Flt K) (stepX stepY : Int) (tDeltaX tDeltaY : Flt K)
    (hx : Flt.AtLeast (1 / 2 ^ (24 : Nat) + 1 / (N : K)) tDeltaX)
    (hy : Flt.AtLeast (1 / 2 ^ (24 : Nat) + 1 / (N : K)) tDeltaY) (fuel : Nat) :
    ∀ (tMaxX tMaxY : Flt K) (x y : Int) (dist : Flt K),
      Flt.AtLeast 0 tMaxX → Flt.AtLeast 0 tMaxY →
      stepsBelowOne N tMaxX + stepsBelowOne N tMaxY + 2 ≤ fuel →
      r_raycast_loop_rnd Flt.round32 map width height fStartX fStartY dx dy stepX stepY
        tDeltaX tDeltaY fuel tMaxX tMaxY x y dist ≠ .error .fuel := by
  induction fuel with
  | zero => intro a b x y dist _ _ h; omega
  | succ n ih =>
    intro a b x y dist ha hb hfuel
    have hrec : ∀ (x1 y1 : Int),
        (Flt.lt a b = true →
          r_raycast_loop_rnd Flt.round32 map width height fStartX fStartY dx dy stepX stepY
            tDeltaX tDeltaY n (Flt.round32 (a + tDeltaX)) b x1 y1 (r_min a b)
              ≠ .error .fuel) ∧
        (Flt.lt a b = false →
          r_raycast_loop_rnd Flt.round32 map width height fStartX fStartY dx dy stepX stepY
            tDeltaX tDeltaY n a (Flt.round32 (b + tDeltaY)) x1 y1 (r_min a b)
              ≠ .error .fuel) := by
      intro x1 y1
      constructor
      · intro c
        have hm : r_min a b = a := by simp [r_min, c]
        rw [hm]
        obtain ⟨h1, h2⟩ := round32_add_step N hN ha hx
        by_cases hle : Flt.le a (.fin 1) = true
        · apply ih _ _ _ _ _ h1 hb
          have := h2 hle
          omega
        · rw [r_raycast_loop_rnd_exit _ _ _ _ _ _ _ _ _ _ _ _ _ _ _ _ _ _
            (by simpa using hle)]
          simp
      · intro c
        have hm : r_min a b = b := by simp [r_min, c]
        rw [hm]
        obtain ⟨h1, h2⟩ := round32_add_step N hN hb hy
        by_cases hle : Flt.le b (.fin 1) = true
        · apply ih _ _ _ _ _ ha h1
          have := h2 hle
          omega
        · rw [r_raycast_loop_rnd_exit _ _ _ _ _ _ _ _ _ _ _ _ _ _ _ _ _ _
            (by simpa using hle)]
          simp
    unfold r_raycast_loop_rnd
    by_cases hd : Flt.le dist (.fin 1) = true
    · rcases c : Flt.lt a b with _ | _
      · simp only [hd, c, if_true, Bool.false_eq_true, if_false]
        split
        · exact (hrec _ _).2 c
        · split
          · simp
          · split
            · split <;> simp
            · exact (hrec _ _).2 c
      · simp only [hd, c, if_true]
        split
        · exact (hrec _ _).1 c
        · split
          · simp
          · split
            · split <;> simp
            · exact (hrec _ _).1 c
    · simp [hd]

theorem roundHalfEven_le_floor_add_one (y : K) : roundHalfEven y ≤ ⌊y⌋ + 1 := by
  unfold roundHalfEven
  split_ifs <;> omega

/-- Rounding a negative number to binary32 gives a number that is not
positive, or `-inf`. -/
theorem binary32_nonpos {x : K} (hx : x < 0) :
    binary32 x = .ninf ∨ ∃ r, binary32 x = .fin r ∧ r ≤ 0 := by
  unfold binary32
  rw [if_neg hx.ne]
  simp only []
  split_ifs with hbig hpos
  · exact absurd hpos (not_lt.mpr hx.le)
  · exact Or.inl rfl
  · right
    refine ⟨_, rfl, mul_nonpos_of_nonpos_of_nonneg ?_ (two_zpow_pos _).le⟩
    have h0 : ⌊x / 2 ^ max (Int.log 2 |x| - 23) (-149)⌋ < 0 :=
      Int.floor_lt.mpr (by
        push_cast
        exact div_neg_of_neg_of_pos hx (two_zpow_pos _))
    have h1 := roundHalfEven_le_floor_add_one (x / 2 ^ max (Int.log 2 |x| - 23) (-149))
    exact_mod_cast (by omega :
      roundHalfEven (x / 2 ^ max (Int.log 2 |x| - 23) (-149)) ≤ 0)

/-- The rounded step `tDelta = 1/|d|` is at least `2^-24 + 2^-72` when
`|d| <= 2^24 - 1`. -/
theorem binary32_inv_atLeast {d : K} (hd0 : d ≠ 0) (hdb : |d| ≤ 2 ^ (24 : Nat) - 1) :
    Flt.AtLeast (1 / 2 ^ (24 : Nat) + 1 / ((2 ^ 72 : Nat) : K)) (binary32 (1 / |d|)) := by
  have hd : 0 < |d| := abs_pos.mpr hd0
  have hx0 : (0 : K) < 1 / |d| := by positivity
  have hx1 : (1 : K) / (2 ^ (24 : Nat) - 1) ≤ 1 / |d| :=
    one_div_le_one_div_of_le hd hdb
  obtain ⟨h1, h2⟩ := log_two_bounds hx0
  obtain ⟨L, hLdef⟩ : ∃ L, L = Int.log 2 (1 / |d|) := ⟨_, rfl⟩
  rw [← hLdef] at h1 h2
  have hL : -24 ≤ L := by
    have h3 : (2 : K) ^ (-24 : Int) < 2 ^ (L + 1) := by
      refine lt_of_le_of_lt ?_ h2
      refine le_trans ?_ hx1
      norm_num
    have := (zpow_lt_zpow_iff_right₀ (by norm_num : (1 : K) < 2)).mp h3
    omega
  rcases binary32_lower h1 h2 (by omega) with hinf | ⟨r, hr, hr1, hr2⟩
  · exact Or.inl hinf
  · refine Or.inr ⟨r, hr, ?_⟩
    by_cases hL0 : L ≤ -24
    · have h4 : (2 : K) ^ (L - 24) ≤ 2 ^ (-48 : Int) :=
        zpow_le_zpow_right₀ (by norm_num) (by omega)
      have h5 : (1 : K) / 2 ^ (24 : Nat) + 1 / ((2 ^ 72 : Nat) : K)
          ≤ 1 / (2 ^ (24 : Nat) - 1) - 2 ^ (-48 : Int) := by norm_num
      exact h5.trans ((sub_le_sub hx1 h4).trans hr2)
    · have h4 : (2 : K) ^ (-23 : Int) ≤ 2 ^ L := zpow_le_zpow_right₀ (by norm_num) (by omega)
      have h5 : (1 : K) / 2 ^ (24 : Nat) + 1 / ((2 ^ 72 : Nat) : K) ≤ 2 ^ (-23 : Int) := by
        norm_num
      exact h5.trans (h4.trans hr1)

/-- The rounded step `tDelta = 1/|d|` is at least `2^-24 + 2^-24` when
`|d| <= 2^23`. -/
theorem binary32_inv_atLeast_small {d : K} (hd0 : d ≠ 0) (hdb : |d| ≤ 2 ^ (23 : Nat)) :
    Flt.AtLeast (1 / 2 ^ (24 : Nat) + 1 / ((2 ^ 24 : Nat) : K)) (binary32 (1 / |d|)) := by
  have hd : 0 < |d| := abs_pos.mpr hd0
  have hx0 : (0 : K) < 1 / |d| := by positivity
  have hx1 : (1 : K) / 2 ^ (23 : Nat) ≤ 1 / |d| := one_div_le_one_div_of_le hd hdb
  obtain ⟨h1, h2⟩ := log_two_bounds hx0
  obtain ⟨L, hLdef⟩ : ∃ L, L = Int.log 2 (1 / |d|) := ⟨_, rfl⟩
  rw [← hLdef] at h1 h2
  have hL : -23 ≤ L := by
    have h3 : (2 : K) ^ (-23 : Int) < 2 ^ (L + 1) := by
      refine lt_of_le_of_lt ?_ h2
      refine le_trans ?_ hx1
      norm_num
    have := (zpow_lt_zpow_iff_right₀ (by norm_num : (1 : K) < 2)).mp h3
    omega
  rcases binary32_lower h1 h2 (by omega) with hinf | ⟨r, hr, hr1, -⟩
  · exact Or.inl hinf
  · refine Or.inr ⟨r, hr, ?_⟩
    have h4 : (2 : K) ^ (-23 : Int) ≤ 2 ^ L := zpow_le_zpow_right₀ (by norm_num) (by omega)
    have h5 : (1 : K) / 2 ^ (24 : Nat) + 1 / ((2 ^ 24 : Nat) : K) ≤ 2 ^ (-23 : Int) := by
      norm_num
    exact h5.trans (h4.trans hr1)

/-- A float that is nonnegative or `+inf` has at most `N + 1` steps of size
`1/N` below one. -/
theorem stepsBelowOne_le (N : Nat) {a : Flt K} (ha : Flt.AtLeast 0 a) :
    stepsBelowOne N a ≤ N + 1 := by
  rcases ha with rfl | ⟨q, rfl, hq⟩
  · show 0 ≤ _
    omega
  · show (⌊(1 - q) * (N : K)⌋ + 1).toNat ≤ N + 1
    have h1 : (1 - q) * (N : K) ≤ ((N : Int) : K) := by
      push_cast
      have : (0 : K) ≤ q * (N : K) := mul_nonneg hq (Nat.cast_nonneg N)
      linarith
    have h2 : ⌊(1 - q) * (N : K)⌋ ≤ (N : Int) := by
      have := Int.floor_le_floor h1
      rwa [Int.floor_intCast] at this
    omega

/-- The rounded first crossing `tMax` of `r_raycast` is nonnegative or `+inf`
when the delta is nonzero. -/
theorem firstT_round32_nonneg (s d : K) (hd : d ≠ 0) :
    Flt.AtLeast 0 (Flt.round32
      ((if Flt.ne (Flt.round32 ((if Flt.ge (Flt.fin d) (.fin 0) then Flt.ceilf (Flt.fin s)
            else Flt.floorf (Flt.fin s)) - Flt.fin s)) (.fin 0)
        then Flt.round32 ((if Flt.ge (Flt.fin d) (.fin 0) then Flt.ceilf (Flt.fin s)
            else Flt.floorf (Flt.fin s)) - Flt.fin s)
        else Flt.ofInt (r_signum (Flt.fin d))) / Flt.fin d)) := by
  have nonneg_of_pos : ∀ x : K, 0 < x → Flt.AtLeast 0 (binary32 x) := by
    intro x hx
    rcases binary32_nonneg hx with h | ⟨r, hr, hr0⟩
    · exact Or.inl h
    · exact Or.inr ⟨r, hr, hr0⟩
  rcases lt_or_gt_of_ne hd with hn | hp
  · have hge : Flt.ge (Flt.fin d) (.fin 0) = false := by simp [Flt.ge, hn]
    have hsig : Flt.ofInt (r_signum (Flt.fin d)) = (Flt.fin (-1) : Flt K) := by
      simp [r_signum, Flt.ofInt, hd, hn]
    rw [hge, hsig]
    simp only [Bool.false_eq_true, if_false, Flt.floorf, Flt.fin_sub_fin]
    have hδ : ((⌊s⌋ : Int) : K) - s ≤ 0 := sub_nonpos.mpr (Int.floor_le s)
    have hone : Flt.AtLeast 0 (Flt.round32 (Flt.fin (-1) / Flt.fin d)) := by
      rw [Flt.fin_div_fin_of_ne _ _ hd]
      exact nonneg_of_pos _ (div_pos_of_neg_of_neg (by norm_num) hn)
    by_cases h0 : ((⌊s⌋ : Int) : K) - s = 0
    · have : Flt.round32 (Flt.fin (((⌊s⌋ : Int) : K) - s)) = .fin 0 := by
        rw [h0]; simp [Flt.round32, binary32]
      rw [this]
      simpa [Flt.ne] using hone
    · rcases binary32_nonpos (lt_of_le_of_ne hδ h0) with h | ⟨r, hr, hr0⟩
      · have : Flt.round32 (Flt.fin (((⌊s⌋ : Int) : K) - s)) = .ninf := h
        rw [this]
        left
        have : ¬ (0 ≤ d) := not_le.mpr hn
        simp [Flt.ne, Flt.eq, Flt.round32, this]
      · have : Flt.round32 (Flt.fin (((⌊s⌋ : Int) : K) - s)) = .fin r := hr
        rw [this]
        by_cases hr00 : r = 0
        · rw [hr00]
          simpa [Flt.ne] using hone
        · have : Flt.ne (Flt.fin r) (.fin 0) = true := by simp [Flt.ne, hr00]
          rw [this, if_pos rfl, Flt.fin_div_fin_of_ne _ _ hd]
          exact nonneg_of_pos _ (div_pos_of_neg_of_neg (lt_of_le_of_ne hr0 hr00) hn)
  · have hge : Flt.ge (Flt.fin d) (.fin 0) = true := by simp [Flt.ge, hp.le]
    have hsig : Flt.ofInt (r_signum (Flt.fin d)) = (Flt.fin 1 : Flt K) := by
      simp [r_signum, Flt.ofInt, hd, not_lt.mpr hp.le]
    rw [hge, hsig]
    simp only [if_true, Flt.ceilf, Flt.fin_sub_fin]
    have hδ : 0 ≤ ((⌈s⌉ : Int) : K) - s := sub_nonneg.mpr (Int.le_ceil s)
    have hone : Flt.AtLeast 0 (Flt.round32 (Flt.fin 1 / Flt.fin d)) := by
      rw [Flt.fin_div_fin_of_ne _ _ hd]
      exact nonneg_of_pos _ (div_pos (by norm_num) hp)
    by_cases h0 : ((⌈s⌉ : Int) : K) - s = 0
    · have : Flt.round32 (Flt.fin (((⌈s⌉ : Int) : K) - s)) = .fin 0 := by
        rw [h0]; simp [Flt.round32, binary32]
      rw [this]
      simpa [Flt.ne] using hone
    · rcases binary32_nonneg (lt_of_le_of_ne hδ (Ne.symm h0)) with h | ⟨r, hr, hr0⟩
      · have : Flt.round32 (Flt.fin (((⌈s⌉ : Int) : K) - s)) = .pinf := h
        rw [this]
        left
        simp [Flt.ne, Flt.eq, Flt.round32, hp.le]
      · have : Flt.round32 (Flt.fin (((⌈s⌉ : Int) : K) - s)) = .fin r := hr
        rw [this]
        by_cases hr00 : r = 0
        · rw [hr00]
          simpa [Flt.ne] using hone
        · have : Flt.ne (Flt.fin r) (.fin 0) = true := by simp [Flt.ne, hr00]
          rw [this, if_pos rfl, Flt.fin_div_fin_of_ne _ _ hd]
          exact nonneg_of_pos _ (div_pos (lt_of_le_of_ne hr0 (Ne.symm hr00)) hp)

/-- Termination of `r_raycast` in binary32 for finite end points and finite
nonzero deltas whose rounded reciprocals `tDelta` are at least `2^-24 + 1/N`:
`2·(N + 1) + 2` iterations suffice. -/
theorem r_raycast_round32_terminates (N : Nat) (hN : 0 < N) (fuel : Nat) (map : List Nat)
    (width height : Int) (sx sy ex ey dx dy : K) (hdx : binary32 (ex - sx) = .fin dx)
    (hdy : binary32 (ey - sy) = .fin dy) (hdx0 : dx ≠ 0) (hdy0 : dy ≠ 0)
    (htx : Flt.AtLeast (1 / 2 ^ (24 : Nat) + 1 / (N : K)) (binary32 (1 / |dx|)))
    (hty : Flt.AtLeast (1 / 2 ^ (24 : Nat) + 1 / (N : K)) (binary32 (1 / |dy|)))
    (hfuel : 2 * (N + 1) + 2 ≤ fuel) :
    r_raycast_rnd Flt.round32 fuel map width height (.fin sx) (.fin sy) (.fin ex) (.fin ey)
      ≠ .error .fuel := by
  have hrx : Flt.round32 (Flt.fin ex - Flt.fin sx) = .fin dx := by
    rw [Flt.fin_sub_fin]; exact hdx
  have hry : Flt.round32 (Flt.fin ey - Flt.fin sy) = .fin dy := by
    rw [Flt.fin_sub_fin]; exact hdy
  unfold r_raycast_rnd
  simp only [hrx, hry, Flt.toInt]
  apply r_raycast_loop_round32_terminates N hN
  · rw [(tDelta_of_ne hdx0).1]
    exact htx
  · rw [(tDelta_of_ne hdy0).1]
    exact hty
  · exact firstT_round32_nonneg sx dx hdx0
  · exact firstT_round32_nonneg sy dy hdy0
  · have h1 := stepsBelowOne_le N (firstT_round32_nonneg sx dx hdx0)
    have h2 := stepsBelowOne_le N (firstT_round32_nonneg sy dy hdy0)
    omega

/-- Powers of two from `2^-149` to `2^127` are binary32 values. -/
theorem binary32_pow2 (j : Int) (h1 : -149 ≤ j) (h2 : j ≤ 127) :
    binary32 ((2 : K) ^ j) = .fin (2 ^ j) := by
  have hmax : ((1 : Nat) : K) * 2 ^ j < 2 ^ (128 : Nat) := by
    rw [Nat.cast_one, one_mul, ← zpow_natCast]
    exact zpow_lt_zpow_right₀ (by norm_num) (by push_cast; omega)
  have := binary32_exact (K := K) 1 j (by norm_num) (by norm_num) h1 hmax
  simpa using this

/-- The multiples `m·2^-24` of `2^-24` up to 1 are binary32 values. -/
theorem binary32_grid (m : Nat) (h1 : 1 ≤ m) (h2 : m ≤ 2 ^ 24) :
    binary32 ((m : K) / 2 ^ (24 : Nat)) = .fin ((m : K) / 2 ^ (24 : Nat)) := by
  rcases Nat.lt_or_ge m (2 ^ 24) with hlt | hge
  · have e : (m : K) / 2 ^ (24 : Nat) = (m : K) * 2 ^ (-24 : Int) := by
      have e24 : (2 : K) ^ (-24 : Int) = 1 / 2 ^ (24 : Nat) := by norm_num
      rw [e24]; ring
    rw [e]
    apply binary32_exact m (-24) (by omega) hlt (by norm_num)
    have hm : (m : K) < 16777216 := by
      have : m < 16777216 := by simpa using hlt
      exact_mod_cast this
    have e24 : (2 : K) ^ (-24 : Int) = 1 / 16777216 := by norm_num
    rw [e24]
    have : (m : K) * (1 / 16777216) < 1 := by linarith
    refine lt_trans this ?_
    exact one_lt_pow₀ (by norm_num) (by norm_num)
  · have hm : m = 2 ^ 24 := by omega
    subst hm
    have e : (((2 ^ 24 : Nat) : K)) / 2 ^ (24 : Nat) = 1 := by norm_num
    rw [e]
    have := binary32_pow2 (K := K) 0 (by norm_num) (by norm_num)
    simpa using this

/-- The ray of the non-termination example: once `tMaxX` is a multiple of
`2^-24` in `(0, 1]`, `tMaxY = 2` and `x >= 0` in the 1x1 empty grid, the loop
in binary32 never ends: `tMaxX` climbs to 1 in steps of `2^-24` and stays
there, because `1 + 2^-24` rounds to 1. -/
theorem r_raycast_loop_round32_stalls (fStartX fStartY dx dy : Flt K) (fuel : Nat) :
    ∀ (m : Nat) (x : Int) (dist : Flt K), 1 ≤ m → m ≤ 2 ^ 24 → 0 ≤ x →
      Flt.le dist (.fin 1) = true →
      r_raycast_loop_rnd Flt.round32 [0] 1 1 fStartX fStartY dx dy 1 1
        (.fin (1 / 2 ^ (24 : Nat))) (.fin 4) fuel (.fin ((m : K) / 2 ^ (24 : Nat))) (.fin 2)
        x 0 dist = .error .fuel := by
  induction fuel with
  | zero =>
    intro m x dist _ _ _ hd
    unfold r_raycast_loop_rnd
    simp [hd]
  | succ n ih =>
    intro m x dist h1 h2 hx hd
    have hmK : (m : K) ≤ 2 ^ (24 : Nat) := by exact_mod_cast h2
    have hle1 : (m : K) / 2 ^ (24 : Nat) ≤ 1 := by
      rw [div_le_one (by positivity)]; exact hmK
    have hlt : Flt.lt (Flt.fin ((m : K) / 2 ^ (24 : Nat))) (.fin 2) = true := by
      simp only [Flt.lt_fin_fin, decide_eq_true_eq]
      linarith
    have hmin : r_min (Flt.fin ((m : K) / 2 ^ (24 : Nat))) (.fin 2)
        = .fin ((m : K) / 2 ^ (24 : Nat)) := by
      simp [r_min, hlt]
    have hnext : ∃ m1 : Nat, 1 ≤ m1 ∧ m1 ≤ 2 ^ 24 ∧
        Flt.round32 (Flt.fin ((m : K) / 2 ^ (24 : Nat)) + Flt.fin (1 / 2 ^ (24 : Nat)))
          = .fin ((m1 : K) / 2 ^ (24 : Nat)) := by
      rw [Flt.fin_add_fin]
      rcases Nat.lt_or_ge m (2 ^ 24) with hl | hg
      · refine ⟨m + 1, by omega, by omega, ?_⟩
        have e : (m : K) / 2 ^ (24 : Nat) + 1 / 2 ^ (24 : Nat)
            = ((m + 1 : Nat) : K) / 2 ^ (24 : Nat) := by
          push_cast; ring
        rw [e]
        exact binary32_grid (m + 1) (by omega) (by omega)
      · have hm : m = 2 ^ 24 := by omega
        refine ⟨2 ^ 24, by norm_num, le_refl _, ?_⟩
        subst hm
        have e : (((2 ^ 24 : Nat) : K)) / 2 ^ (24 : Nat) + 1 / 2 ^ (24 : Nat)
            = 1 + 1 / 2 ^ (24 : Nat) := by
          norm_num
        have e1 : (((2 ^ 24 : Nat) : K)) / 2 ^ (24 : Nat) = 1 := by
          norm_num
        rw [e, e1]
        exact binary32_one_add_half_ulp
    obtain ⟨m1, hm1, hm2, hstep⟩ := hnext
    unfold r_raycast_loop_rnd
    simp only [hd, hlt, if_true, hmin, hstep]
    rw [if_pos (Or.inr (Or.inl (by omega)))]
    exact ih m1 (x + 1) _ hm1 hm2 (by omega) (by simpa using hle1)

/-- In binary32 the ray from `(e=0, n=0.5)` to `(e=2^24, n=0.75)` over the empty
1x1 grid never leaves the loop of `r_raycast`, whatever the fuel. -/
theorem r_raycast_round32_stalls (fuel : Nat) :
    r_raycast_rnd (K := K) Flt.round32 fuel [0] 1 1 (.fin 0) (.fin (1 / 2))
      (.fin (2 ^ (24 : Nat))) (.fin (3 / 4)) = .error .fuel := by
  have b1 : binary32 ((2 : K) ^ (24 : Nat)) = .fin (2 ^ (24 : Nat)) := by
    have := binary32_pow2 (K := K) 24 (by norm_num) (by norm_num)
    rw [← zpow_natCast]
    exact_mod_cast this
  have b2 : binary32 ((1 : K) / 4) = .fin (1 / 4) := by
    have := binary32_pow2 (K := K) (-2) (by norm_num) (by norm_num)
    have e : (2 : K) ^ (-2 : Int) = 1 / 4 := by norm_num
    rwa [e] at this
  have b3 : binary32 ((1 : K) / 2 ^ (24 : Nat)) = .fin (1 / 2 ^ (24 : Nat)) := by
    have := binary32_grid (K := K) 1 (le_refl _) (by norm_num)
    simpa using this
  have b4 : binary32 (4 : K) = .fin 4 := by
    have := binary32_pow2 (K := K) 2 (by norm_num) (by norm_num)
    have e : (2 : K) ^ (2 : Int) = 4 := by norm_num
    rwa [e] at this
  have b5 : binary32 ((1 : K) / 2) = .fin (1 / 2) := by
    have := binary32_pow2 (K := K) (-1) (by norm_num) (by norm_num)
    have e : (2 : K) ^ (-1 : Int) = 1 / 2 := by norm_num
    rwa [e] at this
  have b6 : binary32 (2 : K) = .fin 2 := by
    have := binary32_pow2 (K := K) 1 (by norm_num) (by norm_num)
    have e : (2 : K) ^ (1 : Int) = 2 := by norm_num
    rwa [e] at this
  have b0 : binary32 (0 : K) = .fin 0 := by simp [binary32]
  have c1 : ⌈(1 / 2 : K)⌉ = 1 := by rw [Int.ceil_eq_iff]; norm_num
  have c2 : ⌊(1 / 2 : K)⌋ = 0 := by rw [Int.floor_eq_iff]; norm_num
  have hpos : (0 : K) < 2 ^ (24 : Nat) := by positivity
  have e1 : (3 / 4 : K) - 1 / 2 = 1 / 4 := by norm_num
  have e2 : ((1 : K)) - 1 / 2 = 1 / 2 := by norm_num
  have e3 : (1 / 2 : K) / (1 / 4) = 2 := by norm_num
  have e4 : (1 : K) / (1 / 4) = 4 := by norm_num
  have hstall := r_raycast_loop_round32_stalls (K := K) (.fin 0) (.fin (1 / 2))
    (.fin (2 ^ (24 : Nat))) (.fin (1 / 4)) fuel 1 0 (.fin 0) (le_refl _) (by norm_num)
    (le_refl _) (by simp)
  rw [Nat.cast_one] at hstall
  rw [← hstall]
  unfold r_raycast_rnd
  simp only [Flt.fin_sub_fin, sub_zero, Flt.round32, b1, e1, b2, r_signum, Flt.eq_fin_fin,
    Flt.lt_fin_fin, hpos.ne', not_lt.mpr hpos.le, decide_False, Bool.false_eq_true, if_false,
    Flt.ofInt, Int.cast_one, Flt.ge, Flt.le_fin_fin, hpos.le, decide_True, if_true, Flt.ceilf,
    Int.ceil_zero, Int.cast_zero, b0, Flt.ne, c1, e2, b5, Flt.toInt, le_refl, Int.floor_zero,
    c2]
  have b3n : binary32 ((1 : K) / 16777216) = .fin (1 / 16777216) := by
    have e : (1 : K) / 2 ^ (24 : Nat) = 1 / 16777216 := by norm_num
    rw [← e]; exact b3
  norm_num [b3n, b4, b5, b6, e3, e4, Flt.fin_div_fin_of_ne]
/-- Without rounding the loop is `r_raycast_loop`. -/
theorem r_raycast_loop_rnd_id (map : List Nat) (width height : Int)
    (fStartX fStartY dx dy : Flt K) (stepX stepY : Int) (tDeltaX tDeltaY : Flt K) (fuel : Nat) :
    ∀ (tMaxX tMaxY : Flt K) (x y : Int) (dist : Flt K),
      r_raycast_loop_rnd id map width height fStartX fStartY dx dy stepX stepY tDeltaX tDeltaY
          fuel tMaxX tMaxY x y dist
        = r_raycast_loop map width height fStartX fStartY dx dy stepX stepY tDeltaX tDeltaY
          fuel tMaxX tMaxY x y dist := by
  induction fuel with
  | zero =>
    intro tMaxX tMaxY x y dist
    unfold r_raycast_loop_rnd r_raycast_loop
    rfl
  | succ n ih =>
    intro tMaxX tMaxY x y dist
    unfold r_raycast_loop_rnd r_raycast_loop
    simp only [id, ih]

/-- Without rounding `r_raycast_rnd` is `r_raycast`. -/
theorem r_raycast_rnd_id (fuel : Nat) (map : List Nat) (width height : Int)
    (fStartX fStartY fEndX fEndY : Flt K) :
    r_raycast_rnd id fuel map width height fStartX fStartY fEndX fEndY
      = r_raycast fuel map width height fStartX fStartY fEndX fEndY := by
  unfold r_raycast_rnd r_raycast
  simp only [id, r_raycast_loop_rnd_id]
end RoundingLemmas

/-! ## The corner ray of the 4x4 room in binary32 -/

/-- C22, counterexample: in binary32 the ray from `(e=0, n=0.5)` to
`(e=2^24, n=0.75)` over the empty 1x1 grid has `dx = 2^24` and `dy = 0.25`, both
finite and nonzero, and the loop of `r_raycast` never ends: whatever the fuel,
the run uses it up.  `tMaxX` climbs in steps of `tDeltaX = 2^-24` to `1.0` and
stays there, because `1.0f + 2^-24` rounds to `1.0f`, so `dist <= 1.0f` holds in
every iteration. -/
theorem c22_binary32_long_ray_never_ends :
    binary32 ((2 : ℚ) ^ (24 : Nat) - 0) = .fin (2 ^ (24 : Nat)) ∧
    binary32 ((3 / 4 : ℚ) - 1 / 2) = .fin (1 / 4) ∧
    ∀ fuel : Nat,
      r_raycast_rnd (K := ℚ) Flt.round32 fuel [0] 1 1 (.fin 0) (.fin (1 / 2))
        (.fin (2 ^ (24 : Nat))) (.fin (3 / 4)) = .error .fuel := by
  refine ⟨?_, ?_, fun fuel => r_raycast_round32_stalls fuel⟩
  · have := binary32_pow2 (K := ℚ) 24 (by norm_num) (by norm_num)
    rw [sub_zero, ← zpow_natCast]
    exact_mod_cast this
  · have := binary32_pow2 (K := ℚ) (-2) (by norm_num) (by norm_num)
    have e : (2 : ℚ) ^ (-2 : Int) = 1 / 4 := by norm_num
    have e1 : (3 / 4 : ℚ) - 1 / 2 = 1 / 4 := by norm_num
    rw [e1]
    rwa [e] at this

section Claims9

variable {K : Type} [LinearOrderedField K] [FloorRing K]

/-- C22, amended: in binary32, for every grid and every ray with finite end
points whose deltas `dx`, `dy` (as `r_raycast` computes them) are finite and
nonzero, the DDA loop of `r_raycast` terminates when `|dx|` and `|dy|` are at
most `2^24 - 1`: with `2^73 + 4` iterations of fuel or more the run never ends
for lack of fuel, it reports a wall or a miss (or stops on an assertion or a
read outside the array).  When `|dx|` and `|dy|` are at most `2^23`, each
iteration raises the `tMax` it steps by `2^-24` or more while that `tMax` is
`<= 1`, and `2^25 + 4` iterations suffice. -/
theorem c22_dda_terminates_binary32 (fuel : Nat) (map : List Nat) (width height : Int)
    (sx sy ex ey dx dy : K) (hdx : binary32 (ex - sx) = .fin dx)
    (hdy : binary32 (ey - sy) = .fin dy) (hdx0 : dx ≠ 0) (hdy0 : dy ≠ 0) :
    (|dx| ≤ 2 ^ (24 : Nat) - 1 → |dy| ≤ 2 ^ (24 : Nat) - 1 → 2 ^ 73 + 4 ≤ fuel →
      r_raycast_rnd Flt.round32 fuel map width height (.fin sx) (.fin sy) (.fin ex) (.fin ey)
        ≠ .error .fuel) ∧
    (|dx| ≤ 2 ^ (23 : Nat) → |dy| ≤ 2 ^ (23 : Nat) → 2 ^ 25 + 4 ≤ fuel →
      r_raycast_rnd Flt.round32 fuel map width height (.fin sx) (.fin sy) (.fin ex) (.fin ey)
        ≠ .error .fuel) := by
  constructor
  · intro hdxb hdyb hfuel
    exact r_raycast_round32_terminates (2 ^ 72) (by norm_num) fuel map width height sx sy ex ey
      dx dy hdx hdy hdx0 hdy0 (binary32_inv_atLeast hdx0 hdxb) (binary32_inv_atLeast hdy0 hdyb)
      (by omega)
  · intro hdxb hdyb hfuel
    exact r_raycast_round32_terminates (2 ^ 24) (by norm_num) fuel map width height sx sy ex ey
      dx dy hdx hdy hdx0 hdy0 (binary32_inv_atLeast_small hdx0 hdxb)
      (binary32_inv_atLeast_small hdy0 hdyb) (by omega)

end Claims9

/-- C22, witness: the diagonal ray of the 4x4 room from `(e=1.5, n=1.5)` to
`(e=2.5, n=2.5)`, with `dx = dy = 1`, ends within `2^25 + 4` iterations. -/
theorem c22_dda_terminates_binary32_witness :
    binary32 ((5 / 2 : ℚ) - 3 / 2) = .fin 1 ∧ (1 : ℚ) ≠ 0 ∧
    |(1 : ℚ)| ≤ 2 ^ (23 : Nat) ∧
    r_raycast_rnd (K := ℚ) Flt.round32 (2 ^ 25 + 4) room 4 4 (.fin (3 / 2)) (.fin (3 / 2))
      (.fin (5 / 2)) (.fin (5 / 2)) ≠ .error .fuel := by
  have h1 : binary32 ((5 / 2 : ℚ) - 3 / 2) = .fin 1 := by
    have := binary32_pow2 (K := ℚ) 0 (by norm_num) (by norm_num)
    have e : (5 / 2 : ℚ) - 3 / 2 = 1 := by norm_num
    rw [e]
    simpa using this
  have h2 : |(1 : ℚ)| ≤ 2 ^ (23 : Nat) := by norm_num
  exact ⟨h1, one_ne_zero, h2,
    (c22_dda_terminates_binary32 (K := ℚ) (2 ^ 25 + 4) room 4 4 (3 / 2) (3 / 2) (5 / 2)
      (5 / 2) 1 1 h1 h1 one_ne_zero one_ne_zero).2 h2 h2 (le_refl _)⟩

end Engine
